import Mathlib

/-!
# P1-Redes: byte-budgeted context window and session compaction (`src/core.js`)

Shallow embedding of the size helpers (`bytesOf`, `trimByBytes`), of
`buildContext` and of `compactSessionIfNeeded` (namespace `P1Core`), and of
the stdio bridge of `src/api-proxy.js` and `src/mcp-stdio.js` (namespace
`McpBridge`), followed by the properties proved about them. All definitions
come first, the theorems of both namespaces after them.

A JavaScript string is modelled as the list of its UTF-16 code units
(natural numbers, a real unit being below `2^16`); `String.prototype.slice`
and `Array.prototype.slice` share one definition, `jsSlice`.
-/

namespace P1Core

/-! ## JavaScript strings and UTF-8 -/

/-- A JavaScript string, as the list of its UTF-16 code units. -/
abbrev JSString := List Nat

/-- Code units of one character: itself in the basic plane, a surrogate pair
above it. -/
def charUnits (c : Char) : List Nat :=
  if c.toNat < 0x10000 then [c.toNat]
  else [0xD800 + (c.toNat - 0x10000) / 1024, 0xDC00 + (c.toNat - 0x10000) % 1024]

/-- Code units of a string literal. -/
def lit (s : String) : JSString := s.toList.flatMap charUnits

/-- Leading (high) surrogate code unit. -/
def isHighSurrogate (c : Nat) : Bool := 0xD800 ≤ c && c ≤ 0xDBFF

/-- Trailing (low) surrogate code unit. -/
def isLowSurrogate (c : Nat) : Bool := 0xDC00 ≤ c && c ≤ 0xDFFF

/-- UTF-8 bytes of one code point. -/
def encodeScalar (cp : Nat) : List Nat :=
  if cp < 0x80 then [cp]
  else if cp < 0x800 then [0xC0 + cp / 64, 0x80 + cp % 64]
  else if cp < 0x10000 then [0xE0 + cp / 4096, 0x80 + cp / 64 % 64, 0x80 + cp % 64]
  else [0xF0 + cp / 262144, 0x80 + cp / 4096 % 64, 0x80 + cp / 64 % 64, 0x80 + cp % 64]

/-- Code point of a surrogate pair. -/
def pairScalar (hi lo : Nat) : Nat := 0x10000 + (hi - 0xD800) * 1024 + (lo - 0xDC00)

/-- UTF-8 bytes of a code unit that is not half of a surrogate pair: an
unpaired surrogate is replaced by U+FFFD. -/
def encodeUnit (c : Nat) : List Nat :=
  if isHighSurrogate c || isLowSurrogate c then encodeScalar 0xFFFD else encodeScalar c

/-- The encoder `new TextEncoder().encode(s)`: a surrogate pair becomes one
four-byte sequence, an unpaired surrogate becomes U+FFFD (three bytes). -/
def utf8Encode : JSString → List Nat
  | [] => []
  | [c] => encodeUnit c
  | c :: d :: rest =>
    if isHighSurrogate c && isLowSurrogate d then
      encodeScalar (pairScalar c d) ++ utf8Encode rest
    else encodeUnit c ++ utf8Encode (d :: rest)

/-- Source `bytesOf(str)`: the byte length of the UTF-8 encoding
(`TextEncoder`, and `Buffer.byteLength(_, 'utf8')` gives the same number). -/
def bytesOf (str : JSString) : Nat := (utf8Encode str).length

/-- The coercion `String(str||'')` on a value that is a string or undefined. -/
def strOrEmpty (v : Option JSString) : JSString := v.getD []

/-- Relative index of `slice`: a negative index counts from the end, and the
result is clamped to `[0, len]`. -/
def relIndex (len : Nat) (i : Int) : Nat :=
  if i < 0 then (len + i).toNat else min i.toNat len

/-- The method `xs.slice(start, stop)` of strings and arrays; `stop = none`
is the call with one argument. -/
def jsSlice {α : Type} (xs : List α) (start : Int) (stop : Option Int) : List α :=
  let len := xs.length
  let k := relIndex len start
  let fin := match stop with
    | none => len
    | some e => relIndex len e
  (xs.drop k).take (fin - k)

/-- The continuation marker `' …'` (a space and U+2026). -/
def marker : JSString := [0x20, 0x2026]

/-- The `while (lo < hi)` loop of `trimByBytes`; it returns the final `hi`.
Every iteration shrinks `hi - lo`, so `fuel = hi - lo` iterations suffice. -/
def trimLoop (s : JSString) (maxBytes : Nat) : Nat → Nat → Nat → Nat
  | 0, _, hi => hi
  | fuel + 1, lo, hi =>
    if lo < hi then
      let mid := (lo + hi) / 2
      if bytesOf (jsSlice s 0 (some (mid : Int))) ≤ maxBytes then
        trimLoop s maxBytes fuel (mid + 1) hi
      else trimLoop s maxBytes fuel lo mid
    else hi

/-- Source `trimByBytes(str, maxBytes)` on a string `s`. -/
def trimByBytes (s : JSString) (maxBytes : Nat) : JSString :=
  if bytesOf s ≤ maxBytes then s
  else
    let hi := trimLoop s maxBytes s.length 0 s.length
    jsSlice s 0 (some (((hi : Int) - 1) ⊔ 0)) ++ marker

/-! ## Sessions, turns and the core state -/

/-- One logged message of a session (`role`, `serverId`, `ts`, `text`,
`preview`); `text` and `preview` may be absent. -/
structure Turn where
  role : String
  serverId : String
  ts : Nat
  text : Option JSString
  preview : Option JSString
deriving DecidableEq, Repr

/-- A session record `{ messages, createdAt, summary }`; the storage adapters
return a record without `summary` for a session that has no file yet. -/
structure Session where
  messages : List Turn
  createdAt : Nat
  summary : Option JSString
deriving DecidableEq, Repr

/-- The part of `state` of `createCore` that the two operations read and
write: the sessions by server id and the log lines. -/
structure State where
  sessions : String → Option Session
  logs : List String

/-- A context part before its final trim; the content of a turn part is
`m.preview ?? m.text`, which may be undefined. -/
structure RawPart where
  role : String
  content : Option JSString
deriving DecidableEq, Repr

/-- A context part `{ role, content }` as returned by `buildContext`. -/
structure ContextPart where
  role : String
  content : JSString
deriving DecidableEq, Repr

/-- Source constant `MAX_CONTEXT_BYTES`. -/
def MAX_CONTEXT_BYTES : Nat := 2048

/-- Source constant `MAX_SESSION_BYTES`. -/
def MAX_SESSION_BYTES : Nat := 500 * 1024

/-- Source constant `SUMMARY_BULLETS`. -/
def SUMMARY_BULLETS : Nat := 5

/-- Source constant `DEFAULT_CONTEXT_TURNS`. -/
def DEFAULT_CONTEXT_TURNS : Nat := 6

/-- White space and line terminators of ECMAScript, the class matched by
`\s` and stripped by `trim()`. -/
def isJsWhitespace (c : Nat) : Bool :=
  c == 0x09 || c == 0x0A || c == 0x0B || c == 0x0C || c == 0x0D || c == 0x20 ||
  c == 0xA0 || c == 0x1680 || (0x2000 ≤ c && c ≤ 0x200A) || c == 0x2028 ||
  c == 0x2029 || c == 0x202F || c == 0x205F || c == 0x3000 || c == 0xFEFF

/-- The method `s.trim()`. -/
def jsTrim (s : JSString) : JSString :=
  ((s.dropWhile isJsWhitespace).reverse.dropWhile isJsWhitespace).reverse

/-- The call `s.replace(/\s+/g, ' ')`: every maximal run of white space is
replaced by one space. -/
def collapseWs : JSString → JSString
  | [] => []
  | [c] => if isJsWhitespace c then [0x20] else [c]
  | c :: d :: rest =>
    if isJsWhitespace c then
      if isJsWhitespace d then collapseWs (d :: rest)
      else 0x20 :: collapseWs (d :: rest)
    else c :: collapseWs (d :: rest)

/-- The call `lines.join(sep)` on an array of strings. -/
def jsJoin (sep : JSString) : List JSString → JSString
  | [] => []
  | [x] => x
  | x :: y :: rest => x ++ sep ++ jsJoin sep (y :: rest)

/-- Source `pushLog(line)`, restricted to its effect on `state.logs`; `now`
is the time stamp `new Date().toISOString()` of the call. -/
def pushLog (now : String) (line : String) (st : State) : State :=
  { st with logs := st.logs ++ ["[" ++ now ++ "] " ++ line] }

/-! ## `compactSessionIfNeeded` -/

/-- The text `t` of one summary bullet:
`(m.preview ?? m.text ?? '').replace(/\s+/g,' ').slice(0, 160)`. -/
def bulletText (m : Turn) : JSString :=
  jsSlice (collapseWs ((m.preview.orElse fun _ => m.text).getD [])) 0 (some 160)

/-- One summary bullet, the template string with `who` and `t` filled in. -/
def bullet (m : Turn) : JSString :=
  let who := if m.role = "host" then lit "Usuario" else lit "Asistente"
  lit "- " ++ who ++ lit ": " ++ bulletText m

/-- The string assigned to `sess.summary` inside `if (older.length)`. -/
def foldedSummary (summary : Option JSString) (older : List Turn) : JSString :=
  let bullets := jsJoin (lit "\n") ((jsSlice older (-(SUMMARY_BULLETS : Int)) none).map bullet)
  let pre := match summary with
    | some s => if s ≠ [] then s ++ lit "\n" else []
    | none => []
  trimByBytes (pre ++ bullets) 2000

/-- Source `compactSessionIfNeeded(id)`. `stringify` is the built-in
`JSON.stringify` on a session record and `now` the time stamp of the log
line; `Math.round(rawSize/1024)` is `(rawSize + 512) / 1024`. -/
def compactSessionIfNeeded (contextTurns : Nat) (stringify : Session → JSString)
    (now : String) (st : State) (id : String) : State :=
  match st.sessions id with
  | none => st
  | some sess =>
    let rawSize := bytesOf (stringify sess)
    if rawSize ≤ MAX_SESSION_BYTES then st
    else
      let keepCount := contextTurns * 2
      let keep := jsSlice sess.messages (-(keepCount : Int)) none
      let older := jsSlice sess.messages 0
        (some (((sess.messages.length : Int) - (keepCount : Int)) ⊔ 0))
      let summary' := if older.length ≠ 0 then some (foldedSummary sess.summary older)
        else sess.summary
      let sess' : Session := { sess with summary := summary', messages := keep }
      pushLog now
        ("session:compacted -> " ++ id ++ " (size was ~" ++ toString ((rawSize + 512) / 1024) ++ "KB)")
        { st with sessions := Function.update st.sessions id (some sess') }

/-! ## `buildContext` -/

/-- The `for` loop of `buildContext` over `[...parts, ...recent]`, with the
accumulators `out` and `used`; `Math.max(0, MAX_CONTEXT_BYTES - used)` is the
truncated subtraction. -/
def fillBudget (totalParts : Nat) : List RawPart → List ContextPart → Nat → List ContextPart
  | [], out, _ => out
  | part :: more, out, used =>
    let remaining := MAX_CONTEXT_BYTES - used
    if remaining ≤ 0 then out
    else
      let allowance := max 64 (remaining / (totalParts - out.length))
      let trimmed : ContextPart :=
        { role := part.role, content := trimByBytes (strOrEmpty part.content) allowance }
      fillBudget totalParts more (out ++ [trimmed]) (used + bytesOf trimmed.content)

/-- The summary part pushed first, when `sess.summary` is a string that is
not blank; `Math.floor(MAX_CONTEXT_BYTES * 0.35)` is `2048 * 35 / 100 = 716`. -/
def summaryParts (summary : Option JSString) : List RawPart :=
  match summary with
  | some s =>
    if s ≠ [] ∧ jsTrim s ≠ [] then
      [{ role := "system", content := some (trimByBytes s (MAX_CONTEXT_BYTES * 35 / 100)) }]
    else []
  | none => []

/-- The turns kept by `.filter(m => m.role === 'host' || m.role === 'server')`. -/
def hostServerTurns (messages : List Turn) : List Turn :=
  messages.filter fun m => m.role = "host" || m.role = "server"

/-- The array `recent`: the slice `msgs.slice(-contextTurns)` mapped to parts. -/
def recentParts (contextTurns : Nat) (msgs : List Turn) : List RawPart :=
  (jsSlice msgs (-(contextTurns : Int)) none).map fun m =>
    { role := if m.role = "host" then "host" else "server",
      content := m.preview.orElse fun _ => m.text }

/-- The messages read by `buildContext`: those of
`state.sessions[id] || { messages: [] }`. -/
def sessMessages (st : State) (id : String) : List Turn :=
  match st.sessions id with
  | some sess => sess.messages
  | none => []

/-- The summary read by `buildContext`, undefined for a missing session. -/
def sessSummary (st : State) (id : String) : Option JSString :=
  match st.sessions id with
  | some sess => sess.summary
  | none => none

/-- Source `buildContext(id)`. -/
def buildContext (contextTurns : Nat) (st : State) (id : String) : List ContextPart :=
  let msgs := hostServerTurns (sessMessages st id)
  let parts := summaryParts (sessSummary st id)
  let recent := recentParts contextTurns msgs
  let totalParts := if parts.length + recent.length = 0 then 1 else parts.length + recent.length
  fillBudget totalParts (parts ++ recent) [] 0

/-- Total encoded size of the contents of a list of parts. -/
def totalBytes (parts : List ContextPart) : Nat := (parts.map fun p => bytesOf p.content).sum

/-- The parts of a context other than the summary part. -/
def nonSummary (out : List ContextPart) : List ContextPart :=
  out.filter fun p => p.role ≠ "system"

/-- A returned part is a trimmed form of a raw part: same role, content cut
by `trimByBytes` at some allowance. -/
def TrimOf (p : ContextPart) (r : RawPart) : Prop :=
  p.role = r.role ∧ ∃ a, p.content = trimByBytes (strOrEmpty r.content) a

/-- A returned part carries a turn: the role of the turn and a trimmed form
of its preview, or of its text when it has no preview. -/
def CarriesTurn (p : ContextPart) (m : Turn) : Prop :=
  p.role = m.role ∧
    ∃ a, p.content = trimByBytes (strOrEmpty (m.preview.orElse fun _ => m.text)) a

/-! ## The folded summary in the words of the specification -/

/-- Spec wording: collapse every run of white space to one space. The text is
split into maximal runs of adjacent white-space characters (every other
character is a run of its own) and each white-space run becomes one space. -/
def specCollapse (s : JSString) : JSString :=
  ((s.splitBy fun a b => isJsWhitespace a && isJsWhitespace b).map fun run =>
    if run.all isJsWhitespace then [0x20] else run).flatten

/-- Spec wording: the preview of the turn, or its text when it has no
preview (nothing when it has neither). -/
def specTurnText (m : Turn) : JSString :=
  match m.preview with
  | some p => p
  | none =>
    match m.text with
    | some t => t
    | none => []

/-- Spec wording: the line `- Usuario: t` for a host turn and `- Asistente: t`
otherwise, `t` being the first 160 characters of the collapsed text. -/
def specBulletLine (m : Turn) : JSString :=
  (if m.role = "host" then lit "- Usuario: " else lit "- Asistente: ") ++
    (specCollapse (specTurnText m)).take 160

/-- Spec wording: the last `min e 5` of the `e` evicted turns, in order. -/
def specBulletTurns (evicted : List Turn) : List Turn :=
  evicted.drop (evicted.length - min evicted.length 5)

/-- Spec wording: the old summary followed by a newline, empty when there was
no summary. -/
def specPre (summary : Option JSString) : JSString :=
  match summary with
  | none => []
  | some [] => []
  | some (c :: s) => (c :: s) ++ [0x0A]

/-- Spec wording: the new summary, `trimByBytes(pre + bullets, 2000)` with the
bullet lines joined by newlines. -/
def specSummary (summary : Option JSString) (evicted : List Turn) : JSString :=
  trimByBytes
    (specPre summary ++ List.intercalate [0x0A] ((specBulletTurns evicted).map specBulletLine))
    2000

/-! ## A model of `JSON.stringify` on session records

The compactor takes the serializer as a parameter; this model of the built-in
serves the concrete sessions of the examples. -/

/-- One lower-case hexadecimal digit. -/
def hexDigit (n : Nat) : Nat := if n < 10 then 48 + n else 87 + n

/-- The escape `\uXXXX` of a code unit. -/
def unicodeEscape (c : Nat) : JSString :=
  [0x5C, 0x75, hexDigit (c / 4096 % 16), hexDigit (c / 256 % 16), hexDigit (c / 16 % 16),
    hexDigit (c % 16)]

/-- The JSON escape of a code unit that is not half of a surrogate pair. -/
def jsonEscapeUnit (c : Nat) : JSString :=
  if c = 0x08 then [0x5C, 0x62]
  else if c = 0x09 then [0x5C, 0x74]
  else if c = 0x0A then [0x5C, 0x6E]
  else if c = 0x0C then [0x5C, 0x66]
  else if c = 0x0D then [0x5C, 0x72]
  else if c = 0x22 then [0x5C, 0x22]
  else if c = 0x5C then [0x5C, 0x5C]
  else if c < 0x20 || isHighSurrogate c || isLowSurrogate c then unicodeEscape c
  else [c]

/-- The body of a quoted JSON string: surrogate pairs are copied, unpaired
surrogates and control characters are escaped. -/
def jsonEscape : JSString → JSString
  | [] => []
  | [c] => jsonEscapeUnit c
  | c :: d :: rest =>
    if isHighSurrogate c && isLowSurrogate d then c :: d :: jsonEscape rest
    else jsonEscapeUnit c ++ jsonEscape (d :: rest)

/-- A quoted JSON string. -/
def jsonQuote (s : JSString) : JSString := [0x22] ++ jsonEscape s ++ [0x22]

/-- A member `,"key":"value"` of an object, omitted when the value is undefined. -/
def jsonOptMember (key : String) (v : Option JSString) : JSString :=
  match v with
  | some s => lit "," ++ jsonQuote (lit key) ++ lit ":" ++ jsonQuote s
  | none => []

/-- The serialization of one turn. -/
def jsonTurn (m : Turn) : JSString :=
  lit "\x7b" ++ jsonQuote (lit "role") ++ lit ":" ++ jsonQuote (lit m.role) ++
    lit "," ++ jsonQuote (lit "serverId") ++ lit ":" ++ jsonQuote (lit m.serverId) ++
    lit "," ++ jsonQuote (lit "ts") ++ lit ":" ++ lit (toString m.ts) ++
    jsonOptMember "text" m.text ++ jsonOptMember "preview" m.preview ++ lit "\x7d"

/-- The call `JSON.stringify(sess)` on a session record. -/
def jsonStringify (sess : Session) : JSString :=
  lit "\x7b" ++ jsonQuote (lit "messages") ++ lit ":[" ++
    jsJoin (lit ",") (sess.messages.map jsonTurn) ++ lit "]," ++
    jsonQuote (lit "createdAt") ++ lit ":" ++ lit (toString sess.createdAt) ++
    jsonOptMember "summary" sess.summary ++ lit "\x7d"

/-! ## Concrete sessions used in the examples -/

/-- A text of `n` letters `a`. -/
def asciiText (n : Nat) : JSString := List.replicate n 97

/-- The character U+1F600 as its surrogate pair. -/
def grinning : JSString := [0xD83D, 0xDE00]

/-- A state whose only session, `"srv"`, holds the given turns and summary. -/
def stateOf (messages : List Turn) (summary : Option JSString) : State :=
  { sessions := fun i =>
      if i = "srv" then some { messages := messages, createdAt := 0, summary := summary }
      else none,
    logs := [] }

/-- A host turn with the given preview. -/
def hostTurn (preview : JSString) : Turn :=
  { role := "host", serverId := "srv", ts := 0, text := none, preview := some preview }

/-- A turn whose full text alone, 520000 letters, exceeds the session ceiling. -/
def longTurn : Turn :=
  { role := "host", serverId := "srv", ts := 0, text := some (asciiText 520000),
    preview := some (lit "host: hola") }

/-- A short turn, from the host at even positions and from the server at odd ones. -/
def shortTurn (i : Nat) : Turn :=
  { role := if i % 2 = 0 then "host" else "server", serverId := "srv", ts := i,
    text := some (lit "ok"), preview := some (lit "turno  breve") }

/-- A session history of 14 turns, the oldest being `longTurn`. -/
def fourteenTurns : List Turn :=
  longTurn :: (List.range 13).map fun i => shortTurn (i + 1)

/-- A second history of 14 turns: as `fourteenTurns` but for the six turns
that follow the oldest one. The last seven turns are the same. -/
def fourteenTurnsAlt : List Turn :=
  longTurn :: ((List.range 6).map fun i => hostTurn (lit "otra cosa " ++ lit (toString i))) ++
    (List.range 7).map fun i => shortTurn (i + 7)

end P1Core

/-!
# Regular expressions of the program

The regular-expression literals of the program are kept as syntax trees and
run by a backtracking matcher in the order of the ECMAScript semantics:
alternatives left to right, greedy quantifiers longest first, lazy ones
shortest first. Only the constructs that occur in the embedded literals are
covered.
-/

namespace JsRegex

open P1Core

/-- Syntax of the regular expressions used by the program. -/
inductive Re
  | chr (c : Nat)
  | any
  | space
  | cls (cs : List Nat)
  | notCls (cs : List Nat)
  | bos
  | eos
  | empty
  | seq (a b : Re)
  | alt (a b : Re)
  | star (r : Re) (greedy : Bool)
  | group (i : Nat) (r : Re)
deriving DecidableEq, Repr

/-- The characters of a literal word, in sequence. -/
def Re.word (s : String) : Re :=
  (lit s).foldr (fun c r => Re.seq (Re.chr c) r) Re.empty

/-- The pattern `a|b|...` over literal words. -/
def Re.words : List String → Re
  | [] => Re.empty
  | [w] => Re.word w
  | w :: ws => Re.alt (Re.word w) (Re.words ws)

/-- The pattern `r+` (greedy) or `r+?` (lazy). -/
def Re.plus (r : Re) (greedy : Bool) : Re := Re.seq r (Re.star r greedy)

/-- The pattern `r?`. -/
def Re.opt (r : Re) : Re := Re.alt r Re.empty

/-- The pattern `r₁r₂...`. -/
def Re.cat : List Re → Re
  | [] => Re.empty
  | [r] => r
  | r :: rs => Re.seq r (Re.cat rs)

/-- Line terminators, which `.` does not match. -/
def isLineTerminator (c : Nat) : Bool :=
  c = 0x0A || c = 0x0D || c = 0x2028 || c = 0x2029

/-- The abstract operation `Canonicalize` of a pattern with the flag `i` and
without the flag `u`: the upper-case form of a code unit. It is exact on
Basic Latin and Latin-1; any other unit is returned as it is, which changes
no comparison against a pattern character of those two ranges. -/
def canonicalize (c : Nat) : Nat :=
  if 0x61 ≤ c ∧ c ≤ 0x7A then c - 32
  else if 0xE0 ≤ c ∧ c ≤ 0xFE ∧ c ≠ 0xF7 then c - 32
  else if c = 0xFF then 0x178
  else if c = 0xB5 then 0x39C
  else c

/-- Whether two code units are the same character under the flags. -/
def sameChar (ci : Bool) (a b : Nat) : Bool :=
  if ci then canonicalize a = canonicalize b else a = b

/-- The captures recorded so far, the latest first. -/
abbrev Caps := List (Nat × JSString)

/-- Repetition of a matcher `m`: an iteration that consumes nothing is
rejected, so at most as many iterations as characters left are run. -/
def starLoop {R : Type} (m : JSString → Caps → (JSString → Caps → Option R) → Option R)
    (greedy : Bool) : Nat → JSString → Caps → (JSString → Caps → Option R) → Option R
  | 0, s, caps, k => k s caps
  | fuel + 1, s, caps, k =>
    if greedy then
      match m s caps (fun s' caps' =>
          if s'.length < s.length then starLoop m greedy fuel s' caps' k else none) with
      | some r => some r
      | none => k s caps
    else
      match k s caps with
      | some r => some r
      | none => m s caps (fun s' caps' =>
          if s'.length < s.length then starLoop m greedy fuel s' caps' k else none)

/-- The backtracking matcher: `s` is the text that is left of `whole`, `k` the
continuation that matches the rest of the pattern. -/
def matchRe {R : Type} (ci : Bool) (whole : JSString) :
    Re → JSString → Caps → (JSString → Caps → Option R) → Option R
  | Re.chr c, s, caps, k =>
    match s with
    | d :: rest => if sameChar ci c d then k rest caps else none
    | [] => none
  | Re.any, s, caps, k =>
    match s with
    | d :: rest => if isLineTerminator d then none else k rest caps
    | [] => none
  | Re.space, s, caps, k =>
    match s with
    | d :: rest => if isJsWhitespace d then k rest caps else none
    | [] => none
  | Re.cls cs, s, caps, k =>
    match s with
    | d :: rest => if cs.any (fun c => sameChar ci c d) then k rest caps else none
    | [] => none
  | Re.notCls cs, s, caps, k =>
    match s with
    | d :: rest => if cs.any (fun c => sameChar ci c d) then none else k rest caps
    | [] => none
  | Re.bos, s, caps, k => if s.length = whole.length then k s caps else none
  | Re.eos, s, caps, k => if s = [] then k s caps else none
  | Re.empty, s, caps, k => k s caps
  | Re.seq a b, s, caps, k => matchRe ci whole a s caps (fun s' caps' => matchRe ci whole b s' caps' k)
  | Re.alt a b, s, caps, k =>
    match matchRe ci whole a s caps k with
    | some r => some r
    | none => matchRe ci whole b s caps k
  | Re.star r greedy, s, caps, k => starLoop (matchRe ci whole r) greedy s.length s caps k
  | Re.group i r, s, caps, k =>
    matchRe ci whole r s caps (fun s' caps' => k s' ((i, s.take (s.length - s'.length)) :: caps'))

/-- A match object: `index` and the captures, `m[0]` being the matched text;
a group that took no part in the match is absent. -/
structure Match where
  index : Nat
  groups : Caps
deriving DecidableEq, Repr

/-- The capture `m[i]`. -/
def Match.get (m : Match) (i : Nat) : Option JSString := m.groups.lookup i

/-- A match that starts where `s` starts. -/
def matchAt (ci : Bool) (re : Re) (whole s : JSString) : Option Match :=
  matchRe ci whole re s [] fun s' caps =>
    some { index := whole.length - s.length,
           groups := (0, s.take (s.length - s'.length)) :: caps }

/-- The leftmost match among the start positions of `s` and after. -/
def searchFrom (ci : Bool) (re : Re) (whole : JSString) : JSString → Option Match
  | [] => matchAt ci re whole []
  | c :: rest =>
    match matchAt ci re whole (c :: rest) with
    | some m => some m
    | none => searchFrom ci re whole rest

/-- The call `str.match(re)` for a pattern without the flag `g`. -/
def regexMatch (ci : Bool) (re : Re) (str : JSString) : Option Match :=
  searchFrom ci re str str

/-- The call `re.test(str)`. -/
def regexTest (ci : Bool) (re : Re) (str : JSString) : Bool :=
  (regexMatch ci re str).isSome

end JsRegex

/-!
# The MCP bridge over stdio (`src/api-proxy.js`, `src/mcp-stdio.js`)

A channel is the object `obj` of `spawnMcp` together with the effects of its
closures: the lines written to the child, the armed 15 s timers and the
invocations of the continuations `resolve` and `reject`. The pending table is
the list of its keys in insertion order; the entry under key `k` holds the
continuations of the promise returned by the call that allocated `k`.
`JSON.parse` is a parameter `parse`, `none` standing for a thrown
`SyntaxError`; writes to `console` are left out.
-/

namespace McpBridge

open P1Core JsRegex

/-! ## JSON-RPC messages -/

/-- A JSON value read from a member of a parsed message. Arrays and objects
are kept as their `JSON.stringify` text; numbers are integers (a fractional
number is the key of no pending entry). -/
inductive JsonValue
  | null
  | bool (b : Bool)
  | num (n : Int)
  | str (s : JSString)
  | compound (text : JSString)
deriving DecidableEq, Repr

/-- Truthiness of a value, as tested by `if (v)` and `v && ...`. -/
def JsonValue.truthy : JsonValue → Bool
  | .null => false
  | .bool b => b
  | .num n => n != 0
  | .str s => s != []
  | .compound _ => true

/-- The text `JSON.stringify(v)`. -/
def JsonValue.stringify : JsonValue → JSString
  | .null => lit "null"
  | .bool b => if b then lit "true" else lit "false"
  | .num n => lit (toString n)
  | .str s => jsonQuote s
  | .compound t => t

/-- An object produced by `JSON.parse`: its members `id`, `result` and
`error` when present, and its own `JSON.stringify` text. -/
structure RpcMessage where
  id : Option JsonValue
  result : Option JsonValue
  error : Option JsonValue
  text : JSString
deriving DecidableEq, Repr

/-- The value of `JSON.parse(line)`: `null`, an object, or any other value
(boolean, number, string, array), whose member reads give `undefined`. -/
inductive Parsed
  | null
  | other
  | message (m : RpcMessage)
deriving DecidableEq, Repr

/-- One invocation of a continuation: `resolve(v)`, `resolve(msg)`,
`reject(new Error(message))` or `reject(v)`. -/
inductive Settlement
  | resolved (v : JsonValue)
  | resolvedMessage (m : RpcMessage)
  | rejected (message : JSString)
  | rejectedValue (v : JsonValue)
deriving DecidableEq, Repr

/-- A line written to `child.stdin`: a request `{jsonrpc, id, method, params}`
or a notification `{jsonrpc, method, params}`, `params` as JSON text. -/
inductive WireLine
  | request (id : Nat) (method : String) (params : JSString)
  | notification (method : String) (params : JSString)
deriving DecidableEq, Repr

/-- The key of the pending table that a value equals under `Map.has`: the
keys are the numbers allocated by `nextId++`. -/
def keyOf : JsonValue → Option Nat
  | .num (Int.ofNat k) => some k
  | _ => none

/-- The method `Map.set(k, ...)` on the keys of a map. -/
def mapSet (keys : List Nat) (k : Nat) : List Nat :=
  if k ∈ keys then keys else keys ++ [k]

/-! ## The channel object of `spawnMcp` -/

/-- The object `obj = { proc, buf, nextId, pending, ready }` with the armed
timers (request id and method), the lines written and the continuations
invoked so far. -/
structure Channel where
  buf : JSString
  nextId : Nat
  pending : List Nat
  ready : Bool
  timers : List (Nat × String)
  written : List WireLine
  settled : List (Nat × Settlement)
deriving DecidableEq, Repr

/-- The object as created by `spawnMcp`. -/
def freshChannel : Channel :=
  { buf := [], nextId := 1, pending := [], ready := false, timers := [], written := [],
    settled := [] }

/-- Source `obj.rpc(method, params = {})`: allocates `idNum = obj.nextId++`,
registers the pending entry, writes the request and arms the timer. It
returns the channel and `idNum`. -/
def rpc (method : String) (params : Option JSString) (ch : Channel) : Channel × Nat :=
  let idNum := ch.nextId
  ({ ch with
      nextId := ch.nextId + 1,
      pending := mapSet ch.pending idNum,
      written := ch.written ++ [WireLine.request idNum method (params.getD (lit "\x7b\x7d"))],
      timers := ch.timers ++ [(idNum, method)] }, idNum)

/-- Source `obj.notify(method, params = {})`. -/
def notify (method : String) (params : Option JSString) (ch : Channel) : Channel :=
  { ch with written := ch.written ++ [WireLine.notification method (params.getD (lit "\x7b\x7d"))] }

/-- The callback of the timer armed by `rpc`. -/
def timerCallback (idNum : Nat) (method : String) (ch : Channel) : Channel :=
  if idNum ∈ ch.pending then
    { ch with
        pending := ch.pending.erase idNum,
        settled := ch.settled ++ [(idNum, Settlement.rejected (lit "RPC timeout: " ++ lit method))] }
  else ch

/-- The timer of request `idNum` fires, 15 s after the send; a timer fires
once, so nothing happens when none is armed for `idNum`. -/
def onTimeout (idNum : Nat) (ch : Channel) : Channel :=
  match ch.timers.lookup idNum with
  | none => ch
  | some method =>
    timerCallback idNum method { ch with timers := ch.timers.filter fun t => t.1 ≠ idNum }

/-- The value passed to `resolve`: `msg.result ?? msg`. -/
def resultOutcome (m : RpcMessage) : Settlement :=
  match m.result with
  | none => Settlement.resolvedMessage m
  | some JsonValue.null => Settlement.resolvedMessage m
  | some v => Settlement.resolved v

/-- The continuation invoked for a response: `reject` with the error text
when `msg.error` is truthy, `resolve` otherwise. -/
def responseOutcome (m : RpcMessage) : Settlement :=
  match m.error with
  | none => resultOutcome m
  | some e =>
    if e.truthy then
      Settlement.rejected
        (match e with
          | JsonValue.str s => s
          | v => v.stringify)
    else resultOutcome m

/-- The body of `if (msg.id && obj.pending.has(msg.id))` for the key `k`. -/
def settleResponse (k : Nat) (m : RpcMessage) (ch : Channel) : Channel :=
  { ch with pending := ch.pending.erase k, settled := ch.settled ++ [(k, responseOutcome m)] }

/-- The statements of the `try` block after `JSON.parse`; reading `msg.id`
throws a `TypeError` when `msg` is `null`. -/
def handleParsed (msg : Parsed) (ch : Channel) : Except Unit Channel :=
  match msg with
  | Parsed.null => Except.error ()
  | Parsed.other => Except.ok ch
  | Parsed.message m =>
    match m.id with
    | none => Except.ok ch
    | some v =>
      if v.truthy then
        match keyOf v with
        | some k => if k ∈ ch.pending then Except.ok (settleResponse k m ch) else Except.ok ch
        | none => Except.ok ch
      else Except.ok ch

/-- The `try`/`catch` of the stdout handler on one trimmed, non-empty line:
whatever is thrown is caught and the line is dropped. -/
def handleLine (parse : JSString → Option Parsed) (line : JSString) (ch : Channel) : Channel :=
  match parse line with
  | none => ch
  | some msg =>
    match handleParsed msg ch with
    | Except.ok ch' => ch'
    | Except.error _ => ch

/-- The call `buf.indexOf('\n')`, `none` standing for `-1`. -/
def indexOfNewline : JSString → Option Nat
  | [] => none
  | c :: rest => if c = 0x0A then some 0 else (indexOfNewline rest).map fun i => i + 1

/-- The loop `while ((idx = buf.indexOf('\n')) >= 0)` of both line decoders,
over the buffer and the state changed by the line handler. Every iteration
removes at least one character from the buffer, so `fuel = buf.length`
iterations suffice. -/
def decodeLines {σ : Type} (onLine : JSString → σ → σ) : Nat → JSString → σ → JSString × σ
  | 0, buf, s => (buf, s)
  | fuel + 1, buf, s =>
    match indexOfNewline buf with
    | none => (buf, s)
    | some idx =>
      let line := jsTrim (jsSlice buf 0 (some (idx : Int)))
      let buf' := jsSlice buf ((idx : Int) + 1) none
      if line = [] then decodeLines onLine fuel buf' s
      else decodeLines onLine fuel buf' (onLine line s)

/-- The handler `child.stdout.on('data', ...)` of `spawnMcp`, on the text of
one chunk. -/
def onData (parse : JSString → Option Parsed) (chunk : JSString) (ch : Channel) : Channel :=
  let r := decodeLines (handleLine parse) (ch.buf ++ chunk).length (ch.buf ++ chunk) ch
  { r.2 with buf := r.1 }

/-- The text of `${code}` for an exit code, `null` when the child was killed
by a signal. -/
def codeText : Option Nat → String
  | none => "null"
  | some c => toString c

/-- The message of the error passed to `reject` by the exit handler. -/
def exitMessage (id : String) (code : Option Nat) : JSString :=
  lit "Proceso MCP '" ++ lit id ++ lit "' salió con código " ++ lit (codeText code)

/-- The loop `for (const {reject} of obj.pending.values())` of the exit
handler: every entry is rejected, none is deleted. -/
def rejectAll (id : String) (code : Option Nat) (ch : Channel) : Channel :=
  { ch with
      settled := ch.settled ++
        ch.pending.map fun k => (k, Settlement.rejected (exitMessage id code)) }

/-- An event on one channel: a call of `obj.rpc`, a chunk on stdout, the
timer of a request, the exit of the child. -/
inductive ChanEvent
  | send (method : String) (params : Option JSString)
  | data (chunk : JSString)
  | timeout (idNum : Nat)
  | exit (code : Option Nat)
deriving DecidableEq, Repr

/-- The effect of one event on the channel of backend `id`. -/
def chanStep (parse : JSString → Option Parsed) (id : String) (ch : Channel) :
    ChanEvent → Channel
  | ChanEvent.send method params => (rpc method params ch).1
  | ChanEvent.data chunk => onData parse chunk ch
  | ChanEvent.timeout idNum => onTimeout idNum ch
  | ChanEvent.exit code => rejectAll id code ch

/-- The channel after a sequence of events. -/
def chanRun (parse : JSString → Option Parsed) (id : String) (ch : Channel)
    (events : List ChanEvent) : Channel :=
  events.foldl (chanStep parse id) ch

/-- The ids of the requests written so far, in order. -/
def sentIds (ch : Channel) : List Nat :=
  ch.written.filterMap fun w =>
    match w with
    | WireLine.request k _ _ => some k
    | WireLine.notification _ _ => none

/-- The ids for which a continuation was invoked, once per invocation. -/
def settledIds (ch : Channel) : List Nat := ch.settled.map fun e => e.1

/-- Number of `send` events in a sequence. -/
def countSends (events : List ChanEvent) : Nat :=
  (events.filter fun e =>
    match e with
    | ChanEvent.send _ _ => true
    | _ => false).length

/-- The pending table of a channel in use: ids are allocated from 1 up and
the keys of the table are distinct ids already allocated. -/
def WellFormed (ch : Channel) : Prop :=
  1 ≤ ch.nextId ∧ ch.pending.Nodup ∧ ∀ k, k ∈ ch.pending → 1 ≤ k ∧ k < ch.nextId

/-- The ids whose timer is armed. -/
def armedIds (ch : Channel) : List Nat := ch.timers.map fun t => t.1

/-- No continuation has been invoked twice, no pending request has been
settled, and every allocated id is settled or else still pending with its
timer armed. -/
def SettledOnce (ch : Channel) : Prop :=
  (settledIds ch).Nodup ∧ (∀ k, k ∈ ch.pending → k ∉ settledIds ch) ∧
    (∀ k, k ∈ settledIds ch → k < ch.nextId) ∧
    ∀ k, 1 ≤ k → k < ch.nextId → k ∈ settledIds ch ∨ (k ∈ ch.pending ∧ k ∈ armedIds ch)

/-- A sequence of events without the exit of the child. -/
def NoExit (events : List ChanEvent) : Prop :=
  ∀ e, e ∈ events → ∀ code, e ≠ ChanEvent.exit code

/-! ## The client of `src/mcp-stdio.js` -/

/-- The object of `createJsonRpc`: `nextId`, the keys of `pending` and the
continuations invoked so far. -/
structure JsonRpc where
  nextId : Nat
  pending : List Nat
  settled : List (Nat × Settlement)
deriving DecidableEq, Repr

/-- The state created by `createJsonRpc()`. -/
def createJsonRpc : JsonRpc := { nextId := 1, pending := [], settled := [] }

/-- Source `newId: () => nextId++`. -/
def JsonRpc.newId (r : JsonRpc) : JsonRpc × Nat :=
  ({ r with nextId := r.nextId + 1 }, r.nextId)

/-- Source `wait(id)`: registers the continuations under `id`. -/
def JsonRpc.wait (id : Nat) (r : JsonRpc) : JsonRpc :=
  { r with pending := mapSet r.pending id }

/-- The continuation invoked by `settle`: `res(msg.result)` when the message
has a member `result`, `rej(msg.error || new Error('RPC error'))` otherwise. -/
def settleOutcome (m : RpcMessage) : Settlement :=
  match m.result with
  | some v => Settlement.resolved v
  | none =>
    match m.error with
    | some e => if e.truthy then Settlement.rejectedValue e else Settlement.rejected (lit "RPC error")
    | none => Settlement.rejected (lit "RPC error")

/-- Source `settle(msg)` of `createJsonRpc`. -/
def JsonRpc.settle (m : RpcMessage) (r : JsonRpc) : JsonRpc :=
  match m.id.bind keyOf with
  | none => r
  | some k =>
    if k ∈ r.pending then
      { r with pending := r.pending.erase k, settled := r.settled ++ [(k, settleOutcome m)] }
    else r

/-- The line handler of `createStdIoClient`:
`try { msg = JSON.parse(line); if (msg.id) rpc.settle(msg) } catch (_) {}`. -/
def clientLine (parse : JSString → Option Parsed) (line : JSString) (r : JsonRpc) : JsonRpc :=
  match parse line with
  | none => r
  | some Parsed.null => r
  | some Parsed.other => r
  | some (Parsed.message m) =>
    match m.id with
    | none => r
    | some v => if v.truthy then r.settle m else r

/-- The state of the client: the buffer of its line decoder and its
`createJsonRpc` object. -/
structure StdIoClient where
  buf : JSString
  rpc : JsonRpc
deriving DecidableEq, Repr

/-- The handler `child.stdout.on('data', lineDecoder(...))` of the client. -/
def clientData (parse : JSString → Option Parsed) (chunk : JSString) (c : StdIoClient) :
    StdIoClient :=
  let r := decodeLines (clientLine parse) (c.buf ++ chunk).length (c.buf ++ chunk) c.rpc
  { buf := r.1, rpc := r.2 }

/-- The ids returned by `n` successive calls of `newId`. -/
def newIds : Nat → JsonRpc → List Nat
  | 0, _ => []
  | n + 1, r => (r.newId).2 :: newIds n (r.newId).1

/-! ## The supervisor: `mcpProcs`, `mcpStates`, `spawnMcp` -/

/-- The field `status` of a server state. -/
inductive Status
  | stopped
  | starting
  | ready
  | error
deriving DecidableEq, Repr

/-- A descriptor of `servers.json`. -/
structure ServerConfig where
  id : String
  label : Option String
  transport : Option String
  cmd : String
  args : List String
deriving DecidableEq, Repr

/-- An entry `{ id, label, transport, status }` of `mcpStates`. -/
structure ServerState where
  id : String
  label : String
  transport : String
  status : Status
deriving DecidableEq, Repr

/-- Progress of the one run of `init` that belongs to a spawned object: not
started, suspended at `await obj.rpc('initialize', ...)` on request `idNum`,
suspended at `await sleep(800)`, returned, or thrown. -/
inductive Handshake
  | idle
  | awaiting (idNum : Nat)
  | settling
  | done
  | failed
deriving DecidableEq, Repr

/-- An object created by `spawnMcp` with the state of its closures: the
backend `id`, the channel, whether the child has emitted `exit`, the progress
of `init`, and the request that the caller suspended at `await p.init()`
sends once `init` returns. -/
structure McpProc where
  id : String
  chan : Channel
  exited : Bool
  handshake : Handshake
  waiting : Option (String × Option JSString)
deriving DecidableEq, Repr

/-- The module state of `api-proxy.js` that the supervisor uses. `procs`
holds every object ever created, an object being named by its index; the map
`mcpProcs` refers to objects by that index. `statusLog` records every
assignment to a `status` field, in order. -/
structure Bridge where
  serversConfig : List ServerConfig
  mcpProcs : String → Option Nat
  mcpStates : String → Option ServerState
  procs : List McpProc
  statusLog : List (String × Status)

/-- The module state after loading, for a given `servers.json`. -/
def Bridge.start (config : List ServerConfig) : Bridge :=
  { serversConfig := config, mcpProcs := fun _ => none, mcpStates := fun _ => none, procs := [],
    statusLog := [] }

/-- The call `serversConfig.find(s => s.id === id)`. -/
def findConfig (b : Bridge) (id : String) : Option ServerConfig :=
  b.serversConfig.find? fun s => s.id = id

/-- Source `ensureServerState(id)`: creates the entry with status `stopped`
when there is none. -/
def ensureServerState (b : Bridge) (id : String) : Bridge :=
  match b.mcpStates id with
  | some _ => b
  | none =>
    let cfg := findConfig b id
    let label := match cfg.bind fun c => c.label with
      | some l => if l ≠ "" then l else id
      | none => id
    let transport := match cfg.bind fun c => c.transport with
      | some t => if t ≠ "" then t else "stdio"
      | none => "stdio"
    { b with
        mcpStates := Function.update b.mcpStates id
          (some { id := id, label := label, transport := transport, status := Status.stopped }),
        statusLog := b.statusLog ++ [(id, Status.stopped)] }

/-- The assignment `state.status = s` on the state object of backend `id`. -/
def setStatus (b : Bridge) (id : String) (s : Status) : Bridge :=
  { b with
      mcpStates := Function.update b.mcpStates id
        ((b.mcpStates id).map fun st => { st with status := s }),
      statusLog := b.statusLog ++ [(id, s)] }

/-- The current status of backend `id`, when it has a state entry. -/
def statusOf (b : Bridge) (id : String) : Option Status :=
  (b.mcpStates id).map fun st => st.status

/-- The errors thrown by `spawnMcp`: `No hay config para server` and `Solo
transport=stdio soportado`. -/
inductive SpawnError
  | noConfig (id : String)
  | unsupportedTransport (id : String)
deriving DecidableEq, Repr

/-- The value returned by `spawnMcp`: the object by its index, and whether it
is the copy `{ ...obj, init }`, which has the method `init`, or the object
stored in `mcpProcs`, which has none. -/
structure ProcRef where
  handle : Nat
  hasInit : Bool
deriving DecidableEq, Repr

/-- Source `spawnMcp(id)`. The state entry is created before the checks, so
the module state is returned also when the call throws. -/
def spawnMcp (b : Bridge) (id : String) : Bridge × Except SpawnError ProcRef :=
  let cfg := findConfig b id
  let b1 := ensureServerState b id
  match cfg with
  | none => (b1, Except.error (SpawnError.noConfig id))
  | some c =>
    if c.transport ≠ some "stdio" then (b1, Except.error (SpawnError.unsupportedTransport id))
    else
      match b1.mcpProcs id with
      | some h => (b1, Except.ok { handle := h, hasInit := false })
      | none =>
        let h := b1.procs.length
        let obj : McpProc :=
          { id := id, chan := freshChannel, exited := false, handshake := Handshake.idle,
            waiting := none }
        let b2 : Bridge :=
          { b1 with procs := b1.procs ++ [obj], mcpProcs := Function.update b1.mcpProcs id (some h) }
        (setStatus b2 id Status.starting, Except.ok { handle := h, hasInit := true })

/-- Applies a change to the object of index `h`. -/
def modifyProc (b : Bridge) (h : Nat) (f : McpProc → McpProc) : Bridge :=
  match b.procs[h]? with
  | some p => { b with procs := b.procs.set h (f p) }
  | none => b

/-- The params of the `initialize` request, as JSON text. -/
def initializeParams : JSString :=
  lit ("\x7b\"protocolVersion\":\"2024-11-05\",\"clientInfo\":\x7b\"name\":\"P1-Anfitrion\"," ++
    "\"version\":\"1.0.0\"\x7d,\"capabilities\":\x7b\"experimental\":\x7b\x7d\x7d\x7d")

/-- The call `p.init()` up to its first `await`: the `initialize` request is
sent, and the caller, suspended on the returned promise, will send `own`. -/
def startInit (b : Bridge) (h : Nat) (own : String × Option JSString) : Bridge :=
  modifyProc b h fun p =>
    let r := rpc "initialize" (some initializeParams) p.chan
    { p with chan := r.1, handshake := Handshake.awaiting r.2, waiting := some own }

/-- The first continuation invoked for request `k`, the one that settles its
promise. -/
def firstSettlement (ch : Channel) (k : Nat) : Option Settlement :=
  (ch.settled.find? fun e => e.1 = k).map fun e => e.2

/-- Resumes `init` of object `h` when the promise of its `initialize` request
has been settled: on a result the two notifications are written and the
800 ms sleep starts; on a rejection the `catch` block sets the status to
`error` and the caller of `init` gets the error. -/
def resumeInit (b : Bridge) (h : Nat) : Bridge :=
  match b.procs[h]? with
  | none => b
  | some p =>
    match p.handshake with
    | Handshake.awaiting k =>
      match firstSettlement p.chan k with
      | none => b
      | some (Settlement.resolved _) | some (Settlement.resolvedMessage _) =>
        modifyProc b h fun q =>
          { q with
              chan := notify "notifications/initialized" none (notify "initialized" none q.chan),
              handshake := Handshake.settling }
      | some (Settlement.rejected _) | some (Settlement.rejectedValue _) =>
        setStatus (modifyProc b h fun q => { q with handshake := Handshake.failed, waiting := none })
          p.id Status.error
    | _ => b

/-- The end of `await sleep(800)` in `init` of object `h`: the status becomes
`ready`, `obj.ready` becomes true, `init` returns and its caller sends its
own request. -/
def settleElapsed (b : Bridge) (h : Nat) : Bridge :=
  match b.procs[h]? with
  | none => b
  | some p =>
    match p.handshake with
    | Handshake.settling =>
      let b1 := setStatus b p.id Status.ready
      modifyProc b1 h fun q =>
        let ch := { q.chan with ready := true }
        let ch' := match q.waiting with
          | some own => (rpc own.1 own.2 ch).1
          | none => ch
        { q with chan := ch', handshake := Handshake.done, waiting := none }
    | _ => b

/-- Source: the handler `child.on('exit', ...)` of object `h`. -/
def exitHandler (b : Bridge) (h : Nat) (code : Option Nat) : Bridge :=
  match b.procs[h]? with
  | none => b
  | some p =>
    let b1 := setStatus b p.id Status.stopped
    let b2 := modifyProc b1 h fun q => { q with chan := rejectAll q.id code q.chan, exited := true }
    { b2 with mcpProcs := Function.update b2.mcpProcs p.id none }

/-- The first two statements of `getTools(id)` and `callToolStdIO(id, ...)`,
`const p = mcpProcs.get(id) || spawnMcp(id); if (!p.ready) await p.init?.();`,
followed by the first `p.rpc(method, params)` of the caller. An object taken
from `mcpProcs` has no `init`, so the caller goes on at once; the copy
returned by a spawn has `init` and `ready: false`, so `init` is started and
the request is sent when it returns. -/
def callBackend (b : Bridge) (id : String) (method : String) (params : Option JSString) :
    Bridge :=
  match b.mcpProcs id with
  | some h => modifyProc b h fun p => { p with chan := (rpc method params p.chan).1 }
  | none =>
    match spawnMcp b id with
    | (b1, Except.error _) => b1
    | (b1, Except.ok ref) =>
      if ref.hasInit then startInit b1 ref.handle (method, params)
      else modifyProc b1 ref.handle fun p => { p with chan := (rpc method params p.chan).1 }

/-- An event of the supervisor: a call of `getTools` or `callToolStdIO` for
a backend, a chunk on the stdout of an object, the timer of one of its
requests, the exit of its child, the end of the sleep of its `init`. -/
inductive Event
  | call (id : String) (method : String) (params : Option JSString)
  | stdout (h : Nat) (chunk : JSString)
  | timeout (h : Nat) (idNum : Nat)
  | exit (h : Nat) (code : Option Nat)
  | sleepDone (h : Nat)
deriving DecidableEq, Repr

/-- The effect of one event, the promise continuations it makes runnable
included. A child exits once: the exit of an object that has exited is
ignored. -/
def step (parse : JSString → Option Parsed) (b : Bridge) : Event → Bridge
  | Event.call id method params => callBackend b id method params
  | Event.stdout h chunk =>
    resumeInit (modifyProc b h fun p => { p with chan := onData parse chunk p.chan }) h
  | Event.timeout h idNum =>
    resumeInit (modifyProc b h fun p => { p with chan := onTimeout idNum p.chan }) h
  | Event.exit h code =>
    match b.procs[h]? with
    | some p => if p.exited then b else resumeInit (exitHandler b h code) h
    | none => b
  | Event.sleepDone h => settleElapsed b h

/-- The module state after a sequence of events. -/
def run (parse : JSString → Option Parsed) (b : Bridge) (events : List Event) : Bridge :=
  events.foldl (step parse) b

/-- The statuses assigned to backend `id`, in order. -/
def statusTrace (b : Bridge) (id : String) : List Status :=
  (b.statusLog.filter fun e => e.1 = id).map fun e => e.2

/-- The objects of backend `id` whose child has not exited, by index. -/
def liveHandles (b : Bridge) (id : String) : List Nat :=
  (List.range b.procs.length).filter fun h =>
    match b.procs[h]? with
    | some p => p.id = id && !p.exited
    | none => false

/-- Every object whose child has not exited is the one registered in
`mcpProcs` under its backend id. -/
def Registered (b : Bridge) : Prop :=
  ∀ h p, b.procs[h]? = some p → p.exited = false → b.mcpProcs p.id = some h

/-- A change of an object that keeps its backend id and its exit flag. -/
def KeepsIdentity (f : McpProc → McpProc) : Prop :=
  ∀ p, (f p).id = p.id ∧ (f p).exited = p.exited

/-! ## Retry with back-off (`rpcWithInitRetry`) and capability listing (`getTools`) -/

/-- One invocation `p.rpc(method, params)`, `params` as JSON text. -/
structure Call where
  method : String
  params : JSString
deriving DecidableEq, Repr

/-- What `await p.rpc(...)` does: it returns the value the promise resolved
with, or throws the `Error` the promise was rejected with (`obj.rpc` rejects
with `new Error(message)` only). -/
inductive Attempt
  | returned (value : JsonValue)
  | threw (message : JSString)
deriving DecidableEq, Repr

/-- The text `String(e?.message || e)` of an `Error` with the given message:
the message, or the text `Error` when the message is empty. -/
def errorText (message : JSString) : JSString :=
  if message ≠ [] then message else lit "Error"

/-- The pattern `/before initialization was complete/i`. -/
def notReadyRe : Re := Re.word "before initialization was complete"

/-- The pattern of the test `invalid`, the literal text `-32602` without flags. -/
def invalidRe : Re := Re.word "-32602"

/-- The test `notReady || invalid` of the `catch` block on a thrown error. -/
def isTransient (message : JSString) : Bool :=
  let msg := errorText message
  let notReady := regexTest true notReadyRe msg
  let invalid := regexTest false invalidRe msg
  notReady || invalid

/-- What a run of `rpcWithInitRetry` did: how it left (`none` while the loop
is still running), the invocations of `p.rpc` and the delays slept, in
order. -/
structure RetryRun where
  outcome : Option Attempt
  calls : List Call
  sleeps : List Nat
deriving DecidableEq, Repr

/-- The loop `while (true)` of `rpcWithInitRetry` with its variables `attempt`
and `delay`. `respond n c` is what the invocation `c` does when `n`
invocations of `p.rpc` were made before it, `base` of them before this run. -/
def retryLoop (respond : Nat → Call → Attempt) (base : Nat) (c : Call) (tries : Nat) :
    Nat → Nat → Nat → List Call → List Nat → RetryRun
  | 0, _, _, calls, sleeps => { outcome := none, calls := calls, sleeps := sleeps }
  | fuel + 1, attempt, delay, calls, sleeps =>
    match respond (base + calls.length) c with
    | Attempt.returned v =>
      { outcome := some (Attempt.returned v), calls := calls ++ [c], sleeps := sleeps }
    | Attempt.threw e =>
      if !(isTransient e) || decide ((attempt : Int) ≥ (tries : Int) - 1) then
        { outcome := some (Attempt.threw e), calls := calls ++ [c], sleeps := sleeps }
      else
        retryLoop respond base c tries fuel (attempt + 1) (min (delay * 2) 1500) (calls ++ [c])
          (sleeps ++ [delay])

/-- Source `rpcWithInitRetry(p, method, params = {}, tries = 6)`; an argument
left out is `none`. The loop is given `tries + 1` iterations; it leaves
within `tries` of them (within one when `tries` is 0). -/
def rpcWithInitRetry (respond : Nat → Call → Attempt) (base : Nat) (method : String)
    (params : Option JSString) (tries : Option Nat) : RetryRun :=
  let params := params.getD (lit "\x7b\x7d")
  let tries := tries.getD 6
  retryLoop respond base { method := method, params := params } tries (tries + 1) 0 250 [] []

/-- What a run of `getTools` did: how it left, the value of `lastToolsVariant`
and the invocations and sleeps of its passes, in order. -/
structure ToolsRun where
  outcome : Option Attempt
  lastToolsVariant : Option String
  calls : List Call
  sleeps : List Nat
deriving DecidableEq, Repr

/-- Source `getTools(id)`, the statements after the handshake
`if (!p.ready) await p.init?.()`; `base` invocations of `p.rpc` were made
before. -/
def getTools (respond : Nat → Call → Attempt) (base : Nat) : ToolsRun :=
  let r1 := rpcWithInitRetry respond base "tools/list" (some (lit "\x7b\x7d")) none
  match r1.outcome with
  | some (Attempt.threw _) =>
    let r2 := rpcWithInitRetry respond (base + r1.calls.length) "tools/list" none none
    match r2.outcome with
    | some (Attempt.threw _) =>
      let r3 := rpcWithInitRetry respond (base + r1.calls.length + r2.calls.length) "tools/list"
        (some (lit "\x7b\"limit\":200\x7d")) none
      match r3.outcome with
      | some (Attempt.threw _) =>
        let r4 := rpcWithInitRetry respond
          (base + r1.calls.length + r2.calls.length + r3.calls.length) "tools/list"
          (some (lit "\x7b\"cursor\":\"\"\x7d")) none
        { outcome := r4.outcome, lastToolsVariant := some "tools/list \x7bcursor:\"\"\x7d",
          calls := r1.calls ++ r2.calls ++ r3.calls ++ r4.calls,
          sleeps := r1.sleeps ++ r2.sleeps ++ r3.sleeps ++ r4.sleeps }
      | o =>
        { outcome := o, lastToolsVariant := some "tools/list \x7blimit:200\x7d",
          calls := r1.calls ++ r2.calls ++ r3.calls,
          sleeps := r1.sleeps ++ r2.sleeps ++ r3.sleeps }
    | o =>
      { outcome := o, lastToolsVariant := some "tools/list (no params)",
        calls := r1.calls ++ r2.calls, sleeps := r1.sleeps ++ r2.sleeps }
  | o =>
    { outcome := o, lastToolsVariant := some "tools/list \x7b\x7d", calls := r1.calls,
      sleeps := r1.sleeps }

/-- The requests that a list of invocations of `obj.rpc` writes to the child,
starting from the channel `ch`. -/
def wireOf (calls : List Call) (ch : Channel) : List WireLine :=
  (calls.foldl (fun c call => (rpc call.method (some call.params) c).1) ch).written

/-- The wait of the `k`-th sleep of a run, counted from 0, as the spec gives
it: 250 ms doubled `k` times, capped at 1500 ms. -/
def specDelay (k : Nat) : Nat := min (250 * 2 ^ k) 1500

/-- The variants of capability listing in the order of priority of the spec:
the label recorded for diagnostics and the parameters, `none` for a request
without parameters. -/
def specVariants : List (String × Option JSString) :=
  [("tools/list \x7b\x7d", some (lit "\x7b\x7d")),
   ("tools/list (no params)", none),
   ("tools/list \x7blimit:200\x7d", some (lit "\x7b\"limit\":200\x7d")),
   ("tools/list \x7bcursor:\"\"\x7d", some (lit "\x7b\"cursor\":\"\"\x7d"))]

/-- The listing as the spec words it: the variants are tried in order, each
through its own retry pass, until a pass does not fail; the run records the
last variant tried and leaves as its pass left. -/
def specFirstSuccess (respond : Nat → Call → Attempt) :
    List (String × Option JSString) → Nat → ToolsRun → ToolsRun
  | [], _, acc => acc
  | v :: vs, base, acc =>
    let r := rpcWithInitRetry respond base "tools/list" v.2 none
    let acc' : ToolsRun :=
      { outcome := r.outcome, lastToolsVariant := some v.1, calls := acc.calls ++ r.calls,
        sleeps := acc.sleeps ++ r.sleeps }
    match r.outcome with
    | some (Attempt.threw _) => specFirstSuccess respond vs (base + r.calls.length) acc'
    | _ => acc'

/-- Whether an attempt failed with a transient signature. -/
def failsTransiently : Attempt → Bool
  | Attempt.threw e => isTransient e
  | Attempt.returned _ => false

/-- The assignment `delay = Math.min(delay * 2, 1500)`. -/
def nextDelay (delay : Nat) : Nat := min (delay * 2) 1500

/-! ## The request of `handleLLM` to the text-generation service -/

/-- The field `retryAfter` of the error thrown by `doFetch`: the header
`retry-after` as a whole number of seconds, else the rounded-up number of the
hint `try again in Ns` of the body, else `null`. -/
inductive RetryAfter
  | header (seconds : Nat)
  | hint (seconds : Nat)
  | absent
deriving DecidableEq, Repr

/-- What one call of `doFetch` does: it returns the parsed body, throws the
error of a response that is not `ok`, with its `status` and `retryAfter`, or
throws because the request itself failed (an error without `status`). -/
inductive FetchResult
  | ok (data : JSString)
  | httpError (status : Nat) (retryAfter : RetryAfter)
  | failed
deriving DecidableEq, Repr

/-- The number `Number(e.retryAfter || 2)`. -/
def retrySeconds : RetryAfter → Nat
  | RetryAfter.header s => s
  | RetryAfter.hint s => if s = 0 then 2 else s
  | RetryAfter.absent => 2

/-- What the `try`/`catch` around `doFetch` did: the `max_tokens` of each
request sent, the waits, and how the block left. -/
structure LlmRun where
  requests : List Nat
  waits : List Nat
  outcome : FetchResult
deriving DecidableEq, Repr

/-- Source `handleLLM`, the `try`/`catch` around `doFetch`. `fetch n body`
is what the `n`-th request does, `body` being its `max_tokens`;
`Math.floor(GROQ_MAX_TOKENS * 0.5)` is `GROQ_MAX_TOKENS / 2`. -/
def handleLLM (GROQ_MAX_TOKENS : Nat) (fetch : Nat → Nat → FetchResult) : LlmRun :=
  match fetch 0 GROQ_MAX_TOKENS with
  | FetchResult.httpError status retryAfter =>
    if status = 429 ∨ status = 503 then
      let waitMs := min (retrySeconds retryAfter * 1000) 8000
      let reduced := max 128 (GROQ_MAX_TOKENS / 2)
      { requests := [GROQ_MAX_TOKENS, reduced], waits := [waitMs], outcome := fetch 1 reduced }
    else
      { requests := [GROQ_MAX_TOKENS], waits := [],
        outcome := FetchResult.httpError status retryAfter }
  | r => { requests := [GROQ_MAX_TOKENS], waits := [], outcome := r }

/-! ## Chunks of bytes: `chunk.toString('utf8')` and the line decoder -/

/-- The variables of the UTF-8 decoder. -/
structure Utf8State where
  codePoint : Nat
  bytesSeen : Nat
  bytesNeeded : Nat
  lowerBoundary : Nat
  upperBoundary : Nat
deriving DecidableEq, Repr

/-- The decoder between two characters. -/
def Utf8State.start : Utf8State :=
  { codePoint := 0, bytesSeen := 0, bytesNeeded := 0, lowerBoundary := 0x80, upperBoundary := 0xBF }

/-- The code units of a decoded code point. -/
def utf16Units (cp : Nat) : List Nat :=
  if cp < 0x10000 then [cp]
  else [0xD800 + (cp - 0x10000) / 1024, 0xDC00 + (cp - 0x10000) % 1024]

/-- A byte read between two characters: an ASCII byte is a character, a lead
byte opens a sequence, any other byte decodes to U+FFFD. -/
def leadByte (b : Nat) : List Nat × Utf8State :=
  if b ≤ 0x7F then ([b], Utf8State.start)
  else if 0xC2 ≤ b ∧ b ≤ 0xDF then
    ([], { Utf8State.start with bytesNeeded := 1, codePoint := b % 32 })
  else if 0xE0 ≤ b ∧ b ≤ 0xEF then
    ([], { codePoint := b % 16, bytesSeen := 0, bytesNeeded := 2,
           lowerBoundary := if b = 0xE0 then 0xA0 else 0x80,
           upperBoundary := if b = 0xED then 0x9F else 0xBF })
  else if 0xF0 ≤ b ∧ b ≤ 0xF4 then
    ([], { codePoint := b % 8, bytesSeen := 0, bytesNeeded := 3,
           lowerBoundary := if b = 0xF0 then 0x90 else 0x80,
           upperBoundary := if b = 0xF4 then 0x8F else 0xBF })
  else ([0xFFFD], Utf8State.start)

/-- The UTF-8 decoder with replacement: a sequence broken by a byte that
cannot continue it decodes to U+FFFD and that byte is read again as a first
byte; a sequence that the input leaves open decodes to U+FFFD. -/
def utf8DecodeLoop : List Nat → Utf8State → JSString
  | [], st => if st.bytesNeeded ≠ 0 then [0xFFFD] else []
  | b :: rest, st =>
    if st.bytesNeeded = 0 then
      (leadByte b).1 ++ utf8DecodeLoop rest (leadByte b).2
    else if b < st.lowerBoundary ∨ st.upperBoundary < b then
      0xFFFD :: ((leadByte b).1 ++ utf8DecodeLoop rest (leadByte b).2)
    else
      let cp := st.codePoint * 64 + b % 64
      if st.bytesSeen + 1 ≠ st.bytesNeeded then
        utf8DecodeLoop rest
          { codePoint := cp, bytesSeen := st.bytesSeen + 1, bytesNeeded := st.bytesNeeded,
            lowerBoundary := 0x80, upperBoundary := 0xBF }
      else utf16Units cp ++ utf8DecodeLoop rest Utf8State.start

/-- The call `chunk.toString('utf8')` on the bytes of a `Buffer`. -/
def utf8Decode (bytes : List Nat) : JSString := utf8DecodeLoop bytes Utf8State.start

/-- Source `lineDecoder(onLine)` of `mcp-stdio.js`, the returned function on
one chunk: the state is the variable `buf` of the closure and the state
changed by `onLine`. -/
def lineDecoder {σ : Type} (onLine : JSString → σ → σ) (chunk : List Nat) (st : JSString × σ) :
    JSString × σ :=
  let buf := st.1 ++ utf8Decode chunk
  decodeLines onLine buf.length buf st.2

/-- The decoder on the chunks of a stream, in order, from its empty buffer. -/
def feedChunks {σ : Type} (onLine : JSString → σ → σ) (chunks : List (List Nat)) (s : σ) :
    JSString × σ :=
  chunks.foldl (fun st chunk => lineDecoder onLine chunk st) ([], s)

/-- The stdout handler of `spawnMcp` on the bytes of one chunk. -/
def onStdout (parse : JSString → Option Parsed) (chunk : List Nat) (ch : Channel) : Channel :=
  onData parse (utf8Decode chunk) ch

/-- A line handler that records the lines it is handed, in order. -/
def recordLine (line : JSString) (seen : List JSString) : List JSString := seen ++ [line]

/-- The segments of a text between newlines, the last one being the text
after the last newline. -/
def segments (text : JSString) : List JSString := text.splitOn 0x0A

/-- The lines of a text as the spec words them: its newline-terminated
segments, trimmed, the empty ones left out. -/
def specLines (text : JSString) : List JSString :=
  ((segments text).dropLast.map jsTrim).filter fun line => line ≠ []

/-- The text after the last newline. -/
def specRest (text : JSString) : JSString := ((segments text).getLast?).getD []

/-! ## Concrete configuration and lines used in the examples -/

/-- A backend that answers every request with the error of a server that is
still initializing. -/
def alwaysNotReady : Nat → Call → Attempt :=
  fun _ _ => Attempt.threw (lit "Received request before initialization was complete")

/-- A backend that answers the first two requests with error -32602, the
third with a time-out, and any later one with a result. -/
def flakyRespond : Nat → Call → Attempt := fun n _ =>
  if n < 2 then Attempt.threw (lit "\x7b\"code\":-32602,\"message\":\"Invalid request parameters\"\x7d")
  else if n = 2 then Attempt.threw (lit "RPC timeout: tools/list")
  else Attempt.returned (JsonValue.compound (lit "\x7b\"tools\":[]\x7d"))

/-- A backend that rejects a request whose `params` is the empty object and
answers any other request. -/
def strictRespond : Nat → Call → Attempt := fun _ c =>
  if c.params = lit "\x7b\x7d" then Attempt.threw (lit "\x7b\"code\":-32601,\"message\":\"Method not found\"\x7d")
  else Attempt.returned (JsonValue.compound (lit "\x7b\"tools\":[]\x7d"))

/-- A service that answers the first request with HTTP 429 and no hint, and
any later request with a body. -/
def rateLimitedOnce : Nat → Nat → FetchResult := fun n _ =>
  if n = 0 then FetchResult.httpError 429 RetryAfter.absent else FetchResult.ok (lit "\x7b\x7d")

/-- The channel after the handshake: request 1 was `initialize`. -/
def readyChannel : Channel := { freshChannel with nextId := 2, ready := true }

/-- The default descriptor of `readServersConfig`. -/
def fsConfig : ServerConfig :=
  { id := "fs", label := some "Filesystem (MCP, stdio)", transport := some "stdio", cmd := "npx",
    args := ["-y", "@modelcontextprotocol/server-filesystem", "."] }

/-- A parser given by a table of lines and their values; any other line is
not valid JSON. -/
def tableParse (table : List (JSString × Parsed)) (line : JSString) : Option Parsed :=
  table.lookup line

/-- A response message with the given id and result. -/
def resultMessage (k : Nat) (text : JSString) : RpcMessage :=
  { id := some (JsonValue.num k), result := some (JsonValue.compound (lit "\x7b\x7d")),
    error := none, text := text }

/-- The line `{"jsonrpc":"2.0","id":1,"result":{}}`. -/
def replyOne : JSString := lit "\x7b\"jsonrpc\":\"2.0\",\"id\":1,\"result\":\x7b\x7d\x7d"

/-- The line `{"jsonrpc":"2.0","id":2,"result":{}}`. -/
def replyTwo : JSString := lit "\x7b\"jsonrpc\":\"2.0\",\"id\":2,\"result\":\x7b\x7d\x7d"

/-- A parser that knows the two reply lines. -/
def exampleParse : JSString → Option Parsed :=
  tableParse [(replyOne, Parsed.message (resultMessage 1 replyOne)),
    (replyTwo, Parsed.message (resultMessage 2 replyTwo))]

end McpBridge

/-!
# The local intent parser of the front end (`src/app.js`)
-/

namespace LocalIntent

open P1Core JsRegex

/-- The value of a member of a tool argument object: a string or an array of
strings. -/
inductive ArgValue
  | str (s : JSString)
  | arr (items : List JSString)
deriving DecidableEq, Repr

/-- An object `{ name, arguments }`, the members of `arguments` in insertion
order. -/
structure Intent where
  name : String
  arguments : List (String × ArgValue)
deriving DecidableEq, Repr

/-- An entry of the tool list. -/
structure Tool where
  name : String
deriving DecidableEq, Repr

/-- The method `toLowerCase` on a code unit: exact on Basic Latin and Latin-1,
other units are left as they are. -/
def lowerUnit (c : Nat) : Nat :=
  if 0x41 ≤ c ∧ c ≤ 0x5A then c + 32
  else if 0xC0 ≤ c ∧ c ≤ 0xDE ∧ c ≠ 0xD7 then c + 32
  else c

/-- The method `toLowerCase` of a string. -/
def toLowerCase (s : JSString) : JSString := s.map lowerUnit

/-- The replacement `.replace(/\/{2,}/g, '/')`: every run of slashes becomes a
single slash; `afterSlash` tells that the last unit written was one. -/
def collapseSlashes : Bool → JSString → JSString
  | _, [] => []
  | afterSlash, c :: rest =>
    if c = 0x2F then
      if afterSlash then collapseSlashes true rest else 0x2F :: collapseSlashes true rest
    else c :: collapseSlashes false rest

/-- Source `normalizeMcpPath(p)` on a string. -/
def normalizeMcpPath (p : JSString) : JSString :=
  let s := jsTrim p
  -- .replace(/^\/+/, '')
  let s := s.dropWhile fun c => c = 0x2F
  -- .replace(/^\.\/+/, '')
  let s := match s with
    | 0x2E :: 0x2F :: rest => rest.dropWhile fun c => c = 0x2F
    | _ => s
  -- if (s.startsWith('~/')) s = s.slice(2)
  let s := match s with
    | 0x7E :: 0x2F :: rest => rest
    | _ => s
  collapseSlashes false s

/-- The text `String(v)` of a member: an array is joined with commas. -/
def argText : ArgValue → JSString
  | ArgValue.str s => s
  | ArgValue.arr items => jsJoin (lit ",") items

/-- Source `normalizeFsArgs(args)`: the members `path`, `source`,
`destination`, `dir` and `patternDir` are normalized as paths, and so is each
item of the arrays `files` and `paths`; any other member is copied. -/
def normalizeFsArgs (args : List (String × ArgValue)) : List (String × ArgValue) :=
  args.map fun kv =>
    if kv.1 ∈ ["path", "source", "destination", "dir", "patternDir"] then
      (kv.1, ArgValue.str (normalizeMcpPath (argText kv.2)))
    else if kv.1 ∈ ["files", "paths"] then
      match kv.2 with
      | ArgValue.arr items => (kv.1, ArgValue.arr (items.map normalizeMcpPath))
      | v => (kv.1, v)
    else kv

/-- The pattern `/^(crea|crear|haz|make)\s+(carpeta|directorio|folder)\s+(.+)$/`. -/
def mkdirRe : Re :=
  Re.cat [Re.bos, Re.group 1 (Re.words ["crea", "crear", "haz", "make"]), Re.plus Re.space true,
    Re.group 2 (Re.words ["carpeta", "directorio", "folder"]), Re.plus Re.space true,
    Re.group 3 (Re.plus Re.any true), Re.eos]

/-- The pattern `/^(lista|listar|muestra|mostrar|ls)\s+(.+)$/`. -/
def listRe : Re :=
  Re.cat [Re.bos, Re.group 1 (Re.words ["lista", "listar", "muestra", "mostrar", "ls"]),
    Re.plus Re.space true, Re.group 2 (Re.plus Re.any true), Re.eos]

/-- The pattern `/^(leer|lee|read)\s+(.+)$/`. -/
def readRe : Re :=
  Re.cat [Re.bos, Re.group 1 (Re.words ["leer", "lee", "read"]), Re.plus Re.space true,
    Re.group 2 (Re.plus Re.any true), Re.eos]

/-- The pattern `/^(escribe|escribir|write)\s+"([^"]+)"\s+en\s+(.+)$/i`. -/
def writeRe : Re :=
  Re.cat [Re.bos, Re.group 1 (Re.words ["escribe", "escribir", "write"]), Re.plus Re.space true,
    Re.chr 0x22, Re.group 2 (Re.plus (Re.notCls [0x22]) true), Re.chr 0x22,
    Re.plus Re.space true, Re.word "en", Re.plus Re.space true,
    Re.group 3 (Re.plus Re.any true), Re.eos]

/-- The pattern `/^(mover|mueve|renombra|rename|move)\s+(.+?)\s+(?:a|to)\s+(.+)$/i`. -/
def moveRe : Re :=
  Re.cat [Re.bos, Re.group 1 (Re.words ["mover", "mueve", "renombra", "rename", "move"]),
    Re.plus Re.space true, Re.group 2 (Re.plus Re.any false), Re.plus Re.space true,
    Re.words ["a", "to"], Re.plus Re.space true, Re.group 3 (Re.plus Re.any true), Re.eos]

/-- The pattern
`/^(busca|buscar|search)\s+(?:en\s+)?(.+?)\s+(?:que\s+contenga|con|pattern|patr[oó]n)\s+(.+)$/i`. -/
def searchRe : Re :=
  Re.cat [Re.bos, Re.group 1 (Re.words ["busca", "buscar", "search"]), Re.plus Re.space true,
    Re.opt (Re.seq (Re.word "en") (Re.plus Re.space true)),
    Re.group 2 (Re.plus Re.any false), Re.plus Re.space true,
    Re.alt (Re.cat [Re.word "que", Re.plus Re.space true, Re.word "contenga"])
      (Re.alt (Re.word "con")
        (Re.alt (Re.word "pattern")
          (Re.cat [Re.word "patr", Re.cls [0x6F, 0xF3], Re.word "n"]))),
    Re.plus Re.space true, Re.group 3 (Re.plus Re.any true), Re.eos]

/-- The replacement `.replace(/^"|"$/g, '')`: a double quote at the start and
one at the very end are removed. -/
def stripQuotes (s : JSString) : JSString :=
  let s := match s with
    | 0x22 :: rest => rest
    | _ => s
  if s.getLast? = some 0x22 then s.dropLast else s

/-- What the filesystem helpers of `parseLocalIntent` do: they return an
intent, or none applies and control reaches the git shortcuts that follow. -/
inductive Parse
  | intent (i : Intent)
  | fallsThrough
deriving DecidableEq, Repr

/-- The text `t.slice(m.index + m[0].length - m[i].length).trim()`. -/
def tailOf (t : JSString) (m : Match) (i : Nat) : JSString :=
  jsTrim (jsSlice t
    (((m.index + (strOrEmpty (m.get 0)).length - (strOrEmpty (m.get i)).length : Nat) : Int)) none)

/-- Source `parseLocalIntent(text, tools)`, the block of filesystem helpers. -/
def parseLocalIntent (text : JSString) (tools : List Tool) : Parse :=
  let t := jsTrim text
  let lower := toLowerCase t
  let hasTool := fun (name : String) => tools.any fun x => x.name = name
  let mkdir :=
    match regexMatch false mkdirRe lower with
    | some m =>
      if hasTool "create_directory" then
        some (Intent.mk "create_directory" (normalizeFsArgs [("path", ArgValue.str (tailOf t m 3))]))
      else none
    | none => none
  let list :=
    match regexMatch false listRe lower with
    | some m =>
      if hasTool "list_directory" then
        some (Intent.mk "list_directory" (normalizeFsArgs [("path", ArgValue.str (tailOf t m 2))]))
      else if hasTool "directory_tree" then
        some (Intent.mk "directory_tree" (normalizeFsArgs [("path", ArgValue.str (tailOf t m 2))]))
      else none
    | none => none
  let read :=
    match regexMatch false readRe lower with
    | some m =>
      if hasTool "read_text_file" then
        some (Intent.mk "read_text_file" (normalizeFsArgs [("path", ArgValue.str (tailOf t m 2))]))
      else none
    | none => none
  let write :=
    match regexMatch true writeRe t with
    | some m =>
      if hasTool "write_file" then
        some (Intent.mk "write_file" (normalizeFsArgs
          [("path", ArgValue.str (jsTrim (strOrEmpty (m.get 3)))),
            ("content", ArgValue.str (strOrEmpty (m.get 2)))]))
      else none
    | none => none
  let move :=
    match regexMatch true moveRe t with
    | some m =>
      if hasTool "move_file" then
        some (Intent.mk "move_file" (normalizeFsArgs
          [("source", ArgValue.str (jsTrim (strOrEmpty (m.get 2)))),
            ("destination", ArgValue.str (jsTrim (strOrEmpty (m.get 3))))]))
      else none
    | none => none
  let search :=
    match regexMatch true searchRe t with
    | some m =>
      if hasTool "search_files" then
        some (Intent.mk "search_files" (normalizeFsArgs
          [("path", ArgValue.str (jsTrim (strOrEmpty (m.get 1)))),
            ("pattern", ArgValue.str (stripQuotes (jsTrim (strOrEmpty (m.get 2)))))]))
      else none
    | none => none
  match mkdir.orElse (fun _ => list.orElse fun _ => read.orElse fun _ => write.orElse fun _ =>
      move.orElse fun _ => search) with
  | some i => Parse.intent i
  | none => Parse.fallsThrough

/-- A tool list that holds `search_files` among other tools. -/
def fsTools : List Tool :=
  [⟨"read_text_file"⟩, ⟨"list_directory"⟩, ⟨"search_files"⟩, ⟨"move_file"⟩]

end LocalIntent

namespace P1Core

/-! ## Lemmas on `jsSlice` -/

theorem relIndex_natCast (len k : Nat) : relIndex len (k : Int) = min k len := by
  unfold relIndex
  have h : ¬ ((k : Int) < 0) := by omega
  simp [h]

theorem jsSlice_zero_natCast {α : Type} (xs : List α) (k : Nat) :
    jsSlice xs 0 (some (k : Int)) = xs.take k := by
  have h0 : relIndex xs.length 0 = 0 := by simpa using relIndex_natCast xs.length 0
  simp only [jsSlice, h0, relIndex_natCast, List.drop_zero, Nat.sub_zero]
  rcases le_total k xs.length with h | h
  · rw [min_eq_left h]
  · rw [min_eq_right h, List.take_of_length_le (le_refl _), List.take_of_length_le h]

theorem jsSlice_zero_pred {α : Type} (xs : List α) (k : Nat) :
    jsSlice xs 0 (some (((k : Int) - 1) ⊔ 0)) = xs.take (k - 1) := by
  have h : (((k : Int) - 1) ⊔ 0) = ((k - 1 : Nat) : Int) := by omega
  rw [h, jsSlice_zero_natCast]

theorem jsSlice_neg_natCast {α : Type} (xs : List α) (k : Nat) (hk : 0 < k) :
    jsSlice xs (-(k : Int)) none = xs.drop (xs.length - k) := by
  have h : relIndex xs.length (-(k : Int)) = xs.length - k := by
    unfold relIndex
    have h1 : (-(k : Int)) < 0 := by omega
    simp only [h1, if_true]
    omega
  simp only [jsSlice, h]
  rw [List.take_of_length_le]
  simp

theorem jsSlice_neg_zero {α : Type} (xs : List α) :
    jsSlice xs (-((0 : Nat) : Int)) none = xs := by
  simp [jsSlice, relIndex]

/-! ## Lemmas on the encoder -/

theorem encodeScalar_length_pos (cp : Nat) : 0 < (encodeScalar cp).length := by
  unfold encodeScalar
  split_ifs <;> simp

theorem encodeUnit_length_pos (c : Nat) : 0 < (encodeUnit c).length := by
  unfold encodeUnit
  split_ifs <;> exact encodeScalar_length_pos _

theorem encodeUnit_high (c : Nat) (h : isHighSurrogate c = true) :
    (encodeUnit c).length = 3 := by
  simp [encodeUnit, h, encodeScalar]

theorem encodeScalar_pair_length (c d : Nat) : (encodeScalar (pairScalar c d)).length = 4 := by
  have h : 0x10000 ≤ pairScalar c d := by unfold pairScalar; omega
  unfold encodeScalar
  rw [if_neg (by omega), if_neg (by omega), if_neg (by omega)]
  rfl

theorem bytesOf_nil : bytesOf [] = 0 := rfl

theorem bytesOf_single (c : Nat) : bytesOf [c] = (encodeUnit c).length := rfl

theorem bytesOf_cons_cons (c d : Nat) (rest : JSString) :
    bytesOf (c :: d :: rest) =
      if isHighSurrogate c && isLowSurrogate d then 4 + bytesOf rest
      else (encodeUnit c).length + bytesOf (d :: rest) := by
  unfold bytesOf
  rw [utf8Encode]
  split_ifs <;> simp [encodeScalar_pair_length]

/-- Lengthening a prefix by one code unit never shrinks its encoding. -/
theorem bytesOf_take_succ (s : JSString) : ∀ j, bytesOf (s.take j) ≤ bytesOf (s.take (j + 1)) := by
  induction s using utf8Encode.induct with
  | case1 => intro j; simp
  | case2 c => intro j; cases j <;> simp [bytesOf_nil]
  | case3 c d rest h ih =>
    intro j
    match j with
    | 0 => simp [bytesOf_nil]
    | 1 =>
      simp only [List.take_succ_cons, List.take_zero, bytesOf_single, bytesOf_cons_cons, h, if_true,
        bytesOf_nil]
      have hc : isHighSurrogate c = true := by simp at h; exact h.1
      rw [encodeUnit_high c hc]
      omega
    | j + 2 =>
      simp only [List.take_succ_cons, bytesOf_cons_cons, h, if_true]
      have := ih j
      omega
  | case4 c d rest h ih =>
    intro j
    match j with
    | 0 => simp [bytesOf_nil]
    | 1 =>
      simp only [List.take_succ_cons, List.take_zero, bytesOf_single, bytesOf_cons_cons, h]
      simp
    | j + 2 =>
      simp only [List.take_succ_cons, bytesOf_cons_cons, h]
      have := ih (j + 1)
      simp only [List.take_succ_cons] at this
      simpa using this

theorem bytesOf_take_mono (s : JSString) {j k : Nat} (h : j ≤ k) :
    bytesOf (s.take j) ≤ bytesOf (s.take k) := by
  induction k with
  | zero =>
    have : j = 0 := by omega
    subst this
    exact le_refl _
  | succ k ih =>
    rcases Nat.lt_or_ge j (k + 1) with hlt | hge
    · exact le_trans (ih (by omega)) (bytesOf_take_succ s k)
    · have : j = k + 1 := by omega
      subst this
      exact le_refl _

/-! ## The binary search of `trimByBytes` -/

theorem bytesOf_take_le (s : JSString) (j : Nat) : bytesOf (s.take j) ≤ bytesOf s := by
  have h := bytesOf_take_mono s (le_max_left j s.length)
  rwa [List.take_of_length_le (le_max_right j s.length)] at h

/-- Loop invariant of the binary search: every index below `lo` fits the
limit and the prefix of length `hi` does not; with `hi - lo` units of fuel
the loop ends on the least index whose prefix exceeds the limit. -/
theorem trimLoop_spec (s : JSString) (m : Nat) :
    ∀ fuel lo hi, lo ≤ hi → hi - lo ≤ fuel →
      (∀ j, j < lo → bytesOf (s.take j) ≤ m) → m < bytesOf (s.take hi) →
      (∀ j, j < trimLoop s m fuel lo hi → bytesOf (s.take j) ≤ m) ∧
        m < bytesOf (s.take (trimLoop s m fuel lo hi)) := by
  intro fuel
  induction fuel with
  | zero =>
    intro lo hi hle hfuel hlo hhi
    have : lo = hi := by omega
    subst this
    exact ⟨hlo, hhi⟩
  | succ fuel ih =>
    intro lo hi hle hfuel hlo hhi
    unfold trimLoop
    by_cases hlt : lo < hi
    · simp only [hlt, if_true, jsSlice_zero_natCast]
      have hmid1 : lo ≤ (lo + hi) / 2 := by omega
      have hmid2 : (lo + hi) / 2 < hi := by omega
      by_cases hfit : bytesOf (s.take ((lo + hi) / 2)) ≤ m
      · simp only [hfit, if_true]
        apply ih _ _ (by omega) (by omega) _ hhi
        intro j hj
        exact le_trans (bytesOf_take_mono s (by omega)) hfit
      · simp only [hfit, if_false]
        exact ih _ _ hmid1 (by omega) hlo (by omega)
    · have : lo = hi := by omega
      subst this
      simp only [hlt, if_false]
      exact ⟨hlo, hhi⟩

/-- When the text does not fit, `trimByBytes` keeps the prefix of some length
`k` that fits while the prefix of length `k + 1` does not, and appends the
marker. -/
theorem trimByBytes_cut (s : JSString) (m : Nat) (h : m < bytesOf s) :
    ∃ k, k < s.length ∧ trimByBytes s m = s.take k ++ marker ∧
      bytesOf (s.take k) ≤ m ∧ m < bytesOf (s.take (k + 1)) := by
  have hs : m < bytesOf (s.take s.length) := by rwa [List.take_of_length_le (le_refl _)]
  obtain ⟨h1, h2⟩ := trimLoop_spec s m s.length 0 s.length (Nat.zero_le _) (by omega)
    (fun j hj => absurd hj (Nat.not_lt_zero j)) hs
  have hpos : 0 < trimLoop s m s.length 0 s.length := by
    rcases Nat.eq_zero_or_pos (trimLoop s m s.length 0 s.length) with h0 | h0
    · rw [h0] at h2
      simp [bytesOf_nil] at h2
    · exact h0
  refine ⟨trimLoop s m s.length 0 s.length - 1, ?_, ?_, h1 _ (by omega), ?_⟩
  · by_contra hge
    have hfit := h1 (trimLoop s m s.length 0 s.length - 1) (by omega)
    rw [List.take_of_length_le (by omega)] at hfit
    omega
  · unfold trimByBytes
    rw [if_neg (by omega)]
    simp only [jsSlice_zero_pred]
  · rwa [Nat.sub_add_cancel hpos]

/-- The cut point of `trimByBytes` is determined by the two size conditions. -/
theorem trimByBytes_eq_of_cut (s : JSString) (m k : Nat) (h1 : bytesOf (s.take k) ≤ m)
    (h2 : m < bytesOf (s.take (k + 1))) : trimByBytes s m = s.take k ++ marker := by
  have hs : m < bytesOf s := lt_of_lt_of_le h2 (bytesOf_take_le s (k + 1))
  obtain ⟨k', _, heq, h1', h2'⟩ := trimByBytes_cut s m hs
  have hk : k' = k := by
    rcases Nat.lt_trichotomy k' k with hlt | heq' | hgt
    · have := bytesOf_take_mono s (show k' + 1 ≤ k by omega)
      omega
    · exact heq'
    · have := bytesOf_take_mono s (show k + 1 ≤ k' by omega)
      omega
  rw [heq, hk]

/-! ## Size of a concatenation -/

theorem bytesOf_cons_of_not_high (c : Nat) (rest : JSString) (h : isHighSurrogate c = false) :
    bytesOf (c :: rest) = (encodeUnit c).length + bytesOf rest := by
  cases rest with
  | nil => simp [bytesOf_single, bytesOf_nil]
  | cons d rest => rw [bytesOf_cons_cons]; simp [h]

/-- Appending a text that does not start with a trailing surrogate adds its
size. -/
theorem bytesOf_append (a b : JSString) (hb : ∀ d ∈ b.head?, isLowSurrogate d = false) :
    bytesOf (a ++ b) = bytesOf a + bytesOf b := by
  induction a using utf8Encode.induct with
  | case1 => simp [bytesOf_nil]
  | case2 c =>
    cases b with
    | nil => simp [bytesOf_nil]
    | cons d rest =>
      have hd : isLowSurrogate d = false := hb d (by simp)
      simp only [List.singleton_append, bytesOf_cons_cons, hd, Bool.and_false, bytesOf_single]
      simp
  | case3 c d rest h ih =>
    simp only [List.cons_append, bytesOf_cons_cons, h, if_true, ih]
    omega
  | case4 c d rest h ih =>
    simp only [List.cons_append, bytesOf_cons_cons, h] at ih ⊢
    simp only [Bool.false_eq_true, if_false, ih]
    omega

theorem bytesOf_marker : bytesOf marker = 4 := by decide

theorem bytesOf_append_marker (a : JSString) : bytesOf (a ++ marker) = bytesOf a + 4 := by
  rw [bytesOf_append a marker (by simp [marker, isLowSurrogate]), bytesOf_marker]

/-- The result of `trimByBytes` exceeds the limit by at most the four bytes
of the marker. -/
theorem bytesOf_trimByBytes_le (s : JSString) (m : Nat) : bytesOf (trimByBytes s m) ≤ m + 4 := by
  by_cases h : bytesOf s ≤ m
  · unfold trimByBytes
    rw [if_pos h]
    omega
  · obtain ⟨k, _, heq, h1, _⟩ := trimByBytes_cut s m (by omega)
    rw [heq, bytesOf_append_marker]
    omega

/-! ## Texts of ASCII letters -/

theorem utf8Encode_cons_of_not_high (c : Nat) (rest : JSString) (h : isHighSurrogate c = false) :
    utf8Encode (c :: rest) = encodeUnit c ++ utf8Encode rest := by
  cases rest with
  | nil => simp [utf8Encode]
  | cons d rest => rw [utf8Encode]; simp [h]

theorem asciiText_length (n : Nat) : (asciiText n).length = n := by simp [asciiText]

theorem utf8Encode_asciiText_append (n : Nat) (t : JSString) :
    utf8Encode (asciiText n ++ t) = asciiText n ++ utf8Encode t := by
  induction n with
  | zero => simp [asciiText]
  | succ n ih =>
    have h : asciiText (n + 1) = 97 :: asciiText n := by simp [asciiText, List.replicate_succ]
    rw [h, List.cons_append, utf8Encode_cons_of_not_high 97 _ (by decide), ih]
    rfl

theorem bytesOf_asciiText_append (n : Nat) (t : JSString) :
    bytesOf (asciiText n ++ t) = n + bytesOf t := by
  unfold bytesOf
  rw [utf8Encode_asciiText_append, List.length_append, asciiText_length]

theorem bytesOf_asciiText (n : Nat) : bytesOf (asciiText n) = n := by
  simpa [bytesOf_nil] using bytesOf_asciiText_append n []

theorem take_asciiText (n k : Nat) : (asciiText n).take k = asciiText (min k n) := by
  simp [asciiText, List.take_replicate]

/-- A text of `n` letters cut at `m < n` bytes keeps `m` letters. -/
theorem trimByBytes_asciiText (n m : Nat) (h : m < n) :
    trimByBytes (asciiText n) m = asciiText m ++ marker := by
  have h1 : (asciiText n).take m = asciiText m := by
    rw [take_asciiText, min_eq_left (by omega)]
  have h2 : (asciiText n).take (m + 1) = asciiText (m + 1) := by
    rw [take_asciiText, min_eq_left (by omega)]
  rw [trimByBytes_eq_of_cut (asciiText n) m m (by rw [h1, bytesOf_asciiText])
    (by rw [h2, bytesOf_asciiText]; omega), h1]

/-- Letters followed by any text, cut at `m` bytes inside the letters. -/
theorem trimByBytes_asciiText_append (n m : Nat) (t : JSString) (h : m < n) :
    trimByBytes (asciiText n ++ t) m = asciiText m ++ marker := by
  have h1 : (asciiText n ++ t).take m = asciiText m := by
    rw [List.take_append_of_le_length (by rw [asciiText_length]; omega), take_asciiText,
      min_eq_left (by omega)]
  have h2 : (asciiText n ++ t).take (m + 1) = asciiText (m + 1) := by
    rw [List.take_append_of_le_length (by rw [asciiText_length]; omega), take_asciiText,
      min_eq_left (by omega)]
  rw [trimByBytes_eq_of_cut (asciiText n ++ t) m m (by rw [h1, bytesOf_asciiText])
    (by rw [h2, bytesOf_asciiText]; omega), h1]

/-- Letters followed by one astral character, cut one byte short: the leading
surrogate is kept and the trailing one is dropped. -/
theorem trimByBytes_asciiText_grinning (n : Nat) :
    trimByBytes (asciiText n ++ grinning) (n + 3) = asciiText n ++ [0xD83D] ++ marker := by
  have h1 : (asciiText n ++ grinning).take (n + 1) = asciiText n ++ [0xD83D] := by
    have := @List.take_append _ (asciiText n) grinning 1
    rw [asciiText_length] at this
    rw [this]; rfl
  have h2 : (asciiText n ++ grinning).take (n + 1 + 1) = asciiText n ++ grinning := by
    rw [List.take_of_length_le]
    simp [asciiText_length, grinning]
  rw [trimByBytes_eq_of_cut (asciiText n ++ grinning) (n + 3) (n + 1)
    (by rw [h1, bytesOf_asciiText_append, show bytesOf [0xD83D] = 3 by decide])
    (by rw [h2, bytesOf_asciiText_append, show bytesOf grinning = 4 by decide]; omega), h1]

/-! ## The loop of `buildContext` -/

theorem totalBytes_append_single (out : List ContextPart) (p : ContextPart) :
    totalBytes (out ++ [p]) = totalBytes out + bytesOf p.content := by
  simp [totalBytes]

/-- The loop never brings the total above the budget plus 67 bytes: the last
part starts with at least one byte left and receives at most
`max 64 remaining` bytes and a four-byte marker. -/
theorem fillBudget_total_le (tp : Nat) :
    ∀ (parts : List RawPart) (out : List ContextPart) (used : Nat),
      totalBytes out = used → used ≤ MAX_CONTEXT_BYTES + 67 →
      totalBytes (fillBudget tp parts out used) ≤ MAX_CONTEXT_BYTES + 67 := by
  intro parts
  induction parts with
  | nil => intro out used h1 h2; simpa [fillBudget, h1] using h2
  | cons part more ih =>
    intro out used h1 h2
    unfold fillBudget
    by_cases hrem : MAX_CONTEXT_BYTES - used ≤ 0
    · simp only [hrem, if_true]; omega
    · simp only [hrem, if_false]
      apply ih
      · rw [totalBytes_append_single, h1]
      · have hdiv : (MAX_CONTEXT_BYTES - used) / (tp - out.length) ≤ MAX_CONTEXT_BYTES - used :=
          Nat.div_le_self _ _
        have htrim := bytesOf_trimByBytes_le (strOrEmpty part.content)
          (max 64 ((MAX_CONTEXT_BYTES - used) / (tp - out.length)))
        have hmax : max 64 ((MAX_CONTEXT_BYTES - used) / (tp - out.length)) ≤
            max 64 (MAX_CONTEXT_BYTES - used) := max_le_max (le_refl _) hdiv
        rcases le_total 64 (MAX_CONTEXT_BYTES - used) with h64 | h64
        · rw [max_eq_right h64] at hmax
          omega
        · rw [max_eq_left h64] at hmax
          omega

/-- The loop appends trimmed forms of an initial segment of its input. -/
theorem fillBudget_shape (tp : Nat) :
    ∀ (parts : List RawPart) (out : List ContextPart) (used : Nat),
      ∃ (done : List ContextPart) (n : Nat),
        fillBudget tp parts out used = out ++ done ∧ List.Forall₂ TrimOf done (parts.take n) := by
  intro parts
  induction parts with
  | nil => intro out used; exact ⟨[], 0, by simp [fillBudget], by simp⟩
  | cons part more ih =>
    intro out used
    unfold fillBudget
    by_cases hrem : MAX_CONTEXT_BYTES - used ≤ 0
    · exact ⟨[], 0, by simp [hrem], by simp⟩
    · simp only [hrem, if_false]
      generalize max 64 ((MAX_CONTEXT_BYTES - used) / (tp - out.length)) = a
      obtain ⟨done, n, h1, h2⟩ := ih
        (out ++ [ContextPart.mk part.role (trimByBytes (strOrEmpty part.content) a)])
        (used + bytesOf (trimByBytes (strOrEmpty part.content) a))
      refine ⟨ContextPart.mk part.role (trimByBytes (strOrEmpty part.content) a) :: done,
        n + 1, ?_, ?_⟩
      · rw [h1]; simp
      · rw [List.take_succ_cons]
        exact List.Forall₂.cons ⟨rfl, a, rfl⟩ h2

/-- The first part is always emitted: the loop starts with the whole budget,
and the allowance of the first part is `max 64 (MAX_CONTEXT_BYTES / totalParts)`. -/
theorem fillBudget_first (tp : Nat) (part : RawPart) (more : List RawPart) :
    ∃ (done : List ContextPart) (n : Nat),
      fillBudget tp (part :: more) [] 0 =
        ContextPart.mk part.role
          (trimByBytes (strOrEmpty part.content) (max 64 (MAX_CONTEXT_BYTES / tp))) :: done ∧
      List.Forall₂ TrimOf done (more.take n) := by
  unfold fillBudget
  have hrem : ¬ (MAX_CONTEXT_BYTES ≤ 0) := by decide
  simp only [Nat.sub_zero, hrem, if_false, List.length_nil, Nat.zero_add, List.nil_append]
  obtain ⟨done, n, h1, h2⟩ := fillBudget_shape tp more
    [ContextPart.mk part.role
      (trimByBytes (strOrEmpty part.content) (max 64 (MAX_CONTEXT_BYTES / tp)))]
    (bytesOf (trimByBytes (strOrEmpty part.content) (max 64 (MAX_CONTEXT_BYTES / tp))))
  exact ⟨done, n, by rw [h1]; simp, h2⟩

/-! ## Shape of the result of `buildContext` -/

theorem forall₂_imp_of_mem {α β : Type} {R S : α → β → Prop} {l₁ : List α} {l₂ : List β}
    (h : List.Forall₂ R l₁ l₂) (hi : ∀ a b, b ∈ l₂ → R a b → S a b) : List.Forall₂ S l₁ l₂ := by
  induction h with
  | nil => exact List.Forall₂.nil
  | cons hab _ ih =>
    refine List.Forall₂.cons (hi _ _ (by simp) hab) (ih ?_)
    intro a b hb
    exact hi a b (List.mem_cons_of_mem _ hb)

theorem forall₂_exists_of_mem {α β : Type} {R : α → β → Prop} {l₁ : List α} {l₂ : List β}
    (h : List.Forall₂ R l₁ l₂) : ∀ a, a ∈ l₁ → ∃ b, b ∈ l₂ ∧ R a b := by
  induction h with
  | nil => intro a ha; simp at ha
  | cons hab _ ih =>
    intro a ha
    rcases List.mem_cons.mp ha with rfl | ha
    · exact ⟨_, by simp, hab⟩
    · obtain ⟨b, hb, hr⟩ := ih a ha
      exact ⟨b, List.mem_cons_of_mem _ hb, hr⟩

theorem mem_of_mem_jsSlice {α : Type} (xs : List α) (a : Int) (b : Option Int) (x : α)
    (h : x ∈ jsSlice xs a b) : x ∈ xs := by
  unfold jsSlice at h
  exact List.mem_of_mem_drop (List.mem_of_mem_take h)

theorem role_of_mem_hostServerTurns (messages : List Turn) (m : Turn)
    (h : m ∈ hostServerTurns messages) : m.role = "host" ∨ m.role = "server" := by
  unfold hostServerTurns at h
  have := (List.mem_filter.mp h).2
  simpa using this

theorem summaryParts_cases (o : Option JSString) :
    summaryParts o = [] ∨
      ∃ s, o = some s ∧ jsTrim s ≠ [] ∧
        summaryParts o =
          [RawPart.mk "system" (some (trimByBytes s (MAX_CONTEXT_BYTES * 35 / 100)))] := by
  cases o with
  | none => left; rfl
  | some s =>
    by_cases h : s ≠ [] ∧ jsTrim s ≠ []
    · right
      exact ⟨s, rfl, h.2, by simp only [summaryParts, if_pos h]⟩
    · left
      simp only [summaryParts, if_neg h]

/-- Trimmed forms of the first `n` recent parts carry the first `n` turns of
the slice they were mapped from. -/
theorem carriesTurn_of_trimOf (c : Nat) (messages : List Turn) (done : List ContextPart)
    (n : Nat)
    (h : List.Forall₂ TrimOf done ((recentParts c (hostServerTurns messages)).take n)) :
    List.Forall₂ CarriesTurn done
      ((jsSlice (hostServerTurns messages) (-(c : Int)) none).take n) := by
  unfold recentParts at h
  rw [← List.map_take, List.forall₂_map_right_iff] at h
  refine forall₂_imp_of_mem h ?_
  intro p m hm hr
  have hrole := role_of_mem_hostServerTurns messages m
    (mem_of_mem_jsSlice _ _ _ _ (List.mem_of_mem_take hm))
  refine ⟨?_, hr.2⟩
  rw [hr.1]
  rcases hrole with h1 | h1 <;> simp [h1]

/-- The result of `buildContext` is an optional summary part, the twice
trimmed summary, followed by parts that carry, in order, an initial segment of
the slice `msgs.slice(-contextTurns)` of the host and server turns. -/
theorem buildContext_decompose (c : Nat) (st : State) (id : String) :
    ∃ (sys rec : List ContextPart) (n : Nat),
      buildContext c st id = sys ++ rec ∧
      ((sys = [] ∧ summaryParts (sessSummary st id) = []) ∨
        ∃ s tp, sessSummary st id = some s ∧ jsTrim s ≠ [] ∧
          sys = [ContextPart.mk "system"
            (trimByBytes (trimByBytes s (MAX_CONTEXT_BYTES * 35 / 100))
              (max 64 (MAX_CONTEXT_BYTES / tp)))]) ∧
      List.Forall₂ CarriesTurn rec
        ((jsSlice (hostServerTurns (sessMessages st id)) (-(c : Int)) none).take n) := by
  unfold buildContext
  rcases summaryParts_cases (sessSummary st id) with h | ⟨s, hs, hne, h⟩
  · simp only [h, List.nil_append, List.length_nil, Nat.zero_add]
    obtain ⟨done, n, h1, h2⟩ := fillBudget_shape
      (if (recentParts c (hostServerTurns (sessMessages st id))).length = 0 then 1
        else (recentParts c (hostServerTurns (sessMessages st id))).length)
      (recentParts c (hostServerTurns (sessMessages st id))) [] 0
    exact ⟨[], done, n, by rw [h1], Or.inl ⟨rfl, trivial⟩, carriesTurn_of_trimOf c _ done n h2⟩
  · simp only [h, List.singleton_append]
    generalize (if [RawPart.mk "system"
        (some (trimByBytes s (MAX_CONTEXT_BYTES * 35 / 100)))].length +
          (recentParts c (hostServerTurns (sessMessages st id))).length = 0 then 1
        else [RawPart.mk "system" (some (trimByBytes s (MAX_CONTEXT_BYTES * 35 / 100)))].length +
          (recentParts c (hostServerTurns (sessMessages st id))).length) = tp
    obtain ⟨done, n, h1, h2⟩ := fillBudget_first tp
      (RawPart.mk "system" (some (trimByBytes s (MAX_CONTEXT_BYTES * 35 / 100))))
      (recentParts c (hostServerTurns (sessMessages st id)))
    refine ⟨_, done, n, ?_, Or.inr ⟨s, tp, hs, hne, rfl⟩, carriesTurn_of_trimOf c _ done n h2⟩
    rw [h1]
    rfl

/-- A part that carries a host or server turn is not a summary part. -/
theorem role_of_carried (messages : List Turn) (c n : Nat) (rec : List ContextPart)
    (h : List.Forall₂ CarriesTurn rec ((jsSlice (hostServerTurns messages) (-(c : Int)) none).take n))
    (p : ContextPart) (hp : p ∈ rec) : p.role = "host" ∨ p.role = "server" := by
  obtain ⟨m, hm, hc⟩ := forall₂_exists_of_mem h p hp
  rw [hc.1]
  exact role_of_mem_hostServerTurns messages m
    (mem_of_mem_jsSlice _ _ _ _ (List.mem_of_mem_take hm))

theorem nonSummary_of_carried (rec : List ContextPart)
    (h : ∀ p, p ∈ rec → p.role = "host" ∨ p.role = "server") : nonSummary rec = rec := by
  unfold nonSummary
  rw [List.filter_eq_self]
  intro p hp
  rcases h p hp with h1 | h1 <;> simp [h1]

/-! ## Evaluation of `buildContext` on small sessions -/

theorem jsSlice_neg_of_length_le {α : Type} (xs : List α) (c : Nat) (h : xs.length ≤ c) :
    jsSlice xs (-(c : Int)) none = xs := by
  rcases Nat.eq_zero_or_pos c with h0 | h0
  · subst h0; exact jsSlice_neg_zero xs
  · rw [jsSlice_neg_natCast xs c h0, Nat.sub_eq_zero_of_le h, List.drop_zero]

theorem jsSlice_neg_single {α : Type} (x : α) (c : Nat) : jsSlice [x] (-(c : Int)) none = [x] := by
  rcases Nat.eq_zero_or_pos c with h0 | h0
  · subst h0; exact jsSlice_neg_zero [x]
  · exact jsSlice_neg_of_length_le [x] c h0

theorem mem_dropWhile_of_false {α : Type} (p : α → Bool) (l : List α) (c : α) (hc : c ∈ l)
    (hp : p c = false) : c ∈ l.dropWhile p := by
  induction l with
  | nil => simp at hc
  | cons a l ih =>
    rw [List.dropWhile_cons]
    by_cases ha : p a = true
    · rw [if_pos ha]
      rcases List.mem_cons.mp hc with rfl | h
      · rw [hp] at ha; exact absurd ha (by decide)
      · exact ih h
    · rw [if_neg ha]; exact hc

/-- A string with a character that is not white space is not blank. -/
theorem jsTrim_ne_nil (s : JSString) (c : Nat) (hc : c ∈ s) (hw : isJsWhitespace c = false) :
    jsTrim s ≠ [] := by
  have h1 := mem_dropWhile_of_false isJsWhitespace s c hc hw
  have h2 := mem_dropWhile_of_false isJsWhitespace _ c (List.mem_reverse.mpr h1) hw
  have h3 : c ∈ jsTrim s := List.mem_reverse.mpr h2
  exact List.ne_nil_of_mem h3

theorem jsTrim_asciiText_ne_nil (n : Nat) : jsTrim (asciiText (n + 1)) ≠ [] :=
  jsTrim_ne_nil _ 97 (by simp [asciiText]) (by decide)

/-- The context of a session with one host turn and no summary. -/
theorem buildContext_single_host (c : Nat) (p : JSString) :
    buildContext c (stateOf [hostTurn p] none) "srv" =
      [ContextPart.mk "host" (trimByBytes p MAX_CONTEXT_BYTES)] := by
  have hm : sessMessages (stateOf [hostTurn p] none) "srv" = [hostTurn p] := by
    simp [sessMessages, stateOf]
  have hs : sessSummary (stateOf [hostTurn p] none) "srv" = none := by
    simp [sessSummary, stateOf]
  have hf : hostServerTurns [hostTurn p] = [hostTurn p] := by
    simp [hostServerTurns, hostTurn]
  unfold buildContext
  rw [hm, hs, hf]
  simp [summaryParts, recentParts, jsSlice_neg_single, fillBudget, hostTurn, strOrEmpty,
    MAX_CONTEXT_BYTES]

/-- The context of a session with a summary that is not blank and no turn. -/
theorem buildContext_summary_only (c : Nat) (s : JSString) (h : jsTrim s ≠ []) :
    buildContext c (stateOf [] (some s)) "srv" =
      [ContextPart.mk "system"
        (trimByBytes (trimByBytes s (MAX_CONTEXT_BYTES * 35 / 100)) MAX_CONTEXT_BYTES)] := by
  have hm : sessMessages (stateOf [] (some s)) "srv" = [] := by
    simp [sessMessages, stateOf]
  have hs : sessSummary (stateOf [] (some s)) "srv" = some s := by
    simp [sessSummary, stateOf]
  have hne : s ≠ [] := by
    intro h0; subst h0; exact h rfl
  unfold buildContext
  rw [hm, hs]
  simp [summaryParts, recentParts, hostServerTurns, jsSlice, relIndex, fillBudget, strOrEmpty,
    MAX_CONTEXT_BYTES, h, hne]

/-! ## Properties of `trimByBytes` -/

/-- C2: `trimByBytes s m` is `s` when `bytesOf s ≤ m`; otherwise it is `P`
followed by the marker `' …'`, where `P` is the longest prefix of `s` (in code
units) whose encoded size is at most `m`. -/
theorem trimByBytes_longest_fitting (s : JSString) (m : Nat) :
    (bytesOf s ≤ m ∧ trimByBytes s m = s) ∨
      (m < bytesOf s ∧ ∃ P : JSString, P <+: s ∧ bytesOf P ≤ m ∧
        (∀ Q : JSString, Q <+: s → bytesOf Q ≤ m → Q.length ≤ P.length) ∧
        trimByBytes s m = P ++ marker) := by
  by_cases h : bytesOf s ≤ m
  · left
    refine ⟨h, ?_⟩
    unfold trimByBytes
    rw [if_pos h]
  · right
    have hlt : m < bytesOf s := by omega
    obtain ⟨k, hk, heq, h1, h2⟩ := trimByBytes_cut s m hlt
    refine ⟨hlt, s.take k, List.take_prefix k s, h1, ?_, heq⟩
    intro Q hQ hfit
    obtain ⟨t, rfl⟩ := hQ
    rw [List.length_take, min_eq_left (le_of_lt hk)]
    by_contra hgt
    have hmono := bytesOf_take_mono (Q ++ t) (show k + 1 ≤ Q.length by omega)
    rw [List.take_left] at hmono
    omega

/-- C3, at a failing input: a host turn whose preview is 2045 letters followed
by U+1F600 (2049 bytes) is cut at 2048 bytes between the two halves of the
surrogate pair. The kept text ends with the unpaired leading surrogate, and
its encoding (which ends with the bytes of U+FFFD) is not a prefix of the
encoding of the preview. -/
theorem buildContext_splits_surrogate_pair :
    buildContext 6 (stateOf [hostTurn (asciiText 2045 ++ grinning)] none) "srv" =
        [ContextPart.mk "host" (asciiText 2045 ++ [0xD83D] ++ marker)] ∧
      ¬ (utf8Encode (asciiText 2045 ++ [0xD83D]) <+: utf8Encode (asciiText 2045 ++ grinning)) := by
  constructor
  · rw [buildContext_single_host]
    have h := trimByBytes_asciiText_grinning 2045
    rw [show MAX_CONTEXT_BYTES = 2045 + 3 from rfl, h]
  · rw [utf8Encode_asciiText_append, utf8Encode_asciiText_append,
      List.prefix_append_right_inj]
    decide

/-! ## Properties of `buildContext` -/

/-- C1, counterexample: with the default six context turns, a session whose
only turn has a preview of 3000 letters yields a context of 2052 bytes, above
the budget of 2048. -/
theorem buildContext_total_exceeds_budget :
    ¬ (totalBytes (buildContext 6 (stateOf [hostTurn (asciiText 3000)] none) "srv") ≤
      MAX_CONTEXT_BYTES) := by
  rw [buildContext_single_host, trimByBytes_asciiText 3000 MAX_CONTEXT_BYTES (by decide)]
  simp [totalBytes, bytesOf_append_marker, bytesOf_asciiText, MAX_CONTEXT_BYTES]

/-- C1 (amended): for every state, session id and `contextTurns`, the encoded
sizes of the contents of the parts returned by `buildContext` sum to at most
`MAX_CONTEXT_BYTES + 67 = 2115`: the last part may receive the 64-byte minimum
allowance with a single byte of budget left, and a cut part carries the
four-byte marker on top of its allowance. -/
theorem buildContext_total_le (c : Nat) (st : State) (id : String) :
    totalBytes (buildContext c st id) ≤ MAX_CONTEXT_BYTES + 67 := by
  unfold buildContext
  exact fillBudget_total_le _ _ [] 0 rfl (Nat.zero_le _)

set_option maxRecDepth 100000 in
/-- The bound of 2115 bytes is attained: with `contextTurns = 33`, thirty-one
turns of 64 bytes and one of 63 leave a single byte of budget, and the last
turn, cut at the 64-byte minimum allowance, adds 68 bytes. -/
theorem buildContext_total_attains_bound :
    totalBytes (buildContext 33
      (stateOf (List.replicate 31 (hostTurn (asciiText 64)) ++
        [hostTurn (asciiText 63), hostTurn (asciiText 100)]) none) "srv") =
      MAX_CONTEXT_BYTES + 67 := by
  decide

/-- C4: the parts returned by `buildContext` are ordered summary first, then
chronological. A part with role `system` occurs only at index 0 and only when
the session summary is a string that is not blank; the other parts correspond
one to one, in order, to a contiguous run of the host and server turns of the
session, each with the role of its turn and a trimmed form of its preview (or
of its text when it has no preview). -/
theorem buildContext_summary_first_then_chronological (c : Nat) (st : State) (id : String) :
    (∀ (i : Nat) (p : ContextPart),
        (buildContext c st id)[i]? = some p → p.role = "system" → i = 0) ∧
      ((∃ p, p ∈ buildContext c st id ∧ p.role = "system") →
        ∃ s, sessSummary st id = some s ∧ jsTrim s ≠ []) ∧
      ∃ run : List Turn, run <:+: hostServerTurns (sessMessages st id) ∧
        List.Forall₂ CarriesTurn (nonSummary (buildContext c st id)) run := by
  obtain ⟨sys, rec, n, hout, hsys, hrec⟩ := buildContext_decompose c st id
  have hroles := role_of_carried (sessMessages st id) c n rec hrec
  have hnot : ∀ p, p ∈ rec → p.role ≠ "system" := by
    intro p hp hsysrole
    rcases hroles p hp with h | h <;> rw [h] at hsysrole <;> exact absurd hsysrole (by decide)
  have hlen : sys.length ≤ 1 := by
    rcases hsys with ⟨h, _⟩ | ⟨s, tp, _, _, h⟩ <;> simp [h]
  refine ⟨?_, ?_, ?_⟩
  · intro i p hget hrole
    rw [hout] at hget
    by_contra hi
    have hge : sys.length ≤ i := by omega
    rw [List.getElem?_append_right hge] at hget
    exact hnot p (List.getElem?_mem hget) hrole
  · rintro ⟨p, hp, hrole⟩
    rw [hout] at hp
    rcases hsys with ⟨h, _⟩ | ⟨s, tp, hs, hne, _⟩
    · rw [h, List.nil_append] at hp
      exact absurd hrole (hnot p hp)
    · exact ⟨s, hs, hne⟩
  · refine ⟨(jsSlice (hostServerTurns (sessMessages st id)) (-(c : Int)) none).take n, ?_, ?_⟩
    · unfold jsSlice
      exact (List.take_prefix _ _).isInfix.trans
        ((List.take_prefix _ _).isInfix.trans (List.drop_suffix _ _).isInfix)
    · have hns : nonSummary (buildContext c st id) = rec := by
        rw [hout]
        unfold nonSummary
        rw [List.filter_append]
        have h1 : sys.filter (fun p => decide (p.role ≠ "system")) = [] := by
          rcases hsys with ⟨h, _⟩ | ⟨s, tp, _, _, h⟩ <;> simp [h]
        have h2 := nonSummary_of_carried rec hroles
        unfold nonSummary at h2
        rw [h1, h2, List.nil_append]
      rw [hns]
      exact hrec

/-- For a positive `contextTurns = N` the parts other than the summary are at
most `N` and each has role `host` or `server`. -/
theorem buildContext_recent_le (c : Nat) (hc : 0 < c) (st : State) (id : String) :
    (nonSummary (buildContext c st id)).length ≤ c ∧
      ∀ p, p ∈ nonSummary (buildContext c st id) → p.role = "host" ∨ p.role = "server" := by
  obtain ⟨sys, rec, n, hout, hsys, hrec⟩ := buildContext_decompose c st id
  have hroles := role_of_carried (sessMessages st id) c n rec hrec
  have hns : nonSummary (buildContext c st id) = rec := by
    rw [hout]
    unfold nonSummary
    rw [List.filter_append]
    have h1 : sys.filter (fun p => decide (p.role ≠ "system")) = [] := by
      rcases hsys with ⟨h, _⟩ | ⟨s, tp, _, _, h⟩ <;> simp [h]
    have h2 := nonSummary_of_carried rec hroles
    unfold nonSummary at h2
    rw [h1, h2, List.nil_append]
  rw [hns]
  refine ⟨?_, hroles⟩
  rw [hrec.length_eq, jsSlice_neg_natCast _ c hc, List.length_take, List.length_drop]
  omega

/-- C5, at a failing input: with `contextTurns = 0` the slice
`msgs.slice(-0)` is the whole array, so a session of two turns yields two
parts other than the summary, although at most zero are allowed. -/
theorem buildContext_zero_turns_keeps_all :
    nonSummary (buildContext 0
        (stateOf [hostTurn (lit "hola"),
          { role := "server", serverId := "srv", ts := 1, text := some (lit "ok"),
            preview := none }] none) "srv") =
      [ContextPart.mk "host" (lit "hola"), ContextPart.mk "server" (lit "ok")] := by
  decide

theorem trimByBytes_of_le (s : JSString) (m : Nat) (h : bytesOf s ≤ m) : trimByBytes s m = s := by
  unfold trimByBytes
  rw [if_pos h]

/-- The allowance of the first part is either at most 716 or at least 720. -/
theorem first_allowance_cases (tp : Nat) :
    max 64 (MAX_CONTEXT_BYTES / tp) ≤ 716 ∨ 720 ≤ max 64 (MAX_CONTEXT_BYTES / tp) := by
  rcases Nat.lt_or_ge tp 3 with h | h
  · interval_cases tp <;> simp [MAX_CONTEXT_BYTES]
  · left
    have h1 : MAX_CONTEXT_BYTES / tp ≤ MAX_CONTEXT_BYTES / 3 :=
      Nat.div_le_div_left h (by decide)
    have h2 : MAX_CONTEXT_BYTES / 3 = 682 := by decide
    exact max_le (by decide) (by omega)

/-- C6, counterexample: a summary of 800 letters and no turn. The summary part
is 716 letters and the marker, 720 bytes, above 717. -/
theorem buildContext_summary_part_exceeds_717 :
    buildContext 6 (stateOf [] (some (asciiText 800))) "srv" =
        [ContextPart.mk "system" (asciiText 716 ++ marker)] ∧
      ¬ (bytesOf (asciiText 716 ++ marker) ≤ 717) := by
  constructor
  · rw [buildContext_summary_only 6 _ (jsTrim_asciiText_ne_nil 799),
      show MAX_CONTEXT_BYTES * 35 / 100 = 716 from rfl, trimByBytes_asciiText 800 716 (by decide),
      trimByBytes_of_le]
    rw [bytesOf_append_marker, bytesOf_asciiText]
    decide
  · rw [bytesOf_append_marker, bytesOf_asciiText]
    decide

/-- C6 (amended): the summary part emitted by `buildContext` has an encoded
size of at most 720 bytes: 716 bytes, the floor of 35% of the budget, and the
four bytes of the marker when the summary is cut. -/
theorem buildContext_summary_part_le (c : Nat) (st : State) (id : String) (p : ContextPart)
    (hp : p ∈ buildContext c st id) (hrole : p.role = "system") :
    bytesOf p.content ≤ MAX_CONTEXT_BYTES * 35 / 100 + 4 := by
  obtain ⟨sys, rec, n, hout, hsys, hrec⟩ := buildContext_decompose c st id
  have hroles := role_of_carried (sessMessages st id) c n rec hrec
  rw [hout] at hp
  rcases List.mem_append.mp hp with h | h
  · rcases hsys with ⟨h0, _⟩ | ⟨s, tp, _, _, hs⟩
    · rw [h0] at h; simp at h
    · rw [hs] at h
      have hpe := List.mem_singleton.mp h
      rw [hpe]
      have hin := bytesOf_trimByBytes_le s (MAX_CONTEXT_BYTES * 35 / 100)
      show bytesOf (trimByBytes (trimByBytes s (MAX_CONTEXT_BYTES * 35 / 100))
        (max 64 (MAX_CONTEXT_BYTES / tp))) ≤ MAX_CONTEXT_BYTES * 35 / 100 + 4
      have h716 : MAX_CONTEXT_BYTES * 35 / 100 = 716 := rfl
      rw [h716] at hin ⊢
      rcases first_allowance_cases tp with ha | ha
      · by_cases hfit : bytesOf (trimByBytes s 716) ≤ max 64 (MAX_CONTEXT_BYTES / tp)
        · rw [trimByBytes_of_le _ _ hfit]; exact hin
        · have := bytesOf_trimByBytes_le (trimByBytes s 716) (max 64 (MAX_CONTEXT_BYTES / tp))
          omega
      · rw [trimByBytes_of_le _ _ (by omega)]; exact hin
  · rcases hroles p h with h1 | h1 <;> rw [h1] at hrole <;> exact absurd hrole (by decide)

/-- C6, witness: a session with a summary of 600 bytes and no turn. Its
summary part, here the whole summary, is within the bound. -/
theorem buildContext_summary_part_le_witness :
    ContextPart.mk "system" (asciiText 600) ∈
        buildContext 6 (stateOf [] (some (asciiText 600))) "srv" ∧
      bytesOf (asciiText 600) ≤ MAX_CONTEXT_BYTES * 35 / 100 + 4 := by
  have hmem : ContextPart.mk "system" (asciiText 600) ∈
      buildContext 6 (stateOf [] (some (asciiText 600))) "srv" := by
    rw [buildContext_summary_only 6 _ (jsTrim_asciiText_ne_nil 599),
      trimByBytes_of_le (asciiText 600) _ (by rw [bytesOf_asciiText]; decide),
      trimByBytes_of_le (asciiText 600) _ (by rw [bytesOf_asciiText]; decide)]
    exact List.mem_singleton.mpr rfl
  exact ⟨hmem, buildContext_summary_part_le 6 _ "srv" _ hmem rfl⟩

/-! ## Collapsing white space: the scan against the specification's wording -/

theorem splitBy_loop_acc {α : Type} (r : α → α → Bool) :
    ∀ (l : List α) (a : α) (g : List α) (gs : List (List α)),
      List.splitBy.loop r l a g gs = gs.reverse ++ List.splitBy.loop r l a g [] := by
  intro l
  induction l with
  | nil => intro a g gs; simp [List.splitBy.loop]
  | cons b l ih =>
    intro a g gs
    simp only [List.splitBy.loop]
    cases r a b
    · simp only
      rw [ih b [] ((a :: g).reverse :: gs), ih b [] [(a :: g).reverse]]
      simp
    · simp only
      exact ih b (a :: g) gs

theorem collapseWs_cons_of_not_ws (c : Nat) (rest : JSString) (h : isJsWhitespace c = false) :
    collapseWs (c :: rest) = c :: collapseWs rest := by
  cases rest with
  | nil => simp [collapseWs, h]
  | cons d rest => rw [collapseWs]; simp [h]

/-- The scan of the source agrees with the splitting into runs, from any
state of the splitting loop whose pending run is white space only. -/
theorem collapse_loop (l : JSString) :
    ∀ (a : Nat) (g : JSString),
      (g ≠ [] → isJsWhitespace a = true) → (∀ x, x ∈ g → isJsWhitespace x = true) →
      ((List.splitBy.loop (fun a b => isJsWhitespace a && isJsWhitespace b) l a g []).map
        fun run => if run.all isJsWhitespace then [0x20] else run).flatten =
        collapseWs (a :: l) := by
  induction l with
  | nil =>
    intro a g hg hall
    simp only [List.splitBy.loop, List.reverse_cons, List.reverse_nil, List.nil_append,
      List.map_cons, List.map_nil, List.flatten_cons, List.flatten_nil, List.append_nil]
    by_cases ha : isJsWhitespace a = true
    · have : (g.reverse ++ [a]).all isJsWhitespace = true := by
        simp only [List.all_eq_true, List.mem_append, List.mem_reverse, List.mem_singleton]
        rintro x (hx | rfl)
        · exact hall x hx
        · exact ha
      simp [this, collapseWs, ha]
    · have hg0 : g = [] := by
        by_contra hne
        exact ha (hg hne)
      subst hg0
      simp [collapseWs, ha]
  | cons b l ih =>
    intro a g hg hall
    simp only [List.splitBy.loop]
    by_cases ha : isJsWhitespace a = true
    · by_cases hb : isJsWhitespace b = true
      · simp only [ha, hb, Bool.and_self]
        rw [ih b (a :: g) (fun _ => hb)
          (by intro x hx; rcases List.mem_cons.mp hx with rfl | hx; exact ha; exact hall x hx)]
        rw [collapseWs.eq_3 a b l]
        simp [ha, hb]
      · simp only [ha, hb, Bool.and_false]
        rw [splitBy_loop_acc, List.map_append, List.flatten_append,
          ih b [] (fun h => absurd rfl h) (by intro x hx; simp at hx)]
        have hrun : ∀ x ∈ g.reverse ++ [a], isJsWhitespace x = true := by
          simp only [List.mem_append, List.mem_reverse, List.mem_singleton]
          rintro x (hx | rfl)
          · exact hall x hx
          · exact ha
        rw [collapseWs.eq_3 a b l]
        simp only [List.reverse_cons, List.reverse_nil, List.nil_append, List.map_cons,
          List.map_nil, List.flatten_cons, List.flatten_nil, List.append_nil, List.all_eq_true,
          ha, hb, if_true, Bool.false_eq_true, if_false]
        rw [if_pos hrun]
        rfl
    · have hg0 : g = [] := by
        by_contra hne
        exact ha (hg hne)
      subst hg0
      simp only [ha, Bool.false_and]
      rw [splitBy_loop_acc, List.map_append, List.flatten_append,
        ih b [] (fun h => absurd rfl h) (by intro x hx; simp at hx)]
      rw [collapseWs_cons_of_not_ws a (b :: l) (by simpa using ha)]
      simp [ha]

/-- The scan that models `replace(/\s+/g, ' ')` collapses every run of white
space to one space, in the sense of `specCollapse`. -/
theorem collapseWs_eq_specCollapse (s : JSString) : collapseWs s = specCollapse s := by
  cases s with
  | nil => rfl
  | cons a l =>
    unfold specCollapse
    rw [List.splitBy]
    exact (collapse_loop l a [] (fun h => absurd rfl h) (by intro x hx; simp at hx)).symm

/-! ## Size of a serialized session -/

theorem length_le_bytesOf (s : JSString) : s.length ≤ bytesOf s := by
  induction s using utf8Encode.induct with
  | case1 => simp
  | case2 c =>
    have := encodeUnit_length_pos c
    simp only [List.length_singleton, bytesOf_single]
    omega
  | case3 c d rest h ih =>
    simp only [List.length_cons, bytesOf_cons_cons, h, if_true]
    omega
  | case4 c d rest h ih =>
    have := encodeUnit_length_pos c
    simp only [List.length_cons, bytesOf_cons_cons, h] at ih ⊢
    simp only [Bool.false_eq_true, if_false]
    omega

theorem jsonEscapeUnit_length_pos (c : Nat) : 0 < (jsonEscapeUnit c).length := by
  unfold jsonEscapeUnit
  split_ifs <;> simp [unicodeEscape]

theorem length_le_jsonEscape (s : JSString) : s.length ≤ (jsonEscape s).length := by
  induction s using jsonEscape.induct with
  | case1 => simp
  | case2 c =>
    have := jsonEscapeUnit_length_pos c
    simp only [List.length_singleton, jsonEscape]
    omega
  | case3 c d rest h ih =>
    rw [jsonEscape, if_pos h]
    simp only [List.length_cons]
    omega
  | case4 c d rest h ih =>
    have := jsonEscapeUnit_length_pos c
    rw [jsonEscape, if_neg h]
    simp only [List.length_cons, List.length_append] at ih ⊢
    omega

theorem length_le_jsJoin_head (sep x : JSString) (xs : List JSString) :
    x.length ≤ (jsJoin sep (x :: xs)).length := by
  cases xs with
  | nil => simp [jsJoin]
  | cons y ys =>
    rw [jsJoin]
    simp only [List.length_append]
    omega

/-- The serialization of a session is at least as long as the text of its
first turn. -/
theorem text_length_le_bytesOf_jsonStringify (sess : Session) (m : Turn) (rest : List Turn)
    (t : JSString) (hm : sess.messages = m :: rest) (ht : m.text = some t) :
    t.length ≤ bytesOf (jsonStringify sess) := by
  refine le_trans ?_ (length_le_bytesOf _)
  have h1 := length_le_jsonEscape t
  have h2 := length_le_jsJoin_head (lit ",") (jsonTurn m) (rest.map jsonTurn)
  have h3 : t.length ≤ (jsonTurn m).length := by
    unfold jsonTurn
    rw [ht]
    simp only [jsonOptMember, jsonQuote, List.length_append]
    omega
  unfold jsonStringify
  rw [hm, List.map_cons]
  simp only [List.length_append]
  omega

theorem fourteenTurns_over_ceiling (summary : Option JSString) :
    MAX_SESSION_BYTES <
      bytesOf (jsonStringify { messages := fourteenTurns, createdAt := 0, summary := summary }) := by
  have h := text_length_le_bytesOf_jsonStringify
    { messages := fourteenTurns, createdAt := 0, summary := summary } longTurn
    ((List.range 13).map fun i => shortTurn (i + 1)) (asciiText 520000) rfl rfl
  rw [asciiText_length] at h
  exact lt_of_lt_of_le (by decide) h

/-! ## The compactor -/

theorem older_eq_take {α : Type} (xs : List α) (k : Nat) :
    jsSlice xs 0 (some (((xs.length : Int) - (k : Int)) ⊔ 0)) = xs.take (xs.length - k) := by
  have h : (((xs.length : Int) - (k : Int)) ⊔ 0) = ((xs.length - k : Nat) : Int) := by omega
  rw [h, jsSlice_zero_natCast]

/-- The session record left by a compaction that triggers. -/
theorem compactSessionIfNeeded_session (c : Nat) (stringify : Session → JSString) (now : String)
    (st : State) (id : String) (sess : Session) (hs : st.sessions id = some sess)
    (hbig : MAX_SESSION_BYTES < bytesOf (stringify sess)) :
    (compactSessionIfNeeded c stringify now st id).sessions id =
      some { messages := jsSlice sess.messages (-((c * 2 : Nat) : Int)) none,
             createdAt := sess.createdAt,
             summary :=
               if (sess.messages.take (sess.messages.length - c * 2)).length ≠ 0 then
                 some (foldedSummary sess.summary
                   (sess.messages.take (sess.messages.length - c * 2)))
               else sess.summary } := by
  unfold compactSessionIfNeeded
  rw [hs]
  simp only [if_neg (not_le.mpr hbig), pushLog, older_eq_take, Function.update_same]

theorem jsJoin_eq_intercalate (sep : JSString) (xs : List JSString) :
    jsJoin sep xs = List.intercalate sep xs := by
  induction xs using jsJoin.induct sep with
  | case1 => rfl
  | case2 x => simp [jsJoin, List.intercalate]
  | case3 x y rest ih =>
    rw [jsJoin, ih]
    simp [List.intercalate, List.intersperse]

theorem bullet_eq_specBulletLine (m : Turn) : bullet m = specBulletLine m := by
  have htext : (m.preview.orElse fun _ => m.text).getD [] = specTurnText m := by
    unfold specTurnText
    cases m.preview <;> cases m.text <;> rfl
  have hslice : bulletText m = (specCollapse (specTurnText m)).take 160 := by
    unfold bulletText
    rw [htext, collapseWs_eq_specCollapse]
    exact jsSlice_zero_natCast _ 160
  unfold bullet specBulletLine
  rw [hslice]
  by_cases h : m.role = "host"
  · simp only [h, if_true]
    rw [show lit "- " ++ lit "Usuario" ++ lit ": " = lit "- Usuario: " by decide]
  · simp only [h, if_false]
    rw [show lit "- " ++ lit "Asistente" ++ lit ": " = lit "- Asistente: " by decide]

/-- The summary computed by the compactor is the one the specification
describes. -/
theorem foldedSummary_eq_specSummary (summary : Option JSString) (older : List Turn) :
    foldedSummary summary older = specSummary summary older := by
  have hturns : jsSlice older (-(SUMMARY_BULLETS : Int)) none = specBulletTurns older := by
    rw [jsSlice_neg_natCast older SUMMARY_BULLETS (by decide)]
    unfold specBulletTurns SUMMARY_BULLETS
    congr 1
    omega
  have hpre : (match summary with
      | some s => if s ≠ [] then s ++ lit "\n" else []
      | none => []) = specPre summary := by
    unfold specPre
    rcases summary with _ | s
    · rfl
    · cases s with
      | nil => simp
      | cons c s => simp only [ne_eq, reduceCtorEq, not_false_eq_true, if_true]; rfl
  unfold foldedSummary specSummary
  simp only [hturns, hpre, jsJoin_eq_intercalate]
  rw [show lit "\n" = [0x0A] by decide, show bullet = specBulletLine from
    funext bullet_eq_specBulletLine]

/-- C7: when the serialized session is at most `MAX_SESSION_BYTES = 500*1024`
bytes, or the session does not exist, `compactSessionIfNeeded` returns the
state unchanged: messages, summary and `createdAt` are as before and no log
line is added. -/
theorem compactSessionIfNeeded_noop (c : Nat) (stringify : Session → JSString) (now : String)
    (st : State) (id : String)
    (h : ∀ sess, st.sessions id = some sess → bytesOf (stringify sess) ≤ MAX_SESSION_BYTES) :
    compactSessionIfNeeded c stringify now st id = st := by
  unfold compactSessionIfNeeded
  cases hs : st.sessions id with
  | none => rfl
  | some sess => simp only [if_pos (h sess hs)]

/-- C7, witness: a session of one short turn serializes well under the
ceiling, and compaction leaves the state as it is. -/
theorem compactSessionIfNeeded_noop_witness :
    bytesOf (jsonStringify
        { messages := [hostTurn (lit "hola")], createdAt := 0, summary := some (lit "s") }) ≤
        MAX_SESSION_BYTES ∧
      compactSessionIfNeeded 6 jsonStringify "t"
          (stateOf [hostTurn (lit "hola")] (some (lit "s"))) "srv" =
        stateOf [hostTurn (lit "hola")] (some (lit "s")) := by
  refine ⟨by decide, compactSessionIfNeeded_noop 6 jsonStringify "t" _ "srv" ?_⟩
  intro sess hs
  have h : sess =
      { messages := [hostTurn (lit "hola")], createdAt := 0, summary := some (lit "s") } := by
    simp only [stateOf, if_true, Option.some.injEq] at hs
    exact hs.symm
  rw [h]
  decide

/-- C8: when compaction triggers on a session of `n` turns with
`contextTurns = c ≥ 1`, the retained messages are exactly the last
`min n (2c)` turns, unmodified and in their order. -/
theorem compactSessionIfNeeded_retains (c : Nat) (stringify : Session → JSString) (now : String)
    (st : State) (id : String) (sess : Session) (hc : 1 ≤ c)
    (hs : st.sessions id = some sess) (hbig : MAX_SESSION_BYTES < bytesOf (stringify sess)) :
    ∃ sess', (compactSessionIfNeeded c stringify now st id).sessions id = some sess' ∧
      sess'.messages =
        sess.messages.drop (sess.messages.length - min sess.messages.length (2 * c)) ∧
      sess'.messages.length = min sess.messages.length (2 * c) := by
  refine ⟨_, compactSessionIfNeeded_session c stringify now st id sess hs hbig, ?_, ?_⟩
  · show jsSlice sess.messages (-((c * 2 : Nat) : Int)) none = _
    rw [jsSlice_neg_natCast _ _ (by omega)]
    congr 1
    omega
  · show (jsSlice sess.messages (-((c * 2 : Nat) : Int)) none).length = _
    rw [jsSlice_neg_natCast _ _ (by omega), List.length_drop]
    omega

/-- C8, witness (scenario C): 14 turns over the ceiling with
`contextTurns = 6`; the 12 most recent turns are retained and the 2 oldest
leave the history. -/
theorem compactSessionIfNeeded_retains_witness :
    MAX_SESSION_BYTES <
        bytesOf (jsonStringify { messages := fourteenTurns, createdAt := 0, summary := none }) ∧
      ∃ sess', (compactSessionIfNeeded 6 jsonStringify "t"
          (stateOf fourteenTurns none) "srv").sessions "srv" = some sess' ∧
        sess'.messages = fourteenTurns.drop 2 ∧ sess'.messages.length = 12 := by
  refine ⟨fourteenTurns_over_ceiling none, ?_⟩
  obtain ⟨sess', h1, h2, h3⟩ := compactSessionIfNeeded_retains 6 jsonStringify "t"
    (stateOf fourteenTurns none) "srv"
    { messages := fourteenTurns, createdAt := 0, summary := none } (by decide)
    (by simp [stateOf]) (fourteenTurns_over_ceiling none)
  exact ⟨sess', h1, h2, h3⟩

/-- The turns that leave the history are the ones the compactor calls
`older`: if the history splits into a non-empty list followed by the retained
turns, that list is `messages.slice(0, length - keepCount)`. -/
theorem evicted_eq_older (c : Nat) (msgs evicted : List Turn)
    (hsplit : msgs = evicted ++ jsSlice msgs (-((c * 2 : Nat) : Int)) none)
    (hne : evicted ≠ []) : evicted = msgs.take (msgs.length - c * 2) := by
  rcases Nat.eq_zero_or_pos c with h0 | h0
  · subst h0
    rw [show ((0 * 2 : Nat) : Int) = ((0 : Nat) : Int) by simp, jsSlice_neg_zero] at hsplit
    have hlen := congrArg List.length hsplit
    rw [List.length_append] at hlen
    have : evicted.length = 0 := by omega
    exact absurd (List.length_eq_zero.mp this) hne
  · rw [jsSlice_neg_natCast _ _ (by omega)] at hsplit
    have h := (List.take_append_drop (msgs.length - c * 2) msgs).trans hsplit
    exact (List.append_cancel_right h).symm

/-- C9: when compaction evicts `e ≥ 1` turns, the new summary is
`trimByBytes(pre + bullets, 2000)`, where `pre` is the old summary followed by
a newline (empty when there was none) and `bullets` joins by newlines exactly
`min e 5` lines, one for each of the last `min e 5` evicted turns in order:
`- Usuario: t` for a host turn and `- Asistente: t` otherwise, `t` being the
first 160 characters of the preview (or the text) after collapsing every run
of white space to one space. -/
theorem compactSessionIfNeeded_summary (c : Nat) (stringify : Session → JSString) (now : String)
    (st : State) (id : String) (sess : Session)
    (hs : st.sessions id = some sess) (hbig : MAX_SESSION_BYTES < bytesOf (stringify sess)) :
    ∃ sess', (compactSessionIfNeeded c stringify now st id).sessions id = some sess' ∧
      ∀ evicted : List Turn, sess.messages = evicted ++ sess'.messages → evicted ≠ [] →
        sess'.summary = some (specSummary sess.summary evicted) ∧
          (specBulletTurns evicted).length = min evicted.length 5 := by
  refine ⟨_, compactSessionIfNeeded_session c stringify now st id sess hs hbig, ?_⟩
  intro evicted hsplit hne
  have hev := evicted_eq_older c sess.messages evicted hsplit hne
  constructor
  · show (if (sess.messages.take (sess.messages.length - c * 2)).length ≠ 0 then
        some (foldedSummary sess.summary (sess.messages.take (sess.messages.length - c * 2)))
      else sess.summary) = _
    rw [← hev, if_pos (by simpa using hne), foldedSummary_eq_specSummary]
  · unfold specBulletTurns
    rw [List.length_drop]
    omega

/-- C9, witness (scenario C): the two oldest of 14 turns are evicted and
folded into two bullets. -/
theorem compactSessionIfNeeded_summary_witness :
    ∃ sess', (compactSessionIfNeeded 6 jsonStringify "t"
        (stateOf fourteenTurns none) "srv").sessions "srv" = some sess' ∧
      fourteenTurns = [longTurn, shortTurn 1] ++ sess'.messages ∧
      sess'.summary = some (lit "- Usuario: host: hola\n- Asistente: turno breve") := by
  obtain ⟨sess', h1, h2⟩ := compactSessionIfNeeded_summary 6 jsonStringify "t"
    (stateOf fourteenTurns none) "srv"
    { messages := fourteenTurns, createdAt := 0, summary := none }
    (by simp [stateOf]) (fourteenTurns_over_ceiling none)
  have hcore := compactSessionIfNeeded_session 6 jsonStringify "t"
    (stateOf fourteenTurns none) "srv"
    { messages := fourteenTurns, createdAt := 0, summary := none }
    (by simp [stateOf]) (fourteenTurns_over_ceiling none)
  rw [hcore] at h1
  have hsess := (Option.some.inj h1).symm
  have hsplit : fourteenTurns = [longTurn, shortTurn 1] ++ sess'.messages := by
    rw [hsess]; rfl
  refine ⟨sess', by rw [hcore, hsess], hsplit, ?_⟩
  rw [(h2 [longTurn, shortTurn 1] hsplit (by simp)).1]
  decide

/-- C10, counterexample: 14 turns over the ceiling, `contextTurns = 6` and an
old summary of 2500 letters. Two turns are evicted and the new summary is 2000
letters and the marker, 2004 bytes. -/
theorem compactSessionIfNeeded_summary_exceeds_2000 :
    ∃ sess', (compactSessionIfNeeded 6 jsonStringify "t"
        (stateOf fourteenTurns (some (asciiText 2500))) "srv").sessions "srv" = some sess' ∧
      fourteenTurns = [longTurn, shortTurn 1] ++ sess'.messages ∧
      sess'.summary = some (asciiText 2000 ++ marker) ∧
      ¬ (bytesOf (asciiText 2000 ++ marker) ≤ 2000) := by
  have hcore := compactSessionIfNeeded_session 6 jsonStringify "t"
    (stateOf fourteenTurns (some (asciiText 2500))) "srv"
    { messages := fourteenTurns, createdAt := 0, summary := some (asciiText 2500) }
    (by simp [stateOf]) (fourteenTurns_over_ceiling _)
  refine ⟨_, hcore, rfl, ?_, ?_⟩
  · show (if (fourteenTurns.take (fourteenTurns.length - 6 * 2)).length ≠ 0 then
        some (foldedSummary (some (asciiText 2500))
          (fourteenTurns.take (fourteenTurns.length - 6 * 2)))
      else some (asciiText 2500)) = _
    rw [if_pos (by decide)]
    unfold foldedSummary
    have hne : asciiText 2500 ≠ [] := by
      intro h
      have := congrArg List.length h
      rw [asciiText_length] at this
      exact absurd this (by decide)
    simp only [hne, ne_eq, not_false_eq_true, if_true, List.append_assoc]
    rw [trimByBytes_asciiText_append 2500 2000 _ (by decide)]
  · rw [bytesOf_append_marker, bytesOf_asciiText]
    decide

/-- C10 (amended): after a compaction that evicts at least one turn, the
encoded size of the session summary is at most 2004 bytes: the ceiling of 2000
and the four bytes of the marker when the summary is cut. -/
theorem compactSessionIfNeeded_summary_le (c : Nat) (stringify : Session → JSString)
    (now : String) (st : State) (id : String) (sess : Session)
    (hs : st.sessions id = some sess) (hbig : MAX_SESSION_BYTES < bytesOf (stringify sess)) :
    ∃ sess', (compactSessionIfNeeded c stringify now st id).sessions id = some sess' ∧
      ∀ evicted : List Turn, sess.messages = evicted ++ sess'.messages → evicted ≠ [] →
        ∃ s, sess'.summary = some s ∧ bytesOf s ≤ 2000 + 4 := by
  refine ⟨_, compactSessionIfNeeded_session c stringify now st id sess hs hbig, ?_⟩
  intro evicted hsplit hne
  have hev := evicted_eq_older c sess.messages evicted hsplit hne
  refine ⟨foldedSummary sess.summary evicted, ?_, bytesOf_trimByBytes_le _ 2000⟩
  show (if (sess.messages.take (sess.messages.length - c * 2)).length ≠ 0 then
      some (foldedSummary sess.summary (sess.messages.take (sess.messages.length - c * 2)))
    else sess.summary) = _
  rw [← hev, if_pos (by simpa using hne)]

/-- C10, witness: the session of 14 turns with a short old summary; the new
summary exists and is at most 2004 bytes. -/
theorem compactSessionIfNeeded_summary_le_witness :
    ∃ sess', (compactSessionIfNeeded 6 jsonStringify "t"
        (stateOf fourteenTurns (some (lit "antes"))) "srv").sessions "srv" = some sess' ∧
      fourteenTurns = [longTurn, shortTurn 1] ++ sess'.messages ∧
      ∃ s, sess'.summary = some s ∧ bytesOf s ≤ 2000 + 4 := by
  obtain ⟨sess', h1, h2⟩ := compactSessionIfNeeded_summary_le 6 jsonStringify "t"
    (stateOf fourteenTurns (some (lit "antes"))) "srv"
    { messages := fourteenTurns, createdAt := 0, summary := some (lit "antes") }
    (by simp [stateOf]) (fourteenTurns_over_ceiling _)
  have hcore := compactSessionIfNeeded_session 6 jsonStringify "t"
    (stateOf fourteenTurns (some (lit "antes"))) "srv"
    { messages := fourteenTurns, createdAt := 0, summary := some (lit "antes") }
    (by simp [stateOf]) (fourteenTurns_over_ceiling _)
  rw [hcore] at h1
  have hsess := (Option.some.inj h1).symm
  have hsplit : fourteenTurns = [longTurn, shortTurn 1] ++ sess'.messages := by
    rw [hsess]; rfl
  exact ⟨sess', by rw [hcore, hsess], hsplit, h2 [longTurn, shortTurn 1] hsplit (by simp)⟩

/-! ## Lossy folding -/

theorem specBulletTurns_eq_nil (evicted : List Turn) :
    specBulletTurns evicted = [] ↔ evicted = [] := by
  unfold specBulletTurns
  constructor
  · intro h
    have hl := congrArg List.length h
    rw [List.length_drop] at hl
    simp only [List.length_nil] at hl
    exact List.length_eq_zero.mp (by omega)
  · intro h
    subst h
    rfl

theorem specSummary_congr (summary : Option JSString) (ev₁ ev₂ : List Turn)
    (h : specBulletTurns ev₁ = specBulletTurns ev₂) :
    specSummary summary ev₁ = specSummary summary ev₂ := by
  unfold specSummary
  rw [h]

theorem fourteenTurnsAlt_over_ceiling (summary : Option JSString) :
    MAX_SESSION_BYTES <
      bytesOf (jsonStringify { messages := fourteenTurnsAlt, createdAt := 0, summary := summary }) := by
  have h := text_length_le_bytesOf_jsonStringify
    { messages := fourteenTurnsAlt, createdAt := 0, summary := summary } longTurn
    (((List.range 6).map fun i => hostTurn (lit "otra cosa " ++ lit (toString i))) ++
      (List.range 7).map fun i => shortTurn (i + 7)) (asciiText 520000) rfl rfl
  rw [asciiText_length] at h
  exact lt_of_lt_of_le (by decide) h

/-- C11: evicted turns outside the window of five bullets leave no trace.
For two sessions over the ceiling, compacted with the same `contextTurns`,
that have the same old summary, the same retained turns and the same last
five evicted turns, the compactor leaves the same summary and the same
messages, whatever the earlier evicted turns are. -/
theorem compactSessionIfNeeded_forgets_older_evicted (c : Nat)
    (stringify : Session → JSString) (now₁ now₂ : String) (st₁ st₂ : State) (id₁ id₂ : String)
    (sess₁ sess₂ : Session)
    (hs₁ : st₁.sessions id₁ = some sess₁) (hs₂ : st₂.sessions id₂ = some sess₂)
    (hbig₁ : MAX_SESSION_BYTES < bytesOf (stringify sess₁))
    (hbig₂ : MAX_SESSION_BYTES < bytesOf (stringify sess₂))
    (hsum : sess₁.summary = sess₂.summary) :
    ∃ r₁ r₂, (compactSessionIfNeeded c stringify now₁ st₁ id₁).sessions id₁ = some r₁ ∧
      (compactSessionIfNeeded c stringify now₂ st₂ id₂).sessions id₂ = some r₂ ∧
      ∀ ev₁ ev₂ : List Turn, sess₁.messages = ev₁ ++ r₁.messages →
        sess₂.messages = ev₂ ++ r₂.messages → r₁.messages = r₂.messages →
        specBulletTurns ev₁ = specBulletTurns ev₂ →
        r₁.summary = r₂.summary ∧ r₁.messages = r₂.messages := by
  refine ⟨_, _, compactSessionIfNeeded_session c stringify now₁ st₁ id₁ sess₁ hs₁ hbig₁,
    compactSessionIfNeeded_session c stringify now₂ st₂ id₂ sess₂ hs₂ hbig₂, ?_⟩
  intro ev₁ ev₂ h1 h2 hkeep hlast
  refine ⟨?_, hkeep⟩
  show (if (sess₁.messages.take (sess₁.messages.length - c * 2)).length ≠ 0 then
      some (foldedSummary sess₁.summary (sess₁.messages.take (sess₁.messages.length - c * 2)))
    else sess₁.summary) =
    (if (sess₂.messages.take (sess₂.messages.length - c * 2)).length ≠ 0 then
      some (foldedSummary sess₂.summary (sess₂.messages.take (sess₂.messages.length - c * 2)))
    else sess₂.summary)
  by_cases he : ev₁ = []
  · have he₂ : ev₂ = [] := (specBulletTurns_eq_nil ev₂).mp
      (by rw [← hlast]; exact (specBulletTurns_eq_nil ev₁).mpr he)
    have hm : sess₁.messages = sess₂.messages := by
      rw [h1, h2, he, he₂, List.nil_append, List.nil_append]
      exact hkeep
    rw [hm, hsum]
  · have he₂ : ev₂ ≠ [] := fun h => he ((specBulletTurns_eq_nil ev₁).mp
      (by rw [hlast]; exact (specBulletTurns_eq_nil ev₂).mpr h))
    have e1 := evicted_eq_older c sess₁.messages ev₁ h1 he
    have e2 := evicted_eq_older c sess₂.messages ev₂ h2 he₂
    rw [← e1, ← e2, if_pos (by simpa using he), if_pos (by simpa using he₂),
      foldedSummary_eq_specSummary, foldedSummary_eq_specSummary, hsum,
      specSummary_congr sess₂.summary ev₁ ev₂ hlast]

/-- C11, witness: two histories of 14 turns over the ceiling, compacted with
`contextTurns = 1`. They retain the same two turns and agree on the last five
of their twelve evicted turns; six of the earlier evicted turns differ. The
two compactions give the same summary and the same messages. -/
theorem compactSessionIfNeeded_forgets_older_evicted_witness :
    fourteenTurns ≠ fourteenTurnsAlt ∧
      ∃ r₁ r₂,
        (compactSessionIfNeeded 1 jsonStringify "t" (stateOf fourteenTurns none) "srv").sessions
          "srv" = some r₁ ∧
        (compactSessionIfNeeded 1 jsonStringify "t" (stateOf fourteenTurnsAlt none) "srv").sessions
          "srv" = some r₂ ∧
        r₁.summary = r₂.summary ∧ r₁.messages = r₂.messages := by
  obtain ⟨r₁, r₂, h1, h2, h3⟩ := compactSessionIfNeeded_forgets_older_evicted 1 jsonStringify
    "t" "t" (stateOf fourteenTurns none) (stateOf fourteenTurnsAlt none) "srv" "srv"
    { messages := fourteenTurns, createdAt := 0, summary := none }
    { messages := fourteenTurnsAlt, createdAt := 0, summary := none }
    (by simp [stateOf]) (by simp [stateOf]) (fourteenTurns_over_ceiling none)
    (fourteenTurnsAlt_over_ceiling none) rfl
  have c1 := compactSessionIfNeeded_session 1 jsonStringify "t" (stateOf fourteenTurns none) "srv"
    { messages := fourteenTurns, createdAt := 0, summary := none }
    (by simp [stateOf]) (fourteenTurns_over_ceiling none)
  have c2 := compactSessionIfNeeded_session 1 jsonStringify "t" (stateOf fourteenTurnsAlt none)
    "srv" { messages := fourteenTurnsAlt, createdAt := 0, summary := none }
    (by simp [stateOf]) (fourteenTurnsAlt_over_ceiling none)
  have m1 : r₁.messages = fourteenTurns.drop 12 := by
    rw [c1] at h1
    rw [← Option.some.inj h1]
    rfl
  have m2 : r₂.messages = fourteenTurnsAlt.drop 12 := by
    rw [c2] at h2
    rw [← Option.some.inj h2]
    rfl
  have hdiff : fourteenTurns ≠ fourteenTurnsAlt := by
    intro h
    have := congrArg (fun l => (l.drop 1).head?.map fun m => m.preview) h
    revert this
    decide
  refine ⟨hdiff, r₁, r₂, h1, h2, ?_⟩
  exact h3 (fourteenTurns.take 12) (fourteenTurnsAlt.take 12)
    (by rw [m1]; exact (List.take_append_drop 12 _).symm)
    (by rw [m2]; exact (List.take_append_drop 12 _).symm)
    (by rw [m1, m2]; rfl) (by rfl)

/-! ## Every part against its allowance -/

/-- The condition met by the part at index `i` of a context `res`: the parts
before it left some budget, and the part is a text cut at an allowance of at
least 64 bytes and at most the larger of 64 and the budget left, so it is at
most four bytes above that allowance. -/
theorem fillBudget_parts (tp : Nat) :
    ∀ (parts : List RawPart) (out : List ContextPart) (used : Nat),
      totalBytes out = used →
      (∀ i p, out[i]? = some p →
        totalBytes (out.take i) < MAX_CONTEXT_BYTES ∧
        ∃ raw allowance, 64 ≤ allowance ∧
          allowance ≤ max 64 (MAX_CONTEXT_BYTES - totalBytes (out.take i)) ∧
          p.content = trimByBytes raw allowance ∧ bytesOf p.content ≤ allowance + 4) →
      ∀ i p, (fillBudget tp parts out used)[i]? = some p →
        totalBytes ((fillBudget tp parts out used).take i) < MAX_CONTEXT_BYTES ∧
        ∃ raw allowance, 64 ≤ allowance ∧
          allowance ≤ max 64 (MAX_CONTEXT_BYTES - totalBytes ((fillBudget tp parts out used).take i)) ∧
          p.content = trimByBytes raw allowance ∧ bytesOf p.content ≤ allowance + 4 := by
  intro parts
  induction parts with
  | nil => intro out used _ hout; simpa [fillBudget] using hout
  | cons part more ih =>
    intro out used hused hout
    unfold fillBudget
    by_cases hrem : MAX_CONTEXT_BYTES - used ≤ 0
    · simp only [hrem, if_true]
      exact hout
    · simp only [hrem, if_false]
      apply ih _ _ (by rw [totalBytes_append_single, hused])
      intro i p hp
      rcases Nat.lt_trichotomy i out.length with hlt | heq | hgt
      · rw [List.getElem?_append_left hlt] at hp
        rw [List.take_append_of_le_length (Nat.le_of_lt hlt)]
        exact hout i p hp
      · subst heq
        rw [List.getElem?_append_right (le_refl _), Nat.sub_self] at hp
        simp only [List.getElem?_cons_zero, Option.some.injEq] at hp
        subst hp
        rw [List.take_left', hused]
        refine ⟨by omega, strOrEmpty part.content,
          max 64 ((MAX_CONTEXT_BYTES - used) / (tp - out.length)), le_max_left _ _,
          max_le_max (le_refl _) (Nat.div_le_self _ _), rfl, bytesOf_trimByBytes_le _ _⟩
        rfl
      · rw [List.getElem?_eq_none (by simp only [List.length_append, List.length_singleton]; omega)]
          at hp
        cases hp

/-- C28: for every session and every `contextTurns`, the contents of the
parts returned by `buildContext` total at most 2115 bytes (2047 + 64 + 4).
A part is emitted only while the parts before it total less than 2048 bytes;
it is a text cut at an allowance that is at least 64 bytes, even when fewer
bytes remain, and at most the larger of 64 and the bytes that remain; and it
is at most 4 bytes, the continuation marker, larger than its allowance. -/
theorem buildContext_parts_within_allowance (c : Nat) (st : State) (id : String) :
    totalBytes (buildContext c st id) ≤ 2047 + 64 + 4 ∧
      ∀ i p, (buildContext c st id)[i]? = some p →
        totalBytes ((buildContext c st id).take i) < MAX_CONTEXT_BYTES ∧
        ∃ raw allowance, 64 ≤ allowance ∧
          allowance ≤ max 64 (MAX_CONTEXT_BYTES - totalBytes ((buildContext c st id).take i)) ∧
          p.content = trimByBytes raw allowance ∧ bytesOf p.content ≤ allowance + 4 := by
  constructor
  · unfold buildContext
    exact fillBudget_total_le _ _ [] 0 rfl (Nat.zero_le _)
  · unfold buildContext
    exact fillBudget_parts _ _ [] 0 rfl (fun i p hp => by simp at hp)

/-! ## A summary that was cut -/

theorem encodeUnit_length_le (c : Nat) : (encodeUnit c).length ≤ 4 := by
  unfold encodeUnit encodeScalar
  split_ifs <;> simp

/-- Lengthening a prefix by one code unit adds at most four bytes. -/
theorem bytesOf_take_succ_le (s : JSString) :
    ∀ j, bytesOf (s.take (j + 1)) ≤ bytesOf (s.take j) + 4 := by
  induction s using utf8Encode.induct with
  | case1 => intro j; simp
  | case2 c =>
    intro j
    cases j with
    | zero => simpa [bytesOf_nil, bytesOf_single] using encodeUnit_length_le c
    | succ j => simp
  | case3 c d rest h ih =>
    intro j
    match j with
    | 0 =>
      simp only [List.take_succ_cons, List.take_zero, bytesOf_single, bytesOf_nil]
      have := encodeUnit_length_le c
      omega
    | 1 =>
      simp only [List.take_succ_cons, List.take_zero, bytesOf_single, bytesOf_cons_cons, h, if_true,
        bytesOf_nil]
      omega
    | j + 2 =>
      simp only [List.take_succ_cons, bytesOf_cons_cons, h, if_true]
      have := ih j
      omega
  | case4 c d rest h ih =>
    intro j
    match j with
    | 0 =>
      simp only [List.take_succ_cons, List.take_zero, bytesOf_single, bytesOf_nil]
      have := encodeUnit_length_le c
      omega
    | 1 =>
      have := ih 0
      simp only [List.take_succ_cons, List.take_zero, bytesOf_single, bytesOf_cons_cons, h,
        bytesOf_nil] at this ⊢
      simp only [Bool.false_eq_true, if_false]
      omega
    | j + 2 =>
      have := ih (j + 1)
      simp only [List.take_succ_cons, bytesOf_cons_cons, h] at this ⊢
      simp only [Bool.false_eq_true, if_false]
      omega

/-- A text that was cut is larger than the limit: the kept prefix is within
four bytes of the limit and the marker adds four. -/
theorem bytesOf_trimByBytes_gt (s : JSString) (m : Nat) (h : m < bytesOf s) :
    m < bytesOf (trimByBytes s m) := by
  obtain ⟨k, _, heq, _, h2⟩ := trimByBytes_cut s m h
  rw [heq, bytesOf_append_marker]
  have := bytesOf_take_succ_le s k
  omega

/-- C29: a summary `s` of more than 2000 bytes absorbs nothing. Cutting `s`
followed by a newline and any bullet text `b` at 2000 bytes gives the cut of
`s` alone, since the cut keeps the oldest prefix; so a compaction of a session
with such a summary stores the cut of the summary, whatever turns it evicts.
And a cut summary is itself larger than 2000 bytes, so this holds for every
later compaction. -/
theorem cut_summary_absorbs_nothing (s b : JSString) (h : 2000 < bytesOf s) :
    trimByBytes (s ++ lit "\n" ++ b) 2000 = trimByBytes s 2000 ∧
      2000 < bytesOf (trimByBytes s 2000) ∧
      ∀ older : List Turn, foldedSummary (some s) older = trimByBytes s 2000 := by
  have key : ∀ t : JSString, trimByBytes (s ++ lit "\n" ++ t) 2000 = trimByBytes s 2000 := by
    intro t
    obtain ⟨k, hk, heq, h1, h2⟩ := trimByBytes_cut s 2000 h
    have hlen : k + 1 ≤ s.length := hk
    rw [heq, trimByBytes_eq_of_cut (s ++ lit "\n" ++ t) 2000 k]
    · rw [List.append_assoc, List.take_append_of_le_length (by omega)]
    · rwa [List.append_assoc, List.take_append_of_le_length (by omega)]
    · rwa [List.append_assoc, List.take_append_of_le_length hlen]
  refine ⟨key b, bytesOf_trimByBytes_gt s 2000 h, fun older => ?_⟩
  have hne : s ≠ [] := by
    rintro rfl
    simp [bytesOf_nil] at h
  unfold foldedSummary
  simp only [hne, ne_eq, not_false_eq_true, if_true]
  exact key _

/-- C29, witness: a summary of 3000 letters and one bullet. -/
theorem cut_summary_absorbs_nothing_witness :
    2000 < bytesOf (asciiText 3000) ∧
      trimByBytes (asciiText 3000 ++ lit "\n" ++ lit "- Usuario: hola") 2000 =
        trimByBytes (asciiText 3000) 2000 :=
  ⟨by rw [bytesOf_asciiText]; decide,
    (cut_summary_absorbs_nothing (asciiText 3000) (lit "- Usuario: hola")
      (by rw [bytesOf_asciiText]; decide)).1⟩

end P1Core

namespace McpBridge

open P1Core JsRegex

/-! ## The line decoder -/

theorem jsSlice_from_succ {α : Type} (xs : List α) (k : Nat) :
    jsSlice xs ((k : Int) + 1) none = xs.drop (k + 1) := by
  have h : relIndex xs.length ((k : Int) + 1) = min (k + 1) xs.length := by
    have := relIndex_natCast xs.length (k + 1)
    simpa using this
  simp only [jsSlice, h]
  rcases le_total (k + 1) xs.length with hle | hle
  · rw [min_eq_left hle, List.take_of_length_le (by simp)]
  · rw [min_eq_right hle, List.drop_of_length_le (le_refl _), List.drop_of_length_le hle]
    simp

theorem indexOfNewline_lt (buf : JSString) (idx : Nat) (h : indexOfNewline buf = some idx) :
    idx < buf.length := by
  induction buf generalizing idx with
  | nil => simp [indexOfNewline] at h
  | cons c rest ih =>
    unfold indexOfNewline at h
    by_cases hc : c = 0x0A
    · simp only [hc, if_true, Option.some.injEq] at h
      subst h; simp
    · simp only [hc, if_false, Option.map_eq_some'] at h
      obtain ⟨i, hi, rfl⟩ := h
      have := ih i hi
      simp only [List.length_cons]
      omega

theorem indexOfNewline_append (line rest : JSString) (h : (0x0A : Nat) ∉ line) :
    indexOfNewline (line ++ 0x0A :: rest) = some line.length := by
  induction line with
  | nil => simp [indexOfNewline]
  | cons c line ih =>
    have hc : c ≠ 0x0A := fun hc => h (by simp [hc])
    have hl : (0x0A : Nat) ∉ line := fun hl => h (List.mem_cons_of_mem _ hl)
    show indexOfNewline (c :: (line ++ 0x0A :: rest)) = _
    rw [indexOfNewline, if_neg hc, ih hl]
    rfl

/-- With at least `buf.length` units of fuel the decoding loop does not
depend on the fuel. -/
theorem decodeLines_fuel {σ : Type} (onLine : JSString → σ → σ) :
    ∀ (f₁ f₂ : Nat) (buf : JSString) (s : σ), buf.length ≤ f₁ → buf.length ≤ f₂ →
      decodeLines onLine f₁ buf s = decodeLines onLine f₂ buf s := by
  intro f₁
  induction f₁ with
  | zero =>
    intro f₂ buf s h1 _
    have hb : buf = [] := List.length_eq_zero.mp (by omega)
    subst hb
    cases f₂ <;> simp [decodeLines, indexOfNewline]
  | succ f₁ ih =>
    intro f₂ buf s h1 h2
    cases f₂ with
    | zero =>
      have hb : buf = [] := List.length_eq_zero.mp (by omega)
      subst hb
      simp [decodeLines, indexOfNewline]
    | succ f₂ =>
      simp only [decodeLines]
      cases hidx : indexOfNewline buf with
      | none => rfl
      | some idx =>
        have hlt := indexOfNewline_lt buf idx hidx
        have hlen : (jsSlice buf ((idx : Int) + 1) none).length ≤ buf.length - 1 := by
          rw [jsSlice_from_succ, List.length_drop]; omega
        simp only
        split_ifs
        · exact ih f₂ _ _ (by omega) (by omega)
        · exact ih f₂ _ _ (by omega) (by omega)

/-- A property kept by the line handler is kept by the decoding loop. -/
theorem decodeLines_invariant {σ : Type} (onLine : JSString → σ → σ) (P : σ → Prop)
    (hP : ∀ line s, P s → P (onLine line s)) :
    ∀ (fuel : Nat) (buf : JSString) (s : σ), P s → P (decodeLines onLine fuel buf s).2 := by
  intro fuel
  induction fuel with
  | zero => intro buf s hs; exact hs
  | succ fuel ih =>
    intro buf s hs
    simp only [decodeLines]
    cases indexOfNewline buf with
    | none => exact hs
    | some idx =>
      simp only
      split_ifs
      · exact ih _ _ hs
      · exact ih _ _ (hP _ _ hs)

/-- One step of the decoding loop on a buffer that starts with a line. -/
theorem decodeLines_line {σ : Type} (onLine : JSString → σ → σ) (line rest : JSString) (s : σ)
    (h : (0x0A : Nat) ∉ line) :
    decodeLines onLine (line ++ 0x0A :: rest).length (line ++ 0x0A :: rest) s =
      decodeLines onLine rest.length rest
        (if jsTrim line = [] then s else onLine (jsTrim line) s) := by
  have hlen : (line ++ 0x0A :: rest).length = (line.length + rest.length) + 1 := by
    simp only [List.length_append, List.length_cons]; omega
  rw [hlen]
  simp only [decodeLines, indexOfNewline_append line rest h, jsSlice_zero_natCast,
    jsSlice_from_succ]
  have h1 : (line ++ 0x0A :: rest).take line.length = line := by
    rw [List.take_left']
    rfl
  have h2 : (line ++ 0x0A :: rest).drop (line.length + 1) = rest := by
    rw [show line ++ 0x0A :: rest = (line ++ [0x0A]) ++ rest by simp]
    rw [List.drop_left']
    simp
  rw [h1, h2]
  split_ifs
  · exact decodeLines_fuel onLine _ _ _ _ (by omega) (le_refl _)
  · exact decodeLines_fuel onLine _ _ _ _ (by omega) (le_refl _)

/-! ## The stdout handler on one line -/

/-- A line either leaves the channel as it is or settles one pending
request. -/
theorem handleLine_cases (parse : JSString → Option Parsed) (line : JSString) (ch : Channel) :
    handleLine parse line ch = ch ∨
      ∃ k m, k ∈ ch.pending ∧ handleLine parse line ch = settleResponse k m ch := by
  unfold handleLine
  cases parse line with
  | none => left; rfl
  | some msg =>
    cases msg with
    | null => left; rfl
    | other => left; rfl
    | message m =>
      simp only [handleParsed]
      cases m.id with
      | none => left; rfl
      | some v =>
        simp only
        by_cases hv : v.truthy = true
        · simp only [hv, if_true]
          cases keyOf v with
          | none => left; rfl
          | some k =>
            simp only
            by_cases hk : k ∈ ch.pending
            · right; exact ⟨k, m, hk, by simp [hk]⟩
            · left; simp [hk]
        · left; simp [hv]

theorem keyOf_num (n : Nat) : keyOf (JsonValue.num (n : Int)) = some n := rfl

/-- The stdout handler on a message whose id is the number `n`. -/
theorem handleLine_response (parse : JSString → Option Parsed) (line : JSString) (ch : Channel)
    (m : RpcMessage) (n : Nat) (hp : parse line = some (Parsed.message m))
    (hid : m.id = some (JsonValue.num (n : Int))) :
    handleLine parse line ch =
      if n ≠ 0 ∧ n ∈ ch.pending then settleResponse n m ch else ch := by
  unfold handleLine
  rw [hp]
  simp only [handleParsed, hid, keyOf_num, JsonValue.truthy]
  by_cases h0 : n = 0
  · subst h0; simp
  · have : ((n : Int) != 0) = true := by simp; exact_mod_cast h0
    simp only [this, if_true, h0, ne_eq, not_false_eq_true, true_and]
    by_cases hk : n ∈ ch.pending <;> simp [hk]

/-! ## Well-formed channels -/

theorem wellFormed_fresh : WellFormed freshChannel := by
  refine ⟨by decide, List.nodup_nil, ?_⟩
  intro k hk
  simp [freshChannel] at hk

theorem mapSet_fresh (keys : List Nat) (k : Nat) (h : k ∉ keys) : mapSet keys k = keys ++ [k] := by
  simp [mapSet, h]

theorem wellFormed_rpc (method : String) (params : Option JSString) (ch : Channel)
    (h : WellFormed ch) : WellFormed (rpc method params ch).1 := by
  obtain ⟨h1, h2, h3⟩ := h
  have hfresh : ch.nextId ∉ ch.pending := fun hk => by
    have := (h3 _ hk).2
    omega
  refine ⟨?_, ?_, ?_⟩
  · show 1 ≤ ch.nextId + 1
    omega
  · show (mapSet ch.pending ch.nextId).Nodup
    rw [mapSet_fresh _ _ hfresh]
    exact List.Nodup.append h2 (List.nodup_singleton _) (by simpa using hfresh)
  · intro k hk
    have hk' : k ∈ mapSet ch.pending ch.nextId := hk
    rw [mapSet_fresh _ _ hfresh, List.mem_append, List.mem_singleton] at hk'
    show 1 ≤ k ∧ k < ch.nextId + 1
    rcases hk' with hk' | rfl
    · have := h3 k hk'
      omega
    · omega

theorem wellFormed_erase (ch : Channel) (k : Nat) (settled : List (Nat × Settlement))
    (h : WellFormed ch) :
    WellFormed { ch with pending := ch.pending.erase k, settled := settled } := by
  obtain ⟨h1, h2, h3⟩ := h
  exact ⟨h1, h2.erase k, fun j hj => h3 j (List.mem_of_mem_erase hj)⟩

theorem wellFormed_handleLine (parse : JSString → Option Parsed) (line : JSString)
    (ch : Channel) (h : WellFormed ch) : WellFormed (handleLine parse line ch) := by
  rcases handleLine_cases parse line ch with heq | ⟨k, m, _, heq⟩
  · rw [heq]; exact h
  · rw [heq]; exact wellFormed_erase ch k _ h

theorem wellFormed_onData (parse : JSString → Option Parsed) (chunk : JSString) (ch : Channel)
    (h : WellFormed ch) : WellFormed (onData parse chunk ch) := by
  have := decodeLines_invariant (handleLine parse) WellFormed
    (fun line s hs => wellFormed_handleLine parse line s hs) (ch.buf ++ chunk).length
    (ch.buf ++ chunk) ch h
  exact this

theorem wellFormed_timerCallback (idNum : Nat) (method : String) (ch : Channel)
    (h : WellFormed ch) : WellFormed (timerCallback idNum method ch) := by
  unfold timerCallback
  split_ifs
  · exact wellFormed_erase ch idNum _ h
  · exact h

theorem wellFormed_onTimeout (idNum : Nat) (ch : Channel) (h : WellFormed ch) :
    WellFormed (onTimeout idNum ch) := by
  unfold onTimeout
  cases ch.timers.lookup idNum with
  | none => exact h
  | some method => exact wellFormed_timerCallback idNum method _ h

theorem wellFormed_chanStep (parse : JSString → Option Parsed) (id : String) (ch : Channel)
    (e : ChanEvent) (h : WellFormed ch) : WellFormed (chanStep parse id ch e) := by
  cases e with
  | send method params => exact wellFormed_rpc method params ch h
  | data chunk => exact wellFormed_onData parse chunk ch h
  | timeout idNum => exact wellFormed_onTimeout idNum ch h
  | exit code => exact h

/-- Every state of a channel reached from a well-formed one is well formed. -/
theorem wellFormed_chanRun (parse : JSString → Option Parsed) (id : String)
    (events : List ChanEvent) :
    ∀ ch, WellFormed ch → WellFormed (chanRun parse id ch events) := by
  induction events with
  | nil => intro ch h; exact h
  | cons e events ih =>
    intro ch h
    exact ih _ (wellFormed_chanStep parse id ch e h)

/-! ## What the events leave unchanged -/

theorem handleLine_frame (parse : JSString → Option Parsed) (line : JSString) (ch : Channel) :
    (handleLine parse line ch).nextId = ch.nextId ∧
      (handleLine parse line ch).written = ch.written ∧
      (handleLine parse line ch).timers = ch.timers := by
  rcases handleLine_cases parse line ch with heq | ⟨k, m, _, heq⟩ <;> rw [heq] <;>
    exact ⟨rfl, rfl, rfl⟩

theorem onData_frame (parse : JSString → Option Parsed) (chunk : JSString) (ch : Channel) :
    (onData parse chunk ch).nextId = ch.nextId ∧ (onData parse chunk ch).written = ch.written ∧
      (onData parse chunk ch).timers = ch.timers := by
  have := decodeLines_invariant (handleLine parse)
    (fun s => s.nextId = ch.nextId ∧ s.written = ch.written ∧ s.timers = ch.timers)
    (fun line s hs => by
      obtain ⟨h1, h2, h3⟩ := handleLine_frame parse line s
      exact ⟨h1.trans hs.1, h2.trans hs.2.1, h3.trans hs.2.2⟩)
    (ch.buf ++ chunk).length (ch.buf ++ chunk) ch ⟨rfl, rfl, rfl⟩
  exact this

theorem onTimeout_frame (idNum : Nat) (ch : Channel) :
    (onTimeout idNum ch).nextId = ch.nextId ∧ (onTimeout idNum ch).written = ch.written := by
  unfold onTimeout
  cases ch.timers.lookup idNum with
  | none => exact ⟨rfl, rfl⟩
  | some method =>
    simp only [timerCallback]
    split_ifs <;> exact ⟨rfl, rfl⟩

/-! ## Request ids -/

theorem sentIds_rpc (method : String) (params : Option JSString) (ch : Channel) :
    sentIds (rpc method params ch).1 = sentIds ch ++ [ch.nextId] := by
  simp [sentIds, rpc, List.filterMap_append]

/-- The ids written during a run are the consecutive ids from `nextId` on,
one per send. -/
theorem sentIds_chanRun (parse : JSString → Option Parsed) (id : String)
    (events : List ChanEvent) :
    ∀ ch, sentIds (chanRun parse id ch events) =
        sentIds ch ++ List.range' ch.nextId (countSends events) ∧
      (chanRun parse id ch events).nextId = ch.nextId + countSends events := by
  induction events with
  | nil => intro ch; simp [chanRun, countSends]
  | cons e events ih =>
    intro ch
    have hrun : chanRun parse id ch (e :: events) =
        chanRun parse id (chanStep parse id ch e) events := rfl
    rw [hrun]
    obtain ⟨h1, h2⟩ := ih (chanStep parse id ch e)
    cases e with
    | send method params =>
      have hc : countSends (ChanEvent.send method params :: events) = countSends events + 1 := by
        simp [countSends]
      have hn : (chanStep parse id ch (ChanEvent.send method params)).nextId = ch.nextId + 1 := rfl
      rw [h1, h2, hc, hn]
      constructor
      · show sentIds (rpc method params ch).1 ++ _ = _
        rw [sentIds_rpc, List.append_assoc, List.singleton_append, List.range'_succ]
      · omega
    | data chunk =>
      have hc : countSends (ChanEvent.data chunk :: events) = countSends events := by
        simp [countSends]
      obtain ⟨f1, f2, _⟩ := onData_frame parse chunk ch
      have hs : sentIds (chanStep parse id ch (ChanEvent.data chunk)) = sentIds ch := by
        show sentIds (onData parse chunk ch) = sentIds ch
        unfold sentIds; rw [f2]
      have hn : (chanStep parse id ch (ChanEvent.data chunk)).nextId = ch.nextId := f1
      rw [h1, h2, hc, hs, hn]
      exact ⟨rfl, rfl⟩
    | timeout idNum =>
      have hc : countSends (ChanEvent.timeout idNum :: events) = countSends events := by
        simp [countSends]
      obtain ⟨f1, f2⟩ := onTimeout_frame idNum ch
      have hs : sentIds (chanStep parse id ch (ChanEvent.timeout idNum)) = sentIds ch := by
        show sentIds (onTimeout idNum ch) = sentIds ch
        unfold sentIds; rw [f2]
      have hn : (chanStep parse id ch (ChanEvent.timeout idNum)).nextId = ch.nextId := f1
      rw [h1, h2, hc, hs, hn]
      exact ⟨rfl, rfl⟩
    | exit code =>
      have hc : countSends (ChanEvent.exit code :: events) = countSends events := by
        simp [countSends]
      rw [h1, h2, hc]
      exact ⟨rfl, rfl⟩

theorem newIds_eq_range' (n : Nat) : ∀ r : JsonRpc, newIds n r = List.range' r.nextId n := by
  induction n with
  | zero => intro r; rfl
  | succ n ih =>
    intro r
    rw [newIds, ih, List.range'_succ]
    rfl

/-- C15: on a fresh channel the ids allocated by successive sends are
1, 2, 3, ..., whatever else happens in between: strictly increasing, hence
pairwise distinct. The same holds for `newId` of `createJsonRpc`. -/
theorem request_ids_count_up (parse : JSString → Option Parsed) (id : String)
    (events : List ChanEvent) (n : Nat) :
    sentIds (chanRun parse id freshChannel events) = List.range' 1 (countSends events) ∧
      (sentIds (chanRun parse id freshChannel events)).Pairwise (fun a b => a < b) ∧
      (sentIds (chanRun parse id freshChannel events)).Nodup ∧
      newIds n createJsonRpc = List.range' 1 n ∧
      (newIds n createJsonRpc).Pairwise (fun a b => a < b) := by
  have h := (sentIds_chanRun parse id events freshChannel).1
  have h' : sentIds (chanRun parse id freshChannel events) =
      List.range' 1 (countSends events) := by
    rw [h]; rfl
  have hn : newIds n createJsonRpc = List.range' 1 n := newIds_eq_range' n createJsonRpc
  refine ⟨h', ?_, ?_, hn, ?_⟩
  · rw [h']; exact List.pairwise_lt_range' 1 _
  · rw [h']; exact List.nodup_range' 1 _
  · rw [hn]; exact List.pairwise_lt_range' 1 _

/-! ## Responses -/

theorem clientLine_response (parse : JSString → Option Parsed) (line : JSString) (r : JsonRpc)
    (m : RpcMessage) (n : Nat) (hp : parse line = some (Parsed.message m))
    (hid : m.id = some (JsonValue.num (n : Int))) :
    clientLine parse line r =
      if n ≠ 0 ∧ n ∈ r.pending then
        { r with pending := r.pending.erase n, settled := r.settled ++ [(n, settleOutcome m)] }
      else r := by
  unfold clientLine
  rw [hp]
  simp only [hid, JsonValue.truthy, JsonRpc.settle, Option.bind, keyOf_num]
  by_cases h0 : n = 0
  · subst h0; simp
  · have : ((n : Int) != 0) = true := by simp; exact_mod_cast h0
    simp only [this, if_true, h0, ne_eq, not_false_eq_true, true_and]

/-- C13: a response line with id `n` settles and removes only the pending
request registered under `n`; the other entries of the pending table stay as
they are, in their order, and when no entry has id `n` the table is unchanged
and nothing is settled. This holds for the stdout handler of `spawnMcp` and
for `settle` of `createJsonRpc` behind the handler of `createStdIoClient`. -/
theorem response_settles_only_its_request (parse : JSString → Option Parsed) (line : JSString)
    (m : RpcMessage) (n : Nat) (ch : Channel) (r : JsonRpc)
    (hp : parse line = some (Parsed.message m)) (hid : m.id = some (JsonValue.num (n : Int)))
    (hch : WellFormed ch) (hr : r.pending.Nodup ∧ 0 ∉ r.pending) :
    (n ∈ ch.pending →
        (handleLine parse line ch).pending = ch.pending.erase n ∧
        n ∉ (handleLine parse line ch).pending ∧
        (∀ k, k ≠ n → (k ∈ (handleLine parse line ch).pending ↔ k ∈ ch.pending)) ∧
        (handleLine parse line ch).settled = ch.settled ++ [(n, responseOutcome m)]) ∧
      (n ∉ ch.pending → handleLine parse line ch = ch) ∧
      (n ∈ r.pending →
        (clientLine parse line r).pending = r.pending.erase n ∧
        n ∉ (clientLine parse line r).pending ∧
        (∀ k, k ≠ n → (k ∈ (clientLine parse line r).pending ↔ k ∈ r.pending)) ∧
        (clientLine parse line r).settled = r.settled ++ [(n, settleOutcome m)]) ∧
      (n ∉ r.pending → clientLine parse line r = r) := by
  have h1 := handleLine_response parse line ch m n hp hid
  have h2 := clientLine_response parse line r m n hp hid
  refine ⟨?_, ?_, ?_, ?_⟩
  · intro hn
    have h0 : n ≠ 0 := by
      have := (hch.2.2 n hn).1
      omega
    rw [h1, if_pos ⟨h0, hn⟩]
    refine ⟨rfl, ?_, ?_, rfl⟩
    · show n ∉ ch.pending.erase n
      exact fun h => ((List.Nodup.mem_erase_iff hch.2.1).mp h).1 rfl
    · intro k hk
      show k ∈ ch.pending.erase n ↔ k ∈ ch.pending
      rw [List.Nodup.mem_erase_iff hch.2.1]
      exact ⟨fun h => h.2, fun h => ⟨hk, h⟩⟩
  · intro hn
    rw [h1, if_neg (fun h => hn h.2)]
  · intro hn
    have h0 : n ≠ 0 := fun h => hr.2 (h ▸ hn)
    rw [h2, if_pos ⟨h0, hn⟩]
    refine ⟨rfl, ?_, ?_, rfl⟩
    · show n ∉ r.pending.erase n
      exact fun h => ((List.Nodup.mem_erase_iff hr.1).mp h).1 rfl
    · intro k hk
      show k ∈ r.pending.erase n ↔ k ∈ r.pending
      rw [List.Nodup.mem_erase_iff hr.1]
      exact ⟨fun h => h.2, fun h => ⟨hk, h⟩⟩
  · intro hn
    rw [h2, if_neg (fun h => hn h.2)]

/-- C13, witness: with requests 1 and 2 pending, the reply to request 2
removes and resolves request 2 and leaves request 1 pending. -/
theorem response_settles_only_its_request_witness :
    (handleLine exampleParse replyTwo
        (rpc "tools/call" none (rpc "tools/list" none freshChannel).1).1).pending = [1] ∧
      (handleLine exampleParse replyTwo
        (rpc "tools/call" none (rpc "tools/list" none freshChannel).1).1).settled =
        [(2, Settlement.resolved (JsonValue.compound (lit "\x7b\x7d")))] ∧
      (clientLine exampleParse replyTwo
        ((createJsonRpc.wait 1).wait 2)).pending = [1] := by
  have h := response_settles_only_its_request exampleParse replyTwo (resultMessage 2 replyTwo) 2
    (rpc "tools/call" none (rpc "tools/list" none freshChannel).1).1
    ((createJsonRpc.wait 1).wait 2) (by decide) rfl
    (wellFormed_rpc _ _ _ (wellFormed_rpc _ _ _ wellFormed_fresh)) (by decide)
  obtain ⟨h1, _, h3, _⟩ := h
  obtain ⟨a1, _, _, a4⟩ := h1 (by decide)
  obtain ⟨b1, _, _, _⟩ := h3 (by decide)
  exact ⟨a1.trans (by decide), a4.trans (by decide), b1.trans (by decide)⟩

/-! ## Timeouts -/

theorem absent_chanStep (parse : JSString → Option Parsed) (id : String) (n : Nat)
    (ch : Channel) (e : ChanEvent) (h : n < ch.nextId ∧ n ∉ ch.pending) :
    n < (chanStep parse id ch e).nextId ∧ n ∉ (chanStep parse id ch e).pending := by
  cases e with
  | send method params =>
    refine ⟨?_, ?_⟩
    · show n < ch.nextId + 1
      omega
    · show n ∉ mapSet ch.pending ch.nextId
      unfold mapSet
      split_ifs
      · exact h.2
      · simp only [List.mem_append, List.mem_singleton, not_or]
        exact ⟨h.2, by omega⟩
  | data chunk =>
    have := decodeLines_invariant (handleLine parse)
      (fun s => n < s.nextId ∧ n ∉ s.pending)
      (fun line s hs => by
        rcases handleLine_cases parse line s with heq | ⟨k, m, _, heq⟩
        · rw [heq]; exact hs
        · rw [heq]; exact ⟨hs.1, fun hm => hs.2 (List.mem_of_mem_erase hm)⟩)
      (ch.buf ++ chunk).length (ch.buf ++ chunk) ch h
    exact this
  | timeout idNum =>
    show n < (onTimeout idNum ch).nextId ∧ n ∉ (onTimeout idNum ch).pending
    unfold onTimeout
    cases ch.timers.lookup idNum with
    | none => exact h
    | some method =>
      simp only [timerCallback]
      split_ifs
      · exact ⟨h.1, fun hm => h.2 (List.mem_of_mem_erase hm)⟩
      · exact h
  | exit code => exact h

/-- An id that has been allocated and is no longer pending never becomes
pending again. -/
theorem absent_chanRun (parse : JSString → Option Parsed) (id : String) (n : Nat)
    (events : List ChanEvent) :
    ∀ ch, n < ch.nextId ∧ n ∉ ch.pending →
      n < (chanRun parse id ch events).nextId ∧ n ∉ (chanRun parse id ch events).pending := by
  induction events with
  | nil => intro ch h; exact h
  | cons e events ih =>
    intro ch h
    exact ih _ (absent_chanStep parse id n ch e h)

/-- C14: when the timer of a pending request `n` fires, the request is
rejected with the error `RPC timeout: <method>` and its entry is removed; a
response with id `n` that arrives later, after any further events on the
channel, settles nothing and leaves the channel unchanged. -/
theorem timeout_then_late_response_discarded (parse : JSString → Option Parsed) (id : String)
    (ch : Channel) (n : Nat) (method : String) (hwf : WellFormed ch) (hpend : n ∈ ch.pending)
    (htimer : ch.timers.lookup n = some method) :
    (onTimeout n ch).settled =
        ch.settled ++ [(n, Settlement.rejected (lit "RPC timeout: " ++ lit method))] ∧
      (onTimeout n ch).pending = ch.pending.erase n ∧
      n ∉ (onTimeout n ch).pending ∧
      ∀ (events : List ChanEvent) (line : JSString) (m : RpcMessage),
        parse line = some (Parsed.message m) → m.id = some (JsonValue.num (n : Int)) →
        handleLine parse line (chanRun parse id (onTimeout n ch) events) =
          chanRun parse id (onTimeout n ch) events := by
  have heq : onTimeout n ch =
      { ch with
          timers := ch.timers.filter fun t => t.1 ≠ n,
          pending := ch.pending.erase n,
          settled := ch.settled ++ [(n, Settlement.rejected (lit "RPC timeout: " ++ lit method))] } := by
    unfold onTimeout
    rw [htimer]
    simp only [timerCallback, hpend, if_true]
  have habs : n ∉ (onTimeout n ch).pending := by
    rw [heq]
    exact fun h => ((List.Nodup.mem_erase_iff hwf.2.1).mp h).1 rfl
  have hlt : n < (onTimeout n ch).nextId := by
    rw [heq]
    exact (hwf.2.2 n hpend).2
  refine ⟨by rw [heq], by rw [heq], habs, ?_⟩
  intro events line m hp hid
  have h := absent_chanRun parse id n events (onTimeout n ch) ⟨hlt, habs⟩
  rw [handleLine_response parse line _ m n hp hid, if_neg (fun hc => h.2 hc.2)]

/-- C14, witness (scenario B): the only request times out; its reply, arriving
afterwards, changes nothing. -/
theorem timeout_then_late_response_discarded_witness :
    (onTimeout 1 (rpc "tools/list" none freshChannel).1).settled =
        [(1, Settlement.rejected (lit "RPC timeout: tools/list"))] ∧
      (onTimeout 1 (rpc "tools/list" none freshChannel).1).pending = [] ∧
      handleLine exampleParse replyOne
          (chanRun exampleParse "fs" (onTimeout 1 (rpc "tools/list" none freshChannel).1) []) =
        chanRun exampleParse "fs" (onTimeout 1 (rpc "tools/list" none freshChannel).1) [] := by
  obtain ⟨h1, h2, _, h4⟩ := timeout_then_late_response_discarded exampleParse "fs"
    (rpc "tools/list" none freshChannel).1 1 "tools/list"
    (wellFormed_rpc _ _ _ wellFormed_fresh) (by decide) (by decide)
  exact ⟨h1.trans (by decide), h2.trans (by decide),
    h4 [] replyOne (resultMessage 1 replyOne) (by decide) rfl⟩

/-! ## Lines that are not JSON -/

theorem handleLine_invalid (parse : JSString → Option Parsed) (line : JSString) (ch : Channel)
    (h : parse line = none) : handleLine parse line ch = ch := by
  unfold handleLine
  rw [h]

theorem clientLine_invalid (parse : JSString → Option Parsed) (line : JSString) (r : JsonRpc)
    (h : parse line = none) : clientLine parse line r = r := by
  unfold clientLine
  rw [h]

/-- The line handler does not read the buffer. -/
theorem handleLine_buf (parse : JSString → Option Parsed) (line : JSString) (s : Channel)
    (b : JSString) :
    handleLine parse line { s with buf := b } = { handleLine parse line s with buf := b } := by
  unfold handleLine
  cases parse line with
  | none => rfl
  | some msg =>
    cases msg with
    | null => rfl
    | other => rfl
    | message m =>
      simp only [handleParsed]
      cases m.id with
      | none => rfl
      | some v =>
        simp only
        by_cases hv : v.truthy = true
        · simp only [hv, if_true]
          cases keyOf v with
          | none => rfl
          | some k =>
            simp only
            by_cases hk : k ∈ s.pending
            · simp only [hk, if_true]; rfl
            · simp only [hk, if_false]
        · simp only [hv]; rfl

theorem decodeLines_buf (parse : JSString → Option Parsed) :
    ∀ (fuel : Nat) (buf : JSString) (s : Channel) (b : JSString),
      decodeLines (handleLine parse) fuel buf { s with buf := b } =
        ((decodeLines (handleLine parse) fuel buf s).1,
          { (decodeLines (handleLine parse) fuel buf s).2 with buf := b }) := by
  intro fuel
  induction fuel with
  | zero => intro buf s b; rfl
  | succ fuel ih =>
    intro buf s b
    simp only [decodeLines]
    cases indexOfNewline buf with
    | none => rfl
    | some idx =>
      simp only
      split_ifs
      · exact ih _ _ _
      · rw [handleLine_buf, ih]

/-- C16: a stdout line that is not valid JSON is dropped: the handler leaves
the channel as it is (pending table unchanged, nothing settled), and the rest
of the data is processed exactly as if the line had not been there, so the
lines after it, in the same chunk and in later ones, are handled as usual.
This holds for the handler of `spawnMcp` and for that of `createStdIoClient`. -/
theorem invalid_line_is_dropped (parse : JSString → Option Parsed) (line rest : JSString)
    (ch : Channel) (chunk : JSString) (c : StdIoClient) (chunk' : JSString)
    (hnl : (0x0A : Nat) ∉ line) (hbad : parse (jsTrim line) = none)
    (hbuf : ch.buf ++ chunk = line ++ 0x0A :: rest)
    (hbuf' : c.buf ++ chunk' = line ++ 0x0A :: rest) :
    handleLine parse (jsTrim line) ch = ch ∧
      onData parse chunk ch = onData parse rest { ch with buf := [] } ∧
      clientLine parse (jsTrim line) c.rpc = c.rpc ∧
      clientData parse chunk' c = clientData parse rest { c with buf := [] } := by
  refine ⟨handleLine_invalid parse _ ch hbad, ?_, clientLine_invalid parse _ c.rpc hbad, ?_⟩
  · have hL : onData parse chunk ch =
        { (decodeLines (handleLine parse) rest.length rest ch).2 with
            buf := (decodeLines (handleLine parse) rest.length rest ch).1 } := by
      unfold onData
      rw [hbuf, decodeLines_line (handleLine parse) line rest ch hnl,
        handleLine_invalid parse _ ch hbad, ite_self]
    have hR : onData parse rest { ch with buf := [] } =
        { (decodeLines (handleLine parse) rest.length rest ch).2 with
            buf := (decodeLines (handleLine parse) rest.length rest ch).1 } := by
      unfold onData
      simp only [List.nil_append]
      rw [decodeLines_buf]
    rw [hL, hR]
  · unfold clientData
    rw [hbuf', decodeLines_line (clientLine parse) line rest c.rpc hnl,
      clientLine_invalid parse _ c.rpc hbad, ite_self]
    simp only [List.nil_append]

/-- C16, witness: with request 1 pending, the chunk `garbage`, newline, the
reply to request 1, newline: the first line is dropped and the reply resolves
the request. -/
theorem invalid_line_is_dropped_witness :
    onData exampleParse (lit "garbage\n" ++ replyOne ++ lit "\n")
        (rpc "tools/list" none freshChannel).1 =
      onData exampleParse (replyOne ++ lit "\n")
        { (rpc "tools/list" none freshChannel).1 with buf := [] } ∧
      (onData exampleParse (lit "garbage\n" ++ replyOne ++ lit "\n")
        (rpc "tools/list" none freshChannel).1).settled =
        [(1, Settlement.resolved (JsonValue.compound (lit "\x7b\x7d")))] := by
  have h := invalid_line_is_dropped exampleParse (lit "garbage") (replyOne ++ lit "\n")
    (rpc "tools/list" none freshChannel).1 (lit "garbage\n" ++ replyOne ++ lit "\n")
    { buf := [], rpc := createJsonRpc.wait 1 } (lit "garbage\n" ++ replyOne ++ lit "\n")
    (by decide) (by decide) (by decide) (by decide)
  exact ⟨h.2.1, by decide⟩

/-! ## Settling exactly once -/

theorem settledIds_append (ch : Channel) (k : Nat) (o : Settlement) (timers : List (Nat × String))
    (pending : List Nat) :
    settledIds { ch with timers := timers, pending := pending, settled := ch.settled ++ [(k, o)] } =
      settledIds ch ++ [k] := by
  simp [settledIds]

/-- Settling a pending request, with or without disarming timers of other
requests kept armed, keeps the channel well formed and settled once. -/
theorem settledOnce_settle (ch : Channel) (k : Nat) (o : Settlement)
    (timers : List (Nat × String)) (hw : WellFormed ch) (hs : SettledOnce ch)
    (hk : k ∈ ch.pending)
    (harm : ∀ j, j ≠ k → j ∈ armedIds ch → j ∈ timers.map fun t => t.1) :
    SettledOnce
      { ch with timers := timers, pending := ch.pending.erase k,
                settled := ch.settled ++ [(k, o)] } := by
  obtain ⟨s1, s2, s3, s4⟩ := hs
  obtain ⟨_, w2, w3⟩ := hw
  refine ⟨?_, ?_, ?_, ?_⟩
  · rw [settledIds_append]
    exact List.Nodup.append s1 (List.nodup_singleton _) (by simpa using s2 k hk)
  · intro j hj
    have hj' : j ∈ ch.pending.erase k := hj
    rw [List.Nodup.mem_erase_iff w2] at hj'
    rw [settledIds_append, List.mem_append, List.mem_singleton, not_or]
    exact ⟨s2 j hj'.2, hj'.1⟩
  · intro j hj
    rw [settledIds_append, List.mem_append, List.mem_singleton] at hj
    show j < ch.nextId
    rcases hj with hj | rfl
    · exact s3 j hj
    · exact (w3 j hk).2
  · intro j h1 h2
    rw [settledIds_append, List.mem_append, List.mem_singleton]
    by_cases hjk : j = k
    · left; right; exact hjk
    · rcases s4 j h1 h2 with h | ⟨hp, ha⟩
      · left; left; exact h
      · right
        refine ⟨?_, harm j hjk ha⟩
        show j ∈ ch.pending.erase k
        rw [List.Nodup.mem_erase_iff w2]
        exact ⟨hjk, hp⟩

theorem settledOnce_handleLine (parse : JSString → Option Parsed) (line : JSString)
    (ch : Channel) (h : WellFormed ch ∧ SettledOnce ch) :
    WellFormed (handleLine parse line ch) ∧ SettledOnce (handleLine parse line ch) := by
  refine ⟨wellFormed_handleLine parse line ch h.1, ?_⟩
  rcases handleLine_cases parse line ch with heq | ⟨k, m, hk, heq⟩
  · rw [heq]; exact h.2
  · rw [heq]
    exact settledOnce_settle ch k (responseOutcome m) ch.timers h.1 h.2 hk (fun j _ hj => hj)

theorem settledOnce_rpc (method : String) (params : Option JSString) (ch : Channel)
    (hw : WellFormed ch) (hs : SettledOnce ch) : SettledOnce (rpc method params ch).1 := by
  obtain ⟨s1, s2, s3, s4⟩ := hs
  obtain ⟨_, _, w3⟩ := hw
  have hfresh : ch.nextId ∉ ch.pending := fun hk => by
    have := (w3 _ hk).2
    omega
  have hp : (rpc method params ch).1.pending = ch.pending ++ [ch.nextId] :=
    mapSet_fresh _ _ hfresh
  have ha : armedIds (rpc method params ch).1 = armedIds ch ++ [ch.nextId] := by
    simp [armedIds, rpc]
  have hsid : settledIds (rpc method params ch).1 = settledIds ch := rfl
  have hn : (rpc method params ch).1.nextId = ch.nextId + 1 := rfl
  refine ⟨?_, ?_, ?_, ?_⟩
  · rw [hsid]; exact s1
  · intro j hj
    rw [hp, List.mem_append, List.mem_singleton] at hj
    rw [hsid]
    rcases hj with hj | rfl
    · exact s2 j hj
    · intro hc
      have := s3 _ hc
      omega
  · intro j hj
    rw [hsid] at hj
    rw [hn]
    have := s3 j hj
    omega
  · intro j h1 h2
    rw [hn] at h2
    rw [hsid, hp, ha]
    by_cases hj : j = ch.nextId
    · right; subst hj; simp
    · rcases s4 j h1 (by omega) with h | ⟨h, h'⟩
      · left; exact h
      · right; exact ⟨List.mem_append_left _ h, List.mem_append_left _ h'⟩

theorem settledOnce_onTimeout (idNum : Nat) (ch : Channel) (hw : WellFormed ch)
    (hs : SettledOnce ch) : SettledOnce (onTimeout idNum ch) := by
  unfold onTimeout
  cases hl : ch.timers.lookup idNum with
  | none => exact hs
  | some method =>
    have harm : ∀ j, j ≠ idNum → j ∈ armedIds ch →
        j ∈ (ch.timers.filter fun t => t.1 ≠ idNum).map fun t => t.1 := by
      intro j hj ha
      simp only [armedIds, List.mem_map] at ha
      obtain ⟨t, ht, rfl⟩ := ha
      exact List.mem_map.mpr ⟨t, List.mem_filter.mpr ⟨ht, by simpa using hj⟩, rfl⟩
    simp only [timerCallback]
    by_cases hk : idNum ∈ ch.pending
    · simp only [hk, if_true]
      exact settledOnce_settle ch idNum _ _ hw hs hk harm
    · simp only [hk, if_false]
      obtain ⟨s1, s2, s3, s4⟩ := hs
      refine ⟨s1, s2, s3, ?_⟩
      intro j h1 h2
      rcases s4 j h1 h2 with h | ⟨hp, ha⟩
      · left; exact h
      · right
        exact ⟨hp, harm j (fun hc => hk (hc ▸ hp)) ha⟩

/-- Without an exit of the child, every state reached from a fresh channel is
settled once: no continuation is invoked twice, and every request that is no
longer pending, or whose timer has fired, has been settled. -/
theorem settledOnce_chanRun (parse : JSString → Option Parsed) (id : String)
    (events : List ChanEvent) :
    ∀ ch, WellFormed ch → SettledOnce ch → NoExit events →
      WellFormed (chanRun parse id ch events) ∧ SettledOnce (chanRun parse id ch events) := by
  induction events with
  | nil => intro ch hw hs _; exact ⟨hw, hs⟩
  | cons e events ih =>
    intro ch hw hs hno
    have hno' : NoExit events := fun e' he' => hno e' (List.mem_cons_of_mem _ he')
    have hstep : WellFormed (chanStep parse id ch e) ∧ SettledOnce (chanStep parse id ch e) := by
      refine ⟨wellFormed_chanStep parse id ch e hw, ?_⟩
      cases e with
      | send method params => exact settledOnce_rpc method params ch hw hs
      | data chunk =>
        have := decodeLines_invariant (handleLine parse)
          (fun s => WellFormed s ∧ SettledOnce s)
          (fun line s h => settledOnce_handleLine parse line s h)
          (ch.buf ++ chunk).length (ch.buf ++ chunk) ch ⟨hw, hs⟩
        exact this.2
      | timeout idNum => exact settledOnce_onTimeout idNum ch hw hs
      | exit code => exact absurd rfl (hno _ (List.mem_cons_self _ _) code)
    exact ih _ hstep.1 hstep.2 hno'

theorem settledOnce_fresh : SettledOnce freshChannel := by
  refine ⟨List.nodup_nil, ?_, ?_, ?_⟩
  · intro k hk; simp [freshChannel] at hk
  · intro k hk; simp [settledIds, freshChannel] at hk
  · intro k h1 h2
    have : freshChannel.nextId = 1 := rfl
    omega

/-- C12, at a failing input: a request is sent, the child exits, and the
15 s timer of the request fires. The exit handler rejects the request and
leaves its entry in the pending table, so the timer finds it and invokes
`reject` a second time. -/
theorem exit_then_timeout_rejects_twice :
    (chanRun exampleParse "fs" freshChannel
        [ChanEvent.send "tools/list" none, ChanEvent.exit (some 1)]).pending = [1] ∧
      (chanRun exampleParse "fs" freshChannel
        [ChanEvent.send "tools/list" none, ChanEvent.exit (some 1), ChanEvent.timeout 1]).settled =
        [(1, Settlement.rejected (lit "Proceso MCP 'fs' salió con código 1")),
          (1, Settlement.rejected (lit "RPC timeout: tools/list"))] := by
  decide

/-! ## The supervisor -/

theorem modifyProc_getElem? (b : Bridge) (h : Nat) (f : McpProc → McpProc) (h' : Nat) :
    (modifyProc b h f).procs[h']? = if h = h' then (b.procs[h']?).map f else b.procs[h']? := by
  unfold modifyProc
  cases hp : b.procs[h]? with
  | none =>
    by_cases he : h = h'
    · subst he; simp [hp]
    · simp [he]
  | some p =>
    simp only
    by_cases he : h = h'
    · subst he
      have hlt : h < b.procs.length := by
        rcases Nat.lt_or_ge h b.procs.length with hl | hl
        · exact hl
        · rw [List.getElem?_eq_none hl] at hp; exact absurd hp (by simp)
      simp [hp, List.getElem?_set_self hlt]
    · simp [he, List.getElem?_set_ne he]

theorem modifyProc_mcpProcs (b : Bridge) (h : Nat) (f : McpProc → McpProc) :
    (modifyProc b h f).mcpProcs = b.mcpProcs := by
  unfold modifyProc
  cases b.procs[h]? <;> rfl

theorem modifyProc_mcpStates (b : Bridge) (h : Nat) (f : McpProc → McpProc) :
    (modifyProc b h f).mcpStates = b.mcpStates ∧ (modifyProc b h f).statusLog = b.statusLog ∧
      (modifyProc b h f).serversConfig = b.serversConfig := by
  unfold modifyProc
  cases b.procs[h]? <;> exact ⟨rfl, rfl, rfl⟩

theorem modifyProc_length (b : Bridge) (h : Nat) (f : McpProc → McpProc) :
    (modifyProc b h f).procs.length = b.procs.length := by
  unfold modifyProc
  cases b.procs[h]? <;> simp

theorem registered_modifyProc (b : Bridge) (h : Nat) (f : McpProc → McpProc)
    (hf : KeepsIdentity f) (hr : Registered b) : Registered (modifyProc b h f) := by
  intro h' p hp hex
  rw [modifyProc_getElem?] at hp
  rw [modifyProc_mcpProcs]
  by_cases he : h = h'
  · rw [if_pos he] at hp
    cases hq : b.procs[h']? with
    | none => rw [hq] at hp; simp at hp
    | some q =>
      rw [hq] at hp
      simp only [Option.map_some', Option.some.injEq] at hp
      subst hp
      rw [(hf q).1]
      exact hr h' q hq (by rw [← (hf q).2]; exact hex)
  · rw [if_neg he] at hp
    exact hr h' p hp hex

theorem registered_setStatus (b : Bridge) (id : String) (s : Status) (hr : Registered b) :
    Registered (setStatus b id s) := hr

theorem registered_ensureServerState (b : Bridge) (id : String) (hr : Registered b) :
    Registered (ensureServerState b id) := by
  unfold ensureServerState
  cases b.mcpStates id <;> exact hr

theorem registered_resumeInit (b : Bridge) (h : Nat) (hr : Registered b) :
    Registered (resumeInit b h) := by
  unfold resumeInit
  cases b.procs[h]? with
  | none => exact hr
  | some p =>
    simp only
    cases p.handshake with
    | awaiting k =>
      simp only
      cases firstSettlement p.chan k with
      | none => exact hr
      | some o =>
        cases o with
        | resolved v => exact registered_modifyProc b h _ (fun q => ⟨rfl, rfl⟩) hr
        | resolvedMessage m => exact registered_modifyProc b h _ (fun q => ⟨rfl, rfl⟩) hr
        | rejected m =>
          exact registered_setStatus _ _ _ (registered_modifyProc b h _ (fun q => ⟨rfl, rfl⟩) hr)
        | rejectedValue v =>
          exact registered_setStatus _ _ _ (registered_modifyProc b h _ (fun q => ⟨rfl, rfl⟩) hr)
    | idle => exact hr
    | settling => exact hr
    | done => exact hr
    | failed => exact hr

theorem registered_settleElapsed (b : Bridge) (h : Nat) (hr : Registered b) :
    Registered (settleElapsed b h) := by
  unfold settleElapsed
  cases b.procs[h]? with
  | none => exact hr
  | some p =>
    simp only
    cases p.handshake with
    | settling =>
      exact registered_modifyProc _ h _ (fun q => ⟨rfl, rfl⟩) (registered_setStatus b _ _ hr)
    | idle => exact hr
    | awaiting k => exact hr
    | done => exact hr
    | failed => exact hr

theorem registered_exitHandler (b : Bridge) (h : Nat) (code : Option Nat) (p : McpProc)
    (hp : b.procs[h]? = some p) (hlive : p.exited = false) (hr : Registered b) :
    Registered (exitHandler b h code) := by
  unfold exitHandler
  rw [hp]
  intro h' q hq hex
  simp only at hq ⊢
  have hq' : (modifyProc (setStatus b p.id Status.stopped) h
      fun q => { q with chan := rejectAll q.id code q.chan, exited := true }).procs[h']? =
      some q := hq
  rw [modifyProc_getElem?] at hq'
  by_cases he : h = h'
  · subst he
    rw [if_pos rfl] at hq'
    have hp' : (setStatus b p.id Status.stopped).procs[h]? = some p := hp
    rw [hp'] at hq'
    simp only [Option.map_some', Option.some.injEq] at hq'
    subst hq'
    exact absurd hex (by simp)
  · rw [if_neg he] at hq'
    have hq'' : b.procs[h']? = some q := hq'
    have hreg := hr h' q hq'' hex
    have hne : q.id ≠ p.id := by
      intro hid
      have := hr h p hp hlive
      rw [← hid, hreg] at this
      exact he (Option.some.inj this).symm
    rw [Function.update_noteq hne, modifyProc_mcpProcs]
    exact hreg

theorem findConfig_ensureServerState (b : Bridge) (id id' : String) :
    findConfig (ensureServerState b id) id' = findConfig b id' := by
  unfold ensureServerState
  cases b.mcpStates id <;> rfl

theorem ensureServerState_procs (b : Bridge) (id : String) :
    (ensureServerState b id).procs = b.procs ∧ (ensureServerState b id).mcpProcs = b.mcpProcs := by
  unfold ensureServerState
  cases b.mcpStates id <;> exact ⟨rfl, rfl⟩

theorem spawnMcp_noConfig (b : Bridge) (id : String) (hc : findConfig b id = none) :
    spawnMcp b id = (ensureServerState b id, Except.error (SpawnError.noConfig id)) := by
  unfold spawnMcp
  rw [hc]

theorem spawnMcp_unsupported (b : Bridge) (id : String) (c : ServerConfig)
    (hc : findConfig b id = some c) (ht : c.transport ≠ some "stdio") :
    spawnMcp b id = (ensureServerState b id, Except.error (SpawnError.unsupportedTransport id)) := by
  unfold spawnMcp
  rw [hc]
  simp only [ht, ne_eq, not_false_eq_true, if_true]

theorem spawnMcp_registered (b : Bridge) (id : String) (c : ServerConfig) (h : Nat)
    (hc : findConfig b id = some c) (ht : c.transport = some "stdio")
    (hm : b.mcpProcs id = some h) :
    spawnMcp b id = (ensureServerState b id, Except.ok { handle := h, hasInit := false }) := by
  have hm' : (ensureServerState b id).mcpProcs id = some h := by
    rw [(ensureServerState_procs b id).2]; exact hm
  unfold spawnMcp
  rw [hc]
  simp only [ht, ne_eq, not_true_eq_false, if_false, hm']

theorem spawnMcp_fresh (b : Bridge) (id : String) (c : ServerConfig)
    (hc : findConfig b id = some c) (ht : c.transport = some "stdio")
    (hm : b.mcpProcs id = none) :
    spawnMcp b id =
      (setStatus
        { ensureServerState b id with
            procs := (ensureServerState b id).procs ++
              [{ id := id, chan := freshChannel, exited := false, handshake := Handshake.idle,
                 waiting := none }],
            mcpProcs := Function.update (ensureServerState b id).mcpProcs id
              (some (ensureServerState b id).procs.length) }
        id Status.starting,
        Except.ok { handle := (ensureServerState b id).procs.length, hasInit := true }) := by
  have hm' : (ensureServerState b id).mcpProcs id = none := by
    rw [(ensureServerState_procs b id).2]; exact hm
  unfold spawnMcp
  rw [hc]
  simp only [ht, ne_eq, not_true_eq_false, if_false, hm']

/-- What `spawnMcp` returns and what it leaves in `procs` and `mcpProcs`. -/
theorem spawnMcp_cases (b : Bridge) (id : String) :
    (findConfig b id = none ∧ (spawnMcp b id).2 = Except.error (SpawnError.noConfig id) ∧
        (spawnMcp b id).1.procs = b.procs ∧ (spawnMcp b id).1.mcpProcs = b.mcpProcs) ∨
      (∃ c, findConfig b id = some c ∧ c.transport ≠ some "stdio" ∧
        (spawnMcp b id).2 = Except.error (SpawnError.unsupportedTransport id) ∧
        (spawnMcp b id).1.procs = b.procs ∧ (spawnMcp b id).1.mcpProcs = b.mcpProcs) ∨
      (∃ c h, findConfig b id = some c ∧ c.transport = some "stdio" ∧ b.mcpProcs id = some h ∧
        (spawnMcp b id).2 = Except.ok { handle := h, hasInit := false } ∧
        (spawnMcp b id).1.procs = b.procs ∧ (spawnMcp b id).1.mcpProcs = b.mcpProcs) ∨
      (∃ c, findConfig b id = some c ∧ c.transport = some "stdio" ∧ b.mcpProcs id = none ∧
        (spawnMcp b id).2 = Except.ok { handle := b.procs.length, hasInit := true } ∧
        (spawnMcp b id).1.procs = b.procs ++
          [{ id := id, chan := freshChannel, exited := false, handshake := Handshake.idle,
             waiting := none }] ∧
        (spawnMcp b id).1.mcpProcs = Function.update b.mcpProcs id (some b.procs.length)) := by
  obtain ⟨e1, e2⟩ := ensureServerState_procs b id
  rcases hc : findConfig b id with _ | c
  · left
    rw [spawnMcp_noConfig b id hc]
    exact ⟨rfl, rfl, e1, e2⟩
  · right
    by_cases ht : c.transport = some "stdio"
    · right
      rcases hm : b.mcpProcs id with _ | h
      · right
        rw [spawnMcp_fresh b id c hc ht hm]
        refine ⟨c, rfl, ht, rfl, ?_, ?_, ?_⟩
        · show Except.ok _ = Except.ok _
          rw [e1]
        · show (ensureServerState b id).procs ++ _ = _
          rw [e1]
        · show Function.update (ensureServerState b id).mcpProcs id _ = _
          rw [e2, e1]
      · left
        rw [spawnMcp_registered b id c h hc ht hm]
        exact ⟨c, h, rfl, ht, rfl, rfl, e1, e2⟩
    · left
      rw [spawnMcp_unsupported b id c hc ht]
      exact ⟨c, rfl, ht, rfl, e1, e2⟩

theorem registered_spawnMcp (b : Bridge) (id : String) (hr : Registered b) :
    Registered (spawnMcp b id).1 := by
  rcases spawnMcp_cases b id with ⟨_, _, h1, h2⟩ | ⟨c, _, _, _, h1, h2⟩ |
    ⟨c, h, _, _, _, _, h1, h2⟩ | ⟨c, _, _, hnone, _, h1, h2⟩
  · intro h' p hp hex; rw [h1] at hp; rw [h2]; exact hr h' p hp hex
  · intro h' p hp hex; rw [h1] at hp; rw [h2]; exact hr h' p hp hex
  · intro h' p hp hex; rw [h1] at hp; rw [h2]; exact hr h' p hp hex
  · intro h' p hp hex
    rw [h1] at hp
    rw [h2]
    rcases Nat.lt_or_ge h' b.procs.length with hlt | hge
    · rw [List.getElem?_append_left hlt] at hp
      have hreg := hr h' p hp hex
      have hne : p.id ≠ id := by
        intro hid
        rw [hid, hnone] at hreg
        exact absurd hreg (by simp)
      rw [Function.update_noteq hne]
      exact hreg
    · rw [List.getElem?_append_right hge] at hp
      have h0 : h' - b.procs.length = 0 := by
        rcases Nat.eq_zero_or_pos (h' - b.procs.length) with h0 | h0
        · exact h0
        · rw [List.getElem?_eq_none (by simp only [List.length_singleton]; omega)] at hp
          exact absurd hp (by simp)
      rw [h0] at hp
      simp only [List.getElem?_cons_zero, Option.some.injEq] at hp
      subst hp
      have : h' = b.procs.length := by omega
      subst this
      simp

theorem registered_callBackend (b : Bridge) (id : String) (method : String)
    (params : Option JSString) (hr : Registered b) :
    Registered (callBackend b id method params) := by
  unfold callBackend
  cases b.mcpProcs id with
  | some h => exact registered_modifyProc b h _ (fun q => ⟨rfl, rfl⟩) hr
  | none =>
    simp only
    have hs := registered_spawnMcp b id hr
    cases hres : (spawnMcp b id) with
    | mk b1 res =>
      rw [hres] at hs
      cases res with
      | error e => exact hs
      | ok ref =>
        simp only
        split_ifs
        · exact registered_modifyProc b1 _ _ (fun q => ⟨rfl, rfl⟩) hs
        · exact registered_modifyProc b1 _ _ (fun q => ⟨rfl, rfl⟩) hs

theorem registered_step (parse : JSString → Option Parsed) (b : Bridge) (e : Event)
    (hr : Registered b) : Registered (step parse b e) := by
  cases e with
  | call id method params => exact registered_callBackend b id method params hr
  | stdout h chunk =>
    exact registered_resumeInit _ h (registered_modifyProc b h _ (fun q => ⟨rfl, rfl⟩) hr)
  | timeout h idNum =>
    exact registered_resumeInit _ h (registered_modifyProc b h _ (fun q => ⟨rfl, rfl⟩) hr)
  | exit h code =>
    simp only [step]
    cases hp : b.procs[h]? with
    | none => exact hr
    | some p =>
      simp only
      by_cases hex : p.exited = true
      · simp only [hex, if_true]; exact hr
      · simp only [hex]
        exact registered_resumeInit _ h
          (registered_exitHandler b h code p hp (by simpa using hex) hr)
  | sleepDone h => exact registered_settleElapsed b h hr

theorem registered_run (parse : JSString → Option Parsed) (events : List Event) :
    ∀ b, Registered b → Registered (run parse b events) := by
  induction events with
  | nil => intro b hr; exact hr
  | cons e events ih => intro b hr; exact ih _ (registered_step parse b e hr)

theorem registered_start (config : List ServerConfig) : Registered (Bridge.start config) := by
  intro h p hp _
  simp [Bridge.start] at hp

theorem length_le_one_of_all_eq {α : Type} (l : List α) (hn : l.Nodup)
    (h : ∀ a, a ∈ l → ∀ b, b ∈ l → a = b) : l.length ≤ 1 := by
  match l, hn, h with
  | [], _, _ => simp
  | [_], _, _ => simp
  | a :: b :: rest, hn, h =>
    have hab : a = b := h a (by simp) b (by simp)
    subst hab
    simp at hn

/-- With the registration invariant, a backend has at most one object whose
child has not exited. -/
theorem liveHandles_le_one (b : Bridge) (id : String) (hr : Registered b) :
    (liveHandles b id).length ≤ 1 := by
  apply length_le_one_of_all_eq
  · exact (List.nodup_range _).filter _
  · have key : ∀ a, a ∈ liveHandles b id → b.mcpProcs id = some a := by
      intro a ha
      unfold liveHandles at ha
      have h2 := (List.mem_filter.mp ha).2
      cases hp : b.procs[a]? with
      | none => rw [hp] at h2; simp at h2
      | some p =>
        rw [hp] at h2
        simp only [Bool.and_eq_true, decide_eq_true_eq, Bool.not_eq_true'] at h2
        have := hr a p hp h2.2
        rw [h2.1] at this
        exact this
    intro a ha c hc
    have h1 := key a ha
    rw [key c hc] at h1
    exact (Option.some.inj h1).symm

/-- A spawn for a backend that is configured for stdio and not registered
appends a fresh object and registers it. -/
theorem spawnMcp_fresh_effect (b : Bridge) (id : String) (c : ServerConfig)
    (hc : findConfig b id = some c) (ht : c.transport = some "stdio")
    (hm : b.mcpProcs id = none) :
    (spawnMcp b id).2 = Except.ok { handle := b.procs.length, hasInit := true } ∧
      (spawnMcp b id).1.procs = b.procs ++
        [{ id := id, chan := freshChannel, exited := false, handshake := Handshake.idle,
           waiting := none }] ∧
      (spawnMcp b id).1.mcpProcs = Function.update b.mcpProcs id (some b.procs.length) := by
  obtain ⟨e1, e2⟩ := ensureServerState_procs b id
  rw [spawnMcp_fresh b id c hc ht hm]
  refine ⟨?_, ?_, ?_⟩
  · show Except.ok _ = Except.ok _
    rw [e1]
  · show (ensureServerState b id).procs ++ _ = _
    rw [e1]
  · show Function.update (ensureServerState b id).mcpProcs id _ = _
    rw [e2, e1]

/-- C18: `spawnMcp(id)` throws exactly when the configuration has no
descriptor for `id` (configuration error) or the transport of the descriptor
is not `stdio` (unsupported transport). Otherwise it returns the object
already registered for `id` when there is one, leaving the table as it is,
and creates and registers a new one only when there is none. Over every
sequence of supervisor events a backend has at most one object whose child
has not exited. -/
theorem spawnMcp_one_process_per_backend (parse : JSString → Option Parsed)
    (config : List ServerConfig) (events : List Event) (b : Bridge) (id : String) :
    ((spawnMcp b id).2 = Except.error (SpawnError.noConfig id) ↔ findConfig b id = none) ∧
      ((spawnMcp b id).2 = Except.error (SpawnError.unsupportedTransport id) ↔
        ∃ c, findConfig b id = some c ∧ c.transport ≠ some "stdio") ∧
      (∀ c, findConfig b id = some c → c.transport = some "stdio" →
        (∀ h, b.mcpProcs id = some h →
          (spawnMcp b id).2 = Except.ok { handle := h, hasInit := false } ∧
          (spawnMcp b id).1.procs = b.procs ∧ (spawnMcp b id).1.mcpProcs = b.mcpProcs) ∧
        (b.mcpProcs id = none →
          (spawnMcp b id).2 = Except.ok { handle := b.procs.length, hasInit := true } ∧
          (spawnMcp b id).1.procs = b.procs ++
            [{ id := id, chan := freshChannel, exited := false, handshake := Handshake.idle,
               waiting := none }] ∧
          (spawnMcp b id).1.mcpProcs = Function.update b.mcpProcs id (some b.procs.length))) ∧
      (liveHandles (run parse (Bridge.start config) events) id).length ≤ 1 := by
  refine ⟨?_, ?_, ?_, ?_⟩
  · rcases spawnMcp_cases b id with ⟨h0, h1, _⟩ | ⟨c, h0, _, h1, _⟩ | ⟨c, h, h0, _, _, h1, _⟩ |
      ⟨c, h0, _, _, h1, _⟩
    · exact ⟨fun _ => h0, fun _ => h1⟩
    · rw [h1, h0]; simp
    · rw [h1, h0]; simp
    · rw [h1, h0]; simp
  · rcases spawnMcp_cases b id with ⟨h0, h1, _⟩ | ⟨c, h0, ht, h1, _⟩ | ⟨c, h, h0, ht, _, h1, _⟩ |
      ⟨c, h0, ht, _, h1, _⟩
    · rw [h1, h0]; simp
    · exact ⟨fun _ => ⟨c, h0, ht⟩, fun _ => h1⟩
    · rw [h1, h0]
      simp only [reduceCtorEq, Option.some.injEq, ne_eq, exists_eq_left', false_iff, not_not]
      exact ht
    · rw [h1, h0]
      simp only [reduceCtorEq, Option.some.injEq, ne_eq, exists_eq_left', false_iff, not_not]
      exact ht
  · intro c hc ht
    constructor
    · intro h hm
      rw [spawnMcp_registered b id c h hc ht hm]
      exact ⟨rfl, (ensureServerState_procs b id).1, (ensureServerState_procs b id).2⟩
    · intro hm
      exact spawnMcp_fresh_effect b id c hc ht hm
  · exact liveHandles_le_one _ id (registered_run parse events _ (registered_start config))

/-- C17: when the child of an object of backend `id` exits with code `c`,
the exit handler sets the status of the backend to `stopped`, rejects every
request pending on that channel with the error `Proceso MCP '<id>' salió con
código <c>` and removes the backend from `mcpProcs`; the next `spawnMcp(id)`
then creates and registers a new object, with `nextId = 1` and an empty
pending table. -/
theorem exit_stops_rejects_and_unregisters (b : Bridge) (h : Nat) (p : McpProc)
    (code : Option Nat) (cfg : ServerConfig) (st : ServerState)
    (hp : b.procs[h]? = some p) (hst : b.mcpStates p.id = some st)
    (hcfg : findConfig b p.id = some cfg) (htr : cfg.transport = some "stdio") :
    statusOf (exitHandler b h code) p.id = some Status.stopped ∧
      (∃ p', (exitHandler b h code).procs[h]? = some p' ∧ p'.exited = true ∧
        p'.chan.settled = p.chan.settled ++ p.chan.pending.map fun k =>
          (k, Settlement.rejected
            (lit "Proceso MCP '" ++ lit p.id ++ lit "' salió con código " ++
              lit (codeText code)))) ∧
      (exitHandler b h code).mcpProcs p.id = none ∧
      (spawnMcp (exitHandler b h code) p.id).2 =
        Except.ok { handle := (exitHandler b h code).procs.length, hasInit := true } ∧
      (spawnMcp (exitHandler b h code) p.id).1.procs[(exitHandler b h code).procs.length]? =
        some { id := p.id, chan := freshChannel, exited := false, handshake := Handshake.idle,
               waiting := none } ∧
      (spawnMcp (exitHandler b h code) p.id).1.mcpProcs p.id =
        some (exitHandler b h code).procs.length ∧
      freshChannel.nextId = 1 ∧ freshChannel.pending = [] := by
  have hex : exitHandler b h code =
      { modifyProc (setStatus b p.id Status.stopped) h
          (fun q => { q with chan := rejectAll q.id code q.chan, exited := true }) with
        mcpProcs := Function.update
          (modifyProc (setStatus b p.id Status.stopped) h
            (fun q => { q with chan := rejectAll q.id code q.chan, exited := true })).mcpProcs
          p.id none } := by
    unfold exitHandler
    rw [hp]
  have hnone : (exitHandler b h code).mcpProcs p.id = none := by
    rw [hex]
    exact Function.update_same _ _ _
  have hcfg' : findConfig (exitHandler b h code) p.id = some cfg := by
    rw [hex]
    have := (modifyProc_mcpStates (setStatus b p.id Status.stopped) h
      (fun q => { q with chan := rejectAll q.id code q.chan, exited := true })).2.2
    show List.find? _ (modifyProc (setStatus b p.id Status.stopped) h _).serversConfig = _
    rw [this]
    exact hcfg
  obtain ⟨f1, f2, f3⟩ := spawnMcp_fresh_effect (exitHandler b h code) p.id cfg hcfg' htr hnone
  refine ⟨?_, ?_, hnone, f1, ?_, ?_, rfl, rfl⟩
  · rw [hex]
    have := (modifyProc_mcpStates (setStatus b p.id Status.stopped) h
      (fun q => { q with chan := rejectAll q.id code q.chan, exited := true })).1
    show Option.map _ ((modifyProc (setStatus b p.id Status.stopped) h _).mcpStates p.id) = _
    rw [this]
    show Option.map _ (Function.update b.mcpStates p.id _ p.id) = _
    rw [Function.update_same, hst]
    rfl
  · refine ⟨{ p with chan := rejectAll p.id code p.chan, exited := true }, ?_, rfl, rfl⟩
    rw [hex]
    show (modifyProc (setStatus b p.id Status.stopped) h _).procs[h]? = _
    rw [modifyProc_getElem?, if_pos rfl]
    show Option.map _ b.procs[h]? = _
    rw [hp]
    rfl
  · rw [f2]
    exact List.getElem?_concat_length _ _
  · rw [f3]
    exact Function.update_same _ _ _

/-- C17, witness: backend `fs` has been spawned and its `initialize` request
is pending when the child exits with code 1. The status becomes `stopped`,
request 1 is rejected with the message that carries the code, the backend is
unregistered and the next `spawnMcp` creates object 1. -/
theorem exit_stops_rejects_and_unregisters_witness :
    statusOf (exitHandler
        (run exampleParse (Bridge.start [fsConfig])
          [Event.call "fs" "tools/list" (some (lit "\x7b\x7d"))]) 0 (some 1)) "fs" =
        some Status.stopped ∧
      (exitHandler
        (run exampleParse (Bridge.start [fsConfig])
          [Event.call "fs" "tools/list" (some (lit "\x7b\x7d"))]) 0 (some 1)).mcpProcs "fs" =
        none ∧
      (spawnMcp (exitHandler
        (run exampleParse (Bridge.start [fsConfig])
          [Event.call "fs" "tools/list" (some (lit "\x7b\x7d"))]) 0 (some 1)) "fs").2 =
        Except.ok { handle := 1, hasInit := true } ∧
      ((exitHandler
        (run exampleParse (Bridge.start [fsConfig])
          [Event.call "fs" "tools/list" (some (lit "\x7b\x7d"))]) 0 (some 1)).procs.map fun q =>
          q.chan.settled) =
        [[(1, Settlement.rejected (lit "Proceso MCP 'fs' salió con código 1"))]] := by
  obtain ⟨h1, _, h3, h4, _⟩ := exit_stops_rejects_and_unregisters
    (run exampleParse (Bridge.start [fsConfig])
      [Event.call "fs" "tools/list" (some (lit "\x7b\x7d"))]) 0
    { id := "fs", chan := (rpc "initialize" (some initializeParams) freshChannel).1,
      exited := false, handshake := Handshake.awaiting 1,
      waiting := some ("tools/list", some (lit "\x7b\x7d")) }
    (some 1) fsConfig
    { id := "fs", label := "Filesystem (MCP, stdio)", transport := "stdio",
      status := Status.starting }
    (by decide) (by decide) (by decide) (by decide)
  exact ⟨h1, h3, h4.trans rfl, by decide⟩

/-- C19, at a failing input: the child of backend `fs` exits during the
800 ms sleep of `init`. The exit handler sets the status to `stopped` and
removes the object from `mcpProcs`; when the sleep ends, `init` sets the
status to `ready`: the status goes from `stopped` to `ready` without
`starting`, for a child that has exited. When the child exits while `init`
awaits the reply to `initialize`, the status goes from `stopped` to `error`. -/
theorem exit_during_handshake_skips_starting :
    statusTrace (run exampleParse (Bridge.start [fsConfig])
        [Event.call "fs" "tools/list" (some (lit "\x7b\x7d")),
          Event.stdout 0 (replyOne ++ lit "\n"), Event.exit 0 (some 1), Event.sleepDone 0])
        "fs" = [Status.stopped, Status.starting, Status.stopped, Status.ready] ∧
      (run exampleParse (Bridge.start [fsConfig])
        [Event.call "fs" "tools/list" (some (lit "\x7b\x7d")),
          Event.stdout 0 (replyOne ++ lit "\n"), Event.exit 0 (some 1), Event.sleepDone 0]).mcpProcs
        "fs" = none ∧
      statusTrace (run exampleParse (Bridge.start [fsConfig])
        [Event.call "fs" "tools/list" (some (lit "\x7b\x7d")), Event.exit 0 (some 1)])
        "fs" = [Status.stopped, Status.starting, Status.stopped, Status.error] := by
  decide

/-- C20, at a failing input: `getTools('fs')` is called twice in a row. The
first call spawns the child and starts the handshake; the second call finds
the object in `mcpProcs`, where it has no `init`, and writes its `tools/list`
request at once, with the handshake still awaiting its reply and the object
not ready. After a handshake that failed (its request timed out, status
`error`), a later call writes its request without any new handshake. -/
theorem second_caller_skips_handshake :
    ((run exampleParse (Bridge.start [fsConfig])
        [Event.call "fs" "tools/list" (some (lit "\x7b\x7d")),
          Event.call "fs" "tools/list" (some (lit "\x7b\x7d"))]).procs.map fun p =>
        (p.chan.written, p.chan.ready, p.handshake)) =
      [([WireLine.request 1 "initialize" initializeParams,
          WireLine.request 2 "tools/list" (lit "\x7b\x7d")], false, Handshake.awaiting 1)] ∧
      statusOf (run exampleParse (Bridge.start [fsConfig])
        [Event.call "fs" "tools/list" (some (lit "\x7b\x7d")),
          Event.call "fs" "tools/list" (some (lit "\x7b\x7d"))]) "fs" = some Status.starting ∧
      ((run exampleParse (Bridge.start [fsConfig])
        [Event.call "fs" "tools/list" (some (lit "\x7b\x7d")), Event.timeout 0 1,
          Event.call "fs" "tools/list" (some (lit "\x7b\x7d"))]).procs.map fun p =>
        (p.chan.written, p.chan.ready, p.handshake)) =
      [([WireLine.request 1 "initialize" initializeParams,
          WireLine.request 2 "tools/list" (lit "\x7b\x7d")], false, Handshake.failed)] ∧
      statusOf (run exampleParse (Bridge.start [fsConfig])
        [Event.call "fs" "tools/list" (some (lit "\x7b\x7d")), Event.timeout 0 1,
          Event.call "fs" "tools/list" (some (lit "\x7b\x7d"))]) "fs" = some Status.error := by
  decide

/-- A first call for a backend that was never spawned performs the handshake
and sends its own request only when `init` has returned: after the call only
`initialize` is written, and the request follows the reply and the sleep. -/
theorem first_caller_waits_for_handshake :
    ((run exampleParse (Bridge.start [fsConfig])
        [Event.call "fs" "tools/list" (some (lit "\x7b\x7d"))]).procs.map fun p =>
        (p.chan.written, p.chan.ready)) =
      [([WireLine.request 1 "initialize" initializeParams], false)] ∧
      ((run exampleParse (Bridge.start [fsConfig])
        [Event.call "fs" "tools/list" (some (lit "\x7b\x7d")),
          Event.stdout 0 (replyOne ++ lit "\n"), Event.sleepDone 0]).procs.map fun p =>
        (p.chan.written, p.chan.ready)) =
      [([WireLine.request 1 "initialize" initializeParams,
          WireLine.notification "initialized" (lit "\x7b\x7d"),
          WireLine.notification "notifications/initialized" (lit "\x7b\x7d"),
          WireLine.request 2 "tools/list" (lit "\x7b\x7d")], true)] := by
  decide

/-! ## Retry with back-off and capability listing -/

theorem nextDelay_iterate (k : Nat) : nextDelay^[k] 250 = specDelay k := by
  induction k with
  | zero => simp [specDelay]
  | succ k ih =>
    rw [Function.iterate_succ_apply', ih]
    unfold nextDelay specDelay
    rw [pow_succ]
    omega

theorem retryLoop_continue (respond : Nat → Call → Attempt) (base : Nat) (c : Call) (tries : Nat)
    (fuel attempt delay : Nat) (calls : List Call) (sleeps : List Nat)
    (ht : failsTransiently (respond (base + calls.length) c) = true)
    (ha : attempt + 1 < tries) :
    retryLoop respond base c tries (fuel + 1) attempt delay calls sleeps =
      retryLoop respond base c tries fuel (attempt + 1) (nextDelay delay) (calls ++ [c])
        (sleeps ++ [delay]) := by
  rw [retryLoop]
  cases hr : respond (base + calls.length) c with
  | returned v => rw [hr] at ht; simp [failsTransiently] at ht
  | threw e =>
    rw [hr] at ht
    simp only [failsTransiently] at ht
    have hlt : ¬ ((attempt : Int) ≥ (tries : Int) - 1) := by omega
    simp [ht, hlt, nextDelay]

theorem retryLoop_stop (respond : Nat → Call → Attempt) (base : Nat) (c : Call) (tries : Nat)
    (fuel attempt delay : Nat) (calls : List Call) (sleeps : List Nat)
    (h : failsTransiently (respond (base + calls.length) c) = false ∨ tries ≤ attempt + 1) :
    retryLoop respond base c tries (fuel + 1) attempt delay calls sleeps =
      { outcome := some (respond (base + calls.length) c), calls := calls ++ [c],
        sleeps := sleeps } := by
  rw [retryLoop]
  cases hr : respond (base + calls.length) c with
  | returned v => rfl
  | threw e =>
    rw [hr] at h
    simp only [failsTransiently] at h
    have : (!(isTransient e) || decide ((attempt : Int) ≥ (tries : Int) - 1)) = true := by
      rcases h with h | h
      · simp [h]
      · have : (attempt : Int) ≥ (tries : Int) - 1 := by omega
        simp [this]
    simp only [this, if_true]

theorem retryLoop_run (respond : Nat → Call → Attempt) (base : Nat) (c : Call) (tries : Nat) :
    ∀ (k fuel attempt delay : Nat) (calls : List Call) (sleeps : List Nat),
      (∀ j, j < k → failsTransiently (respond (base + calls.length + j) c) = true) →
      attempt + k < tries →
      retryLoop respond base c tries (fuel + k) attempt delay calls sleeps =
        retryLoop respond base c tries fuel (attempt + k) (nextDelay^[k] delay)
          (calls ++ List.replicate k c)
          (sleeps ++ (List.range k).map fun j => nextDelay^[j] delay) := by
  intro k
  induction k with
  | zero => intro fuel attempt delay calls sleeps _ _; simp
  | succ k ih =>
    intro fuel attempt delay calls sleeps ht ha
    rw [show fuel + (k + 1) = (fuel + k) + 1 by omega,
      retryLoop_continue respond base c tries (fuel + k) attempt delay calls sleeps
        (by simpa using ht 0 (by omega)) (by omega),
      ih fuel (attempt + 1) (nextDelay delay) (calls ++ [c]) (sleeps ++ [delay])
        (by
          intro j hj
          have := ht (j + 1) (by omega)
          rw [List.length_append, List.length_singleton]
          rwa [show base + (calls.length + 1) + j = base + calls.length + (j + 1) by omega])
        (by omega)]
    congr 1
    · omega
    · rw [List.append_assoc]; rfl
    · rw [List.append_assoc, List.range_succ_eq_map]
      simp [Function.comp_def]

theorem specDelay_mono {j k : Nat} (h : j ≤ k) : specDelay j ≤ specDelay k := by
  unfold specDelay
  have : 2 ^ j ≤ 2 ^ k := Nat.pow_le_pow_right (by decide) h
  omega

theorem specDelay_pairwise (n : Nat) :
    List.Pairwise (fun a b => a ≤ b) ((List.range n).map specDelay) := by
  rw [List.pairwise_map]
  exact (List.pairwise_lt_range n).imp fun h => specDelay_mono (Nat.le_of_lt h)

/-- The sleeps of a run are the waits of the spec, in order. -/
theorem retryLoop_sleeps (respond : Nat → Call → Attempt) (base : Nat) (c : Call) (tries : Nat) :
    ∀ (fuel attempt delay : Nat) (calls : List Call) (sleeps : List Nat),
      sleeps = (List.range attempt).map specDelay → delay = specDelay attempt →
      (retryLoop respond base c tries fuel attempt delay calls sleeps).sleeps =
        (List.range (retryLoop respond base c tries fuel attempt delay calls sleeps).sleeps.length).map
          specDelay := by
  intro fuel
  induction fuel with
  | zero =>
    intro attempt delay calls sleeps hs _
    simp only [retryLoop]
    rw [hs]; simp
  | succ fuel ih =>
    intro attempt delay calls sleeps hs hd
    rw [retryLoop]
    cases hr : respond (base + calls.length) c with
    | returned v => simp only []; rw [hs]; simp
    | threw e =>
      simp only []
      split
      · simp only []; rw [hs]; simp
      · apply ih
        · rw [List.range_succ, List.map_append, ← hs, hd]; rfl
        · rw [hd]
          unfold specDelay
          rw [pow_succ]
          omega

/-- The run of a pass whose first `k` attempts fail with a transient
signature and whose next attempt stops the loop. -/
theorem rpcWithInitRetry_run (respond : Nat → Call → Attempt) (base : Nat) (method : String)
    (params : Option JSString) (tries : Option Nat) (k : Nat)
    (hprev : ∀ j, j < k →
      failsTransiently (respond (base + j) ⟨method, params.getD (lit "\x7b\x7d")⟩) = true)
    (hstop : (k < tries.getD 6 ∧
        failsTransiently (respond (base + k) ⟨method, params.getD (lit "\x7b\x7d")⟩) = false) ∨
      k + 1 = max 1 (tries.getD 6)) :
    rpcWithInitRetry respond base method params tries =
      { outcome := some (respond (base + k) ⟨method, params.getD (lit "\x7b\x7d")⟩),
        calls := List.replicate (k + 1) ⟨method, params.getD (lit "\x7b\x7d")⟩,
        sleeps := (List.range k).map specDelay } := by
  unfold rpcWithInitRetry
  simp only []
  generalize tries.getD 6 = n at hstop
  generalize (⟨method, params.getD (lit "\x7b\x7d")⟩ : Call) = c at hprev hstop
  have hk : k < n + 1 ∧ (k = 0 ∨ k < n) := by
    rcases hstop with h | h
    · omega
    · rcases Nat.lt_or_ge n 1 with h0 | h0
      · rw [max_eq_left (by omega)] at h; omega
      · rw [max_eq_right h0] at h; omega
  obtain ⟨f, hf⟩ : ∃ f, n + 1 = (f + 1) + k := ⟨n - k, by omega⟩
  rcases Nat.eq_zero_or_pos k with h0 | hpos
  · subst h0
    rw [retryLoop_stop]
    · simp
    · rcases hstop with h | h
      · left; simpa using h.2
      · right
        rcases Nat.lt_or_ge n 1 with h0 | h0
        · omega
        · rw [max_eq_right h0] at h; omega
  · rw [hf, retryLoop_run respond base c n k (f + 1) 0 250 [] []
      (by intro j hj; simpa using hprev j hj) (by omega), retryLoop_stop]
    · simp only [List.nil_append, List.length_replicate, Nat.zero_add]
      congr 1
      · rw [← List.replicate_succ', ]
      · exact List.map_congr_left fun j _ => nextDelay_iterate j
    · simp only [List.nil_append, List.length_replicate]
      rcases hstop with h | h
      · left; exact h.2
      · right
        rcases Nat.lt_or_ge n 1 with h0 | h0
        · omega
        · rw [max_eq_right h0] at h; omega

/-- C21: for every `tries >= 1`, when each of the first `tries` attempts of a
call fails with a transient signature, `rpcWithInitRetry` invokes `p.rpc`
exactly `tries` times, each time with the same method and parameters, and
then leaves by throwing the error of the last attempt. -/
theorem rpcWithInitRetry_exhausts_tries (respond : Nat → Call → Attempt) (base : Nat)
    (method : String) (params : Option JSString) (tries : Nat) (h1 : 1 ≤ tries)
    (hall : ∀ k, k < tries →
      failsTransiently (respond (base + k) ⟨method, params.getD (lit "\x7b\x7d")⟩) = true) :
    (rpcWithInitRetry respond base method params (some tries)).calls =
        List.replicate tries ⟨method, params.getD (lit "\x7b\x7d")⟩ ∧
      (rpcWithInitRetry respond base method params (some tries)).outcome =
        some (respond (base + (tries - 1)) ⟨method, params.getD (lit "\x7b\x7d")⟩) ∧
      ∃ e, respond (base + (tries - 1)) ⟨method, params.getD (lit "\x7b\x7d")⟩ =
        Attempt.threw e := by
  rw [rpcWithInitRetry_run respond base method params (some tries) (tries - 1)
    (fun j hj => hall j (by omega))
    (Or.inr (by simp only [Option.getD_some]; rw [max_eq_right h1]; omega))]
  refine ⟨by simp only [Nat.sub_add_cancel h1], rfl, ?_⟩
  have := hall (tries - 1) (by omega)
  cases hr : respond (base + (tries - 1)) ⟨method, params.getD (lit "\x7b\x7d")⟩ with
  | returned v => rw [hr] at this; simp [failsTransiently] at this
  | threw e => exact ⟨e, rfl⟩

/-- C21, witness: three tries against a backend that is never ready. -/
theorem rpcWithInitRetry_exhausts_tries_witness :
    (rpcWithInitRetry alwaysNotReady 0 "tools/list" none (some 3)).calls =
        List.replicate 3 ⟨"tools/list", lit "\x7b\x7d"⟩ ∧
      (rpcWithInitRetry alwaysNotReady 0 "tools/list" none (some 3)).outcome =
        some (Attempt.threw (lit "Received request before initialization was complete")) :=
  have h := rpcWithInitRetry_exhausts_tries alwaysNotReady 0 "tools/list" none 3 (by decide)
    (fun _ _ => (by decide : failsTransiently
      (Attempt.threw (lit "Received request before initialization was complete")) = true))
  ⟨h.1, h.2.1⟩

/-- C22: the waits of a run of `rpcWithInitRetry` are `min(250 * 2^k, 1500)`
ms for `k = 0, 1, 2, ...` in order; they never decrease and never exceed
1500 ms; with the default of 6 tries, a call whose attempts all fail with a
transient signature waits 250, 500, 1000, 1500, 1500 ms, 4750 ms in all. -/
theorem rpcWithInitRetry_waits (respond : Nat → Call → Attempt) (base : Nat) (method : String)
    (params : Option JSString) (tries : Option Nat) :
    (rpcWithInitRetry respond base method params tries).sleeps =
        (List.range (rpcWithInitRetry respond base method params tries).sleeps.length).map
          (fun k => min (250 * 2 ^ k) 1500) ∧
      List.Pairwise (fun a b => a ≤ b) (rpcWithInitRetry respond base method params tries).sleeps ∧
      (∀ w ∈ (rpcWithInitRetry respond base method params tries).sleeps, w ≤ 1500) ∧
      (tries = none →
        (∀ k, k < 6 →
          failsTransiently (respond (base + k) ⟨method, params.getD (lit "\x7b\x7d")⟩) = true) →
        (rpcWithInitRetry respond base method params tries).sleeps =
            [250, 500, 1000, 1500, 1500] ∧
          (rpcWithInitRetry respond base method params tries).sleeps.sum = 4750) := by
  have hshape := retryLoop_sleeps respond base ⟨method, params.getD (lit "\x7b\x7d")⟩
    (tries.getD 6) (tries.getD 6 + 1) 0 250 [] [] rfl rfl
  have hs : (rpcWithInitRetry respond base method params tries).sleeps =
      (List.range (rpcWithInitRetry respond base method params tries).sleeps.length).map
        specDelay := hshape
  refine ⟨hs, ?_, ?_, ?_⟩
  · rw [hs]
    exact specDelay_pairwise _
  · intro w hw
    rw [hs] at hw
    obtain ⟨k, _, rfl⟩ := List.mem_map.1 hw
    exact Nat.min_le_right _ _
  · intro ht hall
    subst ht
    rw [rpcWithInitRetry_run respond base method params none 5 (fun j hj => hall j (by omega))
      (Or.inr (by decide))]
    show List.map specDelay (List.range 5) = [250, 500, 1000, 1500, 1500] ∧
      (List.map specDelay (List.range 5)).sum = 4750
    decide

/-- C22, witness: the default six tries against a backend that is never
ready. -/
theorem rpcWithInitRetry_waits_witness :
    (rpcWithInitRetry alwaysNotReady 0 "tools/list" none none).sleeps =
        [250, 500, 1000, 1500, 1500] ∧
      (rpcWithInitRetry alwaysNotReady 0 "tools/list" none none).sleeps.sum = 4750 :=
  (rpcWithInitRetry_waits alwaysNotReady 0 "tools/list" none none).2.2.2 rfl
    (fun _ _ => (by decide : failsTransiently
      (Attempt.threw (lit "Received request before initialization was complete")) = true))

/-- C23: when the first `k` attempts of a run fail with a transient signature
and attempt `k`, one of the allowed tries, does not (it succeeds, or it fails
with an error that matches neither signature), the run makes no further
attempt and leaves as that attempt did: it returns its result, or throws its
error unchanged. -/
theorem rpcWithInitRetry_stops_at_first_final (respond : Nat → Call → Attempt) (base : Nat)
    (method : String) (params : Option JSString) (tries : Option Nat) (k : Nat)
    (hk : k < tries.getD 6)
    (hprev : ∀ j, j < k →
      failsTransiently (respond (base + j) ⟨method, params.getD (lit "\x7b\x7d")⟩) = true)
    (hstop : failsTransiently (respond (base + k) ⟨method, params.getD (lit "\x7b\x7d")⟩) = false) :
    (rpcWithInitRetry respond base method params tries).outcome =
        some (respond (base + k) ⟨method, params.getD (lit "\x7b\x7d")⟩) ∧
      (rpcWithInitRetry respond base method params tries).calls =
        List.replicate (k + 1) ⟨method, params.getD (lit "\x7b\x7d")⟩ ∧
      (rpcWithInitRetry respond base method params tries).sleeps.length = k := by
  rw [rpcWithInitRetry_run respond base method params tries k hprev (Or.inl ⟨hk, hstop⟩)]
  exact ⟨rfl, rfl, by simp⟩

/-- C23, witness: two attempts fail with error -32602, the third with a
time-out, which is thrown at once; a fourth attempt would have succeeded. -/
theorem rpcWithInitRetry_stops_at_first_final_witness :
    (rpcWithInitRetry flakyRespond 0 "tools/list" none none).outcome =
        some (Attempt.threw (lit "RPC timeout: tools/list")) ∧
      (rpcWithInitRetry flakyRespond 0 "tools/list" none none).calls =
        List.replicate 3 ⟨"tools/list", lit "\x7b\x7d"⟩ ∧
      (rpcWithInitRetry flakyRespond 0 "tools/list" none none).sleeps.length = 2 :=
  rpcWithInitRetry_stops_at_first_final flakyRespond 0 "tools/list" none none 2 (by decide)
    (fun j hj => by interval_cases j <;> decide) (by decide)

/-- C24: `getTools` is the first-success search of the spec over the four
variants in the order empty object, no parameters, `limit: 200`, empty
cursor: each variant is one pass of `rpcWithInitRetry`, started after the
invocations of the passes before it; the run stops at the first pass that
does not throw, with `lastToolsVariant` naming that variant and only the
invocations of the passes up to it, and when all four passes throw it leaves
as the fourth did. -/
theorem getTools_first_successful_variant (respond : Nat → Call → Attempt) (base : Nat) :
    getTools respond base =
      specFirstSuccess respond specVariants base
        { outcome := none, lastToolsVariant := none, calls := [], sleeps := [] } := by
  unfold getTools specVariants
  simp only [specFirstSuccess, List.nil_append]
  cases h1 : (rpcWithInitRetry respond base "tools/list" (some (lit "\x7b\x7d")) none).outcome with
  | none => rfl
  | some a1 =>
    cases a1 with
    | returned v => rfl
    | threw e1 =>
      simp only []
      cases h2 : (rpcWithInitRetry respond
        (base + (rpcWithInitRetry respond base "tools/list" (some (lit "\x7b\x7d")) none).calls.length)
        "tools/list" none none).outcome with
      | none => rfl
      | some a2 =>
        cases a2 with
        | returned v => rfl
        | threw e2 =>
          simp only []
          cases h3 : (rpcWithInitRetry respond
            (base + (rpcWithInitRetry respond base "tools/list" (some (lit "\x7b\x7d")) none).calls.length +
              (rpcWithInitRetry respond
                (base + (rpcWithInitRetry respond base "tools/list" (some (lit "\x7b\x7d")) none).calls.length)
                "tools/list" none none).calls.length)
            "tools/list" (some (lit "\x7b\"limit\":200\x7d")) none).outcome with
          | none => simp [h3]
          | some a3 =>
            cases a3 with
            | returned v => simp [h3]
            | threw e3 =>
              simp only [h3, List.append_assoc]
              split <;> rfl

/-- C25 (code bug): the pass for the variant without parameters makes the
invocations of the pass for the empty object, because the parameter `params`
of `rpcWithInitRetry` defaults to the empty object. Against a backend that
rejects a request whose `params` is the empty object and answers any other,
`getTools` writes that same request twice (ids 2 and 3, both with
`"params":{}`), never a request without `params`, and only the third
variant succeeds. -/
theorem no_params_variant_writes_empty_object :
    (∀ (respond : Nat → Call → Attempt) (base : Nat) (method : String) (tries : Option Nat),
        rpcWithInitRetry respond base method none tries =
          rpcWithInitRetry respond base method (some (lit "\x7b\x7d")) tries) ∧
      getTools strictRespond 1 =
        { outcome := some (Attempt.returned (JsonValue.compound (lit "\x7b\"tools\":[]\x7d"))),
          lastToolsVariant := some "tools/list \x7blimit:200\x7d",
          calls := [⟨"tools/list", lit "\x7b\x7d"⟩, ⟨"tools/list", lit "\x7b\x7d"⟩,
            ⟨"tools/list", lit "\x7b\"limit\":200\x7d"⟩],
          sleeps := [] } ∧
      wireOf (getTools strictRespond 1).calls readyChannel =
        [WireLine.request 2 "tools/list" (lit "\x7b\x7d"),
          WireLine.request 3 "tools/list" (lit "\x7b\x7d"),
          WireLine.request 4 "tools/list" (lit "\x7b\"limit\":200\x7d")] := by
  refine ⟨fun _ _ _ _ => rfl, by decide, by decide⟩

/-- C26, counterexample: with `GROQ_MAX_TOKENS = 100` and a first answer 429,
the retry asks for 128 tokens, more than the first request. -/
theorem handleLLM_retry_not_lower :
    (handleLLM 100 rateLimitedOnce).requests = [100, 128] ∧
      ¬ (∀ (n : Nat) (fetch : Nat → Nat → FetchResult) (status : Nat) (ra : RetryAfter),
        1 ≤ n → fetch 0 n = FetchResult.httpError status ra → (status = 429 ∨ status = 503) →
        ∃ first retry, (handleLLM n fetch).requests = [first, retry] ∧ retry < first) := by
  refine ⟨by decide, fun h => ?_⟩
  obtain ⟨first, retry, heq, hlt⟩ :=
    h 100 rateLimitedOnce 429 RetryAfter.absent (by decide) rfl (Or.inl rfl)
  have h2 : (handleLLM 100 rateLimitedOnce).requests = [100, 128] := by decide
  rw [h2] at heq
  simp only [List.cons.injEq, and_true] at heq
  omega

/-- C26 (amended): when the first request of `handleLLM` is answered with
HTTP 429 or 503, exactly one more request is sent, after one wait of at most
8000 ms, and the run leaves as that second request does; the second request
asks for `max(128, floor(GROQ_MAX_TOKENS / 2))` tokens, which is lower than
the first request's `GROQ_MAX_TOKENS` exactly when `GROQ_MAX_TOKENS >= 129`. -/
theorem handleLLM_retries_once (n : Nat) (fetch : Nat → Nat → FetchResult) (status : Nat)
    (ra : RetryAfter) (hfirst : fetch 0 n = FetchResult.httpError status ra)
    (hstatus : status = 429 ∨ status = 503) :
    (handleLLM n fetch).requests = [n, max 128 (n / 2)] ∧
      (handleLLM n fetch).outcome = fetch 1 (max 128 (n / 2)) ∧
      (handleLLM n fetch).waits = [min (retrySeconds ra * 1000) 8000] ∧
      (max 128 (n / 2) < n ↔ 129 ≤ n) := by
  unfold handleLLM
  rw [hfirst]
  simp only [hstatus, if_true]
  refine ⟨trivial, trivial, trivial, ?_⟩
  omega

/-- C26 (amended), witness: the default of 256 tokens, a first answer 429 and
a second answer that succeeds; the retry asks for 128 tokens. -/
theorem handleLLM_retries_once_witness :
    (handleLLM 256 rateLimitedOnce).requests = [256, 128] ∧
      (handleLLM 256 rateLimitedOnce).outcome = FetchResult.ok (lit "\x7b\x7d") :=
  have h := handleLLM_retries_once 256 rateLimitedOnce 429 RetryAfter.absent rfl (Or.inl rfl)
  ⟨h.1, h.2.1⟩

/-! ## The line decoder and the splitting of the stream -/

theorem indexOfNewline_eq_none (buf : JSString) (h : (0x0A : Nat) ∉ buf) :
    indexOfNewline buf = none := by
  induction buf with
  | nil => rfl
  | cons c rest ih =>
    have hc : c ≠ 0x0A := fun hc => h (by simp [hc])
    rw [indexOfNewline, if_neg hc, ih fun hr => h (List.mem_cons_of_mem _ hr)]
    rfl

theorem decodeLines_of_not_mem {σ : Type} (onLine : JSString → σ → σ) (fuel : Nat)
    (buf : JSString) (s : σ) (h : (0x0A : Nat) ∉ buf) :
    decodeLines onLine fuel buf s = (buf, s) := by
  cases fuel with
  | zero => rfl
  | succ fuel => simp only [decodeLines, indexOfNewline_eq_none buf h]

theorem segments_of_not_mem (buf : JSString) (h : (0x0A : Nat) ∉ buf) : segments buf = [buf] := by
  unfold segments List.splitOn
  apply List.splitOnP_eq_single
  intro x hx hp
  rw [beq_iff_eq] at hp
  exact h (hp ▸ hx)

theorem segments_line (line rest : JSString) (h : (0x0A : Nat) ∉ line) :
    segments (line ++ 0x0A :: rest) = line :: segments rest := by
  unfold segments List.splitOn
  apply List.splitOnP_first
  · intro x hx hp
    rw [beq_iff_eq] at hp
    exact h (hp ▸ hx)
  · simp

theorem segments_ne_nil (text : JSString) : segments text ≠ [] :=
  List.splitOnP_ne_nil _ _

theorem specLines_of_not_mem (buf : JSString) (h : (0x0A : Nat) ∉ buf) : specLines buf = [] := by
  simp [specLines, segments_of_not_mem buf h]

theorem specRest_of_not_mem (buf : JSString) (h : (0x0A : Nat) ∉ buf) : specRest buf = buf := by
  simp [specRest, segments_of_not_mem buf h]

theorem specLines_line (line rest : JSString) (h : (0x0A : Nat) ∉ line) :
    specLines (line ++ 0x0A :: rest) =
      (if jsTrim line = [] then [] else [jsTrim line]) ++ specLines rest := by
  unfold specLines
  rw [segments_line line rest h]
  obtain ⟨seg, more, hs⟩ := List.exists_cons_of_ne_nil (segments_ne_nil rest)
  rw [hs, List.dropLast_cons₂, List.map_cons, List.filter_cons]
  by_cases ht : jsTrim line = [] <;> simp [ht]

theorem specRest_line (line rest : JSString) (h : (0x0A : Nat) ∉ line) :
    specRest (line ++ 0x0A :: rest) = specRest rest := by
  unfold specRest
  rw [segments_line line rest h]
  obtain ⟨seg, more, hs⟩ := List.exists_cons_of_ne_nil (segments_ne_nil rest)
  rw [hs, List.getLast?_cons_cons]

/-- A text with a newline starts with a line. -/
theorem exists_line (buf : JSString) (h : (0x0A : Nat) ∈ buf) :
    ∃ line rest, buf = line ++ 0x0A :: rest ∧ (0x0A : Nat) ∉ line := by
  obtain ⟨line, rest, h1, h2⟩ := List.eq_append_cons_of_mem h
  exact ⟨line, rest, h1, h2⟩

/-- Induction on a text line by line. -/
theorem line_induction (P : JSString → Prop)
    (hlast : ∀ buf, (0x0A : Nat) ∉ buf → P buf)
    (hline : ∀ line rest, (0x0A : Nat) ∉ line → P rest → P (line ++ 0x0A :: rest)) :
    ∀ buf, P buf := by
  have key : ∀ (n : Nat) (buf : JSString), buf.length ≤ n → P buf := by
    intro n
    induction n with
    | zero =>
      intro buf hb
      have hnil : buf = [] := List.length_eq_zero.mp (by omega)
      subst hnil
      exact hlast [] (by simp)
    | succ n ih =>
      intro buf hb
      by_cases h : (0x0A : Nat) ∈ buf
      · obtain ⟨line, rest, rfl, hl⟩ := exists_line buf h
        refine hline line rest hl (ih rest ?_)
        simp only [List.length_append, List.length_cons] at hb
        omega
      · exact hlast buf h
  exact fun buf => key buf.length buf (le_refl _)

/-- The decoding loop hands the lines of the buffer to the handler, in order,
and leaves the text after the last newline. -/
theorem decodeLines_eq_spec {σ : Type} (onLine : JSString → σ → σ) (buf : JSString) :
    ∀ s : σ, decodeLines onLine buf.length buf s =
      (specRest buf, (specLines buf).foldl (fun s line => onLine line s) s) := by
  induction buf using line_induction with
  | hlast buf h =>
    intro s
    rw [decodeLines_of_not_mem onLine _ buf s h, specRest_of_not_mem buf h,
      specLines_of_not_mem buf h]
    rfl
  | hline line rest h ih =>
    intro s
    rw [decodeLines_line onLine line rest s h, ih, specRest_line line rest h,
      specLines_line line rest h]
    by_cases ht : jsTrim line = [] <;> simp [ht]

theorem specRest_not_mem (text : JSString) : (0x0A : Nat) ∉ specRest text := by
  induction text using line_induction with
  | hlast buf h => rwa [specRest_of_not_mem buf h]
  | hline line rest h ih => rwa [specRest_line line rest h]

theorem specRest_append (text more : JSString) :
    specRest (specRest text ++ more) = specRest (text ++ more) := by
  induction text using line_induction with
  | hlast buf h => rw [specRest_of_not_mem buf h]
  | hline line rest h ih =>
    rw [specRest_line line rest h, ih, List.append_assoc, List.cons_append,
      specRest_line line (rest ++ more) h]

theorem specLines_append (text more : JSString) :
    specLines (text ++ more) = specLines text ++ specLines (specRest text ++ more) := by
  induction text using line_induction with
  | hlast buf h => rw [specRest_of_not_mem buf h, specLines_of_not_mem buf h, List.nil_append]
  | hline line rest h ih =>
    rw [List.append_assoc, List.cons_append, specLines_line line (rest ++ more) h, ih,
      specLines_line line rest h, specRest_line line rest h, List.append_assoc]

/-- One chunk: the decoder continues the decoding of the text received so
far. -/
theorem lineDecoder_spec {σ : Type} (onLine : JSString → σ → σ) (chunk : List Nat)
    (text : JSString) (s : σ) :
    lineDecoder onLine chunk (specRest text, (specLines text).foldl (fun s line => onLine line s) s) =
      (specRest (text ++ utf8Decode chunk),
        (specLines (text ++ utf8Decode chunk)).foldl (fun s line => onLine line s) s) := by
  unfold lineDecoder
  simp only []
  rw [decodeLines_eq_spec, specRest_append, specLines_append text, List.foldl_append]

/-- The text received by the decoder: the chunks decoded one by one. -/
theorem feedChunks_spec {σ : Type} (onLine : JSString → σ → σ) (chunks : List (List Nat)) (s : σ) :
    feedChunks onLine chunks s =
      (specRest (chunks.map utf8Decode).flatten,
        (specLines (chunks.map utf8Decode).flatten).foldl (fun s line => onLine line s) s) := by
  unfold feedChunks
  have key : ∀ (cs : List (List Nat)) (text : JSString),
      cs.foldl (fun st chunk => lineDecoder onLine chunk st)
          (specRest text, (specLines text).foldl (fun s line => onLine line s) s) =
        (specRest (text ++ (cs.map utf8Decode).flatten),
          (specLines (text ++ (cs.map utf8Decode).flatten)).foldl
            (fun s line => onLine line s) s) := by
    intro cs
    induction cs with
    | nil => intro text; simp
    | cons c cs ih =>
      intro text
      rw [List.foldl_cons, lineDecoder_spec, ih]
      simp
  have h0 := key chunks []
  simpa [specRest, specLines, segments] using h0

/-- After every chunk the buffer holds no newline. -/
theorem feedChunks_buffer {σ : Type} (onLine : JSString → σ → σ) (chunks : List (List Nat))
    (s : σ) : (0x0A : Nat) ∉ (feedChunks onLine chunks s).1 := by
  rw [feedChunks_spec]
  exact specRest_not_mem _

/-- C27 (code bug): the lines handed to the handler are the lines of the
chunks decoded one by one, not of the stream. When the two bytes of the
letter `é` arrive in two reads, the line `é` of the stream is handed to the
handler as two replacement characters U+FFFD; read in one chunk, the same
bytes give the line `é`. After either run the buffer is empty. -/
theorem lineDecoder_splits_multibyte_character :
    feedChunks recordLine [[0xC3], [0xA9, 0x0A]] [] = ([], [[0xFFFD, 0xFFFD]]) ∧
      feedChunks recordLine [[0xC3, 0xA9, 0x0A]] [] = ([], [[0xE9]]) ∧
      specLines (utf8Decode ([0xC3] ++ [0xA9, 0x0A])) = [[0xE9]] := by
  decide

end McpBridge

namespace LocalIntent

open P1Core JsRegex

/-! ## The search helper of `parseLocalIntent` -/

/-- C30 (code bug): on `busca en src con foo` with `search_files` in the tool
list, the pattern of the search helper captures the verb `busca`, the
directory `src` and the text `foo`, and `parseLocalIntent` returns
`search_files` with the verb as `path` and the directory as `pattern`; the
text to search for is dropped. The same happens on
`search docs pattern "x y"`: path `search`, pattern `docs`. -/
theorem parseLocalIntent_search_takes_verb_as_path :
    (regexMatch true searchRe (lit "busca en src con foo")).map
        (fun m => (m.get 1, m.get 2, m.get 3)) =
        some (some (lit "busca"), some (lit "src"), some (lit "foo")) ∧
      parseLocalIntent (lit "busca en src con foo") fsTools =
        Parse.intent ⟨"search_files",
          [("path", ArgValue.str (lit "busca")), ("pattern", ArgValue.str (lit "src"))]⟩ ∧
      parseLocalIntent (lit "search docs pattern \"x y\"") fsTools =
        Parse.intent ⟨"search_files",
          [("path", ArgValue.str (lit "search")), ("pattern", ArgValue.str (lit "docs"))]⟩ := by
  decide

end LocalIntent
